import Mathlib

/-!
Verification of the ripenv translation core: the Pipfile data model, the
Pipfile writer, the Pipfile → pyproject bridge, and the Pipfile.lock
reconstructor.  Rust `BTreeMap<String, V>` values are embedded as
association lists sorted strictly by key; machine-level details such as
SHA-256 are implemented directly over `Nat` bytes.
-/

set_option maxHeartbeats 1000000

/-! ## Sorted-map embedding of `BTreeMap<String, V>` -/

/-- Association list standing for a `BTreeMap<String, V>`; the map invariant
(keys strictly increasing) is stated separately where needed. -/
abbrev SMap (α : Type) := List (String × α)

/-- Strict lexicographic order on character lists, by code point. -/
def strLtChars : List Char → List Char → Bool
  | [], [] => false
  | [], _ :: _ => true
  | _ :: _, [] => false
  | a :: as, b :: bs =>
    if a.toNat < b.toNat then true
    else if b.toNat < a.toNat then false
    else strLtChars as bs

/-- The `Ord` used by Rust `BTreeMap<String, _>`: byte-lexicographic
comparison, which on UTF-8 strings equals code-point lexicographic order. -/
def strLt (a b : String) : Bool := strLtChars a.data b.data

/-- Lookup by key, mirroring `BTreeMap::get`. -/
def SMap.lookup? {α : Type} (m : SMap α) (k : String) : Option α :=
  match m with
  | [] => none
  | (k0, v0) :: rest => if k0 = k then some v0 else SMap.lookup? rest k

/-- Insert preserving sortedness, mirroring `BTreeMap::insert`
(overwrites an existing binding for the same key). -/
def SMap.insert {α : Type} (k : String) (v : α) : SMap α → SMap α
  | [] => [(k, v)]
  | (k0, v0) :: rest =>
    if strLt k k0 then (k, v) :: (k0, v0) :: rest
    else if k = k0 then (k, v) :: rest
    else (k0, v0) :: SMap.insert k v rest

/-- Keys of the map, in iteration order. -/
def SMap.keys {α : Type} (m : SMap α) : List String := m.map Prod.fst

/-- The `BTreeMap` invariant: keys strictly increasing. -/
def SMap.sortedKeys {α : Type} : SMap α → Bool
  | [] => true
  | [_] => true
  | a :: b :: rest => strLt a.1 b.1 && SMap.sortedKeys (b :: rest)

deriving instance DecidableEq for Except

/-! ## Pipfile data model (src/crates/ripenv/src/pipfile/model.rs) -/

/-- A `[[source]]` entry in the Pipfile. -/
structure PipfileSource where
  name : String
  url : String
  verify_ssl : Bool
deriving Repr, DecidableEq

/-- Extended package specification fields (`PipfilePackageDetail`). -/
structure PipfilePackageDetail where
  version : Option String := none
  extras : List String := []
  markers : Option String := none
  sys_platform : Option String := none
  git : Option String := none
  git_ref : Option String := none
  path : Option String := none
  editable : Bool := false
  index : Option String := none
deriving Repr, DecidableEq

/-- A package dependency: a simple version string or a detail table. -/
inductive PipfilePackage where
  | Simple (version : String)
  | Detailed (detail : PipfilePackageDetail)
deriving Repr, DecidableEq

/-- The `[requires]` section of a Pipfile. -/
structure PipfileRequires where
  python_version : Option String
  python_full_version : Option String
deriving Repr, DecidableEq

/-- The `[pipenv]` section for pipenv-specific settings. -/
structure PipfileSettings where
  allow_prereleases : Bool
deriving Repr, DecidableEq

/-- Top-level Pipfile structure. -/
structure Pipfile where
  source : List PipfileSource
  packages : SMap PipfilePackage
  dev_packages : SMap PipfilePackage
  requires : Option PipfileRequires
  scripts : SMap String
  pipenv : Option PipfileSettings
deriving Repr, DecidableEq

/-! ## Bridge (src/crates/ripenv/src/pipfile/bridge.rs) -/

/-- Escape a string for use in a TOML quoted string value
(`bridge.rs::escape_toml_string`): every backslash becomes two, every
double quote gets a backslash.  Embedded character-by-character, which
agrees with the two sequential `str::replace` passes of the source. -/
def escapeTomlChar (c : Char) : List Char :=
  if c = '\\' then ['\\', '\\'] else if c = '"' then ['\\', '"'] else [c]

/-- String-level escaping used by the bridge. -/
def escape_toml_string (s : String) : String :=
  ⟨(s.data.map escapeTomlChar).flatten⟩

/-- A converted dependency (`bridge.rs::ConvertedDep`). -/
structure ConvertedDep where
  name : String
  requirement : String
  source : Option String
deriving Repr, DecidableEq

/-- Format a simple version requirement (`bridge.rs::format_simple_requirement`). -/
def format_simple_requirement (name version : String) : String :=
  if version = "*" then name else name ++ version

/-- Build a PEP 508 marker string from detail fields (`bridge.rs::build_marker`). -/
def build_marker (detail : PipfilePackageDetail) : String :=
  let parts : List String :=
    (match detail.markers with
     | some markers => [markers]
     | none => []) ++
    (match detail.sys_platform with
     | some sys_platform => ["sys_platform " ++ sys_platform]
     | none => [])
  String.intercalate " and " parts

/-- Build an inline TOML source table for `[tool.uv.sources]`
(`bridge.rs::build_uv_source`). -/
def build_uv_source (detail : PipfilePackageDetail) : Option String :=
  match detail.git with
  | some git =>
    let parts : List String :=
      ["git = \"" ++ git ++ "\""] ++
      (match detail.git_ref with
       | some git_ref => ["rev = \"" ++ git_ref ++ "\""]
       | none => [])
    some ("\x7b " ++ String.intercalate ", " parts ++ " \x7d")
  | none =>
    match detail.path with
    | some path =>
      let parts : List String :=
        ["path = \"" ++ path ++ "\""] ++
        (if detail.editable then ["editable = true"] else [])
      some ("\x7b " ++ String.intercalate ", " parts ++ " \x7d")
    | none =>
      match detail.index with
      | some index => some ("\x7b index = \"" ++ index ++ "\" \x7d")
      | none => none

/-- Extras fragment of a detailed requirement (`convert_detailed_package`,
the `[extras]` push). -/
def extrasFragment (detail : PipfilePackageDetail) : String :=
  if detail.extras.isEmpty then ""
  else "[" ++ String.intercalate "," detail.extras ++ "]"

/-- Version fragment of a detailed requirement (`convert_detailed_package`,
the version push guarded by the absence of git/path and the wildcard). -/
def versionFragment (detail : PipfilePackageDetail) : String :=
  if detail.git.isNone && detail.path.isNone then
    match detail.version with
    | some version => if version = "*" then "" else version
    | none => ""
  else ""

/-- Marker fragment of a detailed requirement (`convert_detailed_package`,
the `"; "` push guarded by non-emptiness of the marker). -/
def markerFragment (detail : PipfilePackageDetail) : String :=
  let marker := build_marker detail
  if marker.isEmpty then "" else "; " ++ marker

/-- Convert a detailed package spec (`bridge.rs::convert_detailed_package`). -/
def convert_detailed_package (name : String) (detail : PipfilePackageDetail) :
    ConvertedDep :=
  { name := name
    requirement :=
      name ++ extrasFragment detail ++ versionFragment detail ++ markerFragment detail
    source := build_uv_source detail }

/-- Convert a single Pipfile package (`bridge.rs::convert_package`). -/
def convert_package (name : String) (package : PipfilePackage) : ConvertedDep :=
  match package with
  | .Simple version =>
    { name := name
      requirement := format_simple_requirement name version
      source := none }
  | .Detailed detail => convert_detailed_package name detail

/-- Convert a map of Pipfile packages (`bridge.rs::convert_packages`);
iteration follows the sorted `BTreeMap` order, i.e. the list order. -/
def convert_packages (packages : SMap PipfilePackage) : List ConvertedDep :=
  packages.map (fun kv => convert_package kv.1 kv.2)

/-- One `writeln!` call: the written line followed by a newline. -/
def wline (s : String) : String := s ++ "\n"

/-- The `requires-python` lines of the generated pyproject
(`bridge.rs::pipfile_to_pyproject_toml`, the `if let` chain on
`python_version` / `python_full_version`). -/
def requiresPythonLines (requires : Option PipfileRequires) : String :=
  match requires with
  | some req =>
    match req.python_version with
    | some version => wline ("requires-python = \">=" ++ version ++ "\"")
    | none =>
      match req.python_full_version with
      | some full_version => wline ("requires-python = \"==" ++ full_version ++ "\"")
      | none => ""
  | none => ""

/-- Write a `[[tool.uv.index]]` entry (`bridge.rs::write_index_entry`). -/
def write_index_entry (source : PipfileSource) (is_first : Bool) : String :=
  wline "[[tool.uv.index]]" ++
  wline ("name = \"" ++ escape_toml_string source.name ++ "\"") ++
  wline ("url = \"" ++ escape_toml_string source.url ++ "\"") ++
  (if is_first then wline "default = true" else "") ++
  wline ""

/-- The `[project]` header lines of the generated pyproject
(`pipfile_to_pyproject_toml`, `projectPart`). -/
def pyprojectProjectPart (pipfile : Pipfile) (project_name : String) : String :=
  wline "[project]" ++
  wline ("name = \"" ++ escape_toml_string project_name ++ "\"") ++
  wline "version = \"0.0.0\"" ++
  requiresPythonLines pipfile.requires

/-- The `dependencies = [...]` lines of the generated pyproject. -/
def pyprojectDepsPart (pipfile : Pipfile) : String :=
  wline "dependencies = [" ++
  String.join ((convert_packages pipfile.packages).map
    (fun d => wline ("    \"" ++ escape_toml_string d.requirement ++ "\","))) ++
  wline "]"

/-- The `[dependency-groups]` lines of the generated pyproject. -/
def pyprojectDevPart (pipfile : Pipfile) : String :=
  if (convert_packages pipfile.dev_packages).isEmpty then ""
  else
    wline "" ++ wline "[dependency-groups]" ++
    wline "dev = [" ++
    String.join ((convert_packages pipfile.dev_packages).map
      (fun d => wline ("    \"" ++ escape_toml_string d.requirement ++ "\","))) ++
    wline "]"

/-- The `[[tool.uv.index]]` lines of the generated pyproject: one entry
per manifest source, in source order, the first marked default. -/
def pyprojectIndexPart (pipfile : Pipfile) : String :=
  if pipfile.source.isEmpty then ""
  else
    wline "" ++
    String.join (pipfile.source.enum.map (fun p => write_index_entry p.2 (p.1 == 0)))

/-- The `[tool.uv.sources]` lines of the generated pyproject. -/
def pyprojectSourcesPart (pipfile : Pipfile) : String :=
  let all_sources :=
    (convert_packages pipfile.packages ++ convert_packages pipfile.dev_packages).filter
      (fun d => d.source.isSome)
  if all_sources.isEmpty then ""
  else
    wline "" ++ wline "[tool.uv.sources]" ++
    String.join (all_sources.map (fun d =>
      match d.source with
      | some source => wline (d.name ++ " = " ++ source)
      | none => ""))

/-- Convert a Pipfile into a virtual pyproject.toml TOML string
(`bridge.rs::pipfile_to_pyproject_toml`).  The source is a linear
sequence of `writeln!` calls, embedded as the concatenation of the five
part builders above, which mirror its `let` blocks. -/
def pipfile_to_pyproject_toml (pipfile : Pipfile) (project_name : String) : String :=
  pyprojectProjectPart pipfile project_name ++
  pyprojectDepsPart pipfile ++
  pyprojectDevPart pipfile ++
  pyprojectIndexPart pipfile ++
  pyprojectSourcesPart pipfile

/-! ## Name/version splitting (src/crates/ripenv/src/commands/install.rs) -/

/-- The version-constraint operator characters of `split_name_version`. -/
def isVersionOpChar (c : Char) : Bool :=
  c = '>' || c = '<' || c = '=' || c = '!' || c = '~'

/-- Character-level worker for `split_name_version`: split at the first
occurrence of a constraint operator character. -/
def splitNVChars : List Char → List Char × List Char
  | [] => ([], [])
  | c :: rest =>
    if isVersionOpChar c then ([], c :: rest)
    else
      let p := splitNVChars rest
      (c :: p.1, p.2)

/-- Split a package spec into name and version parts
(`install.rs::split_name_version`). -/
def split_name_version (spec : String) : String × String :=
  let p := splitNVChars spec.data
  (⟨p.1⟩, ⟨p.2⟩)

/-! ## Pipfile writer (src/crates/ripenv/src/pipfile/writer.rs) -/

/-- Escape a string for TOML double-quoted values
(`writer.rs::escape_toml_value`); identical algorithm to the bridge copy. -/
def escape_toml_value (s : String) : String :=
  ⟨(s.data.map escapeTomlChar).flatten⟩

/-- Render the inline table fields of a detailed package spec
(`writer.rs::write_detail_fields`): fixed field order, absent fields
omitted, joined by `", "`. -/
def write_detail_fields (detail : PipfilePackageDetail) : String :=
  let fields : List String :=
    (match detail.version with
     | some version => ["version = \"" ++ version ++ "\""]
     | none => []) ++
    (if detail.extras.isEmpty then []
     else ["extras = [" ++
       String.intercalate ", " (detail.extras.map (fun e => "\"" ++ e ++ "\"")) ++ "]"]) ++
    (match detail.git with
     | some git => ["git = \"" ++ git ++ "\""]
     | none => []) ++
    (match detail.git_ref with
     | some git_ref => ["ref = \"" ++ git_ref ++ "\""]
     | none => []) ++
    (match detail.path with
     | some path => ["path = \"" ++ path ++ "\""]
     | none => []) ++
    (if detail.editable then ["editable = true"] else []) ++
    (match detail.index with
     | some index => ["index = \"" ++ index ++ "\""]
     | none => []) ++
    (match detail.markers with
     | some markers => ["markers = \"" ++ markers ++ "\""]
     | none => []) ++
    (match detail.sys_platform with
     | some sys_platform => ["sys_platform = \"" ++ sys_platform ++ "\""]
     | none => [])
  String.intercalate ", " fields

/-- Render one package binding line (`writer.rs::write_packages`, loop body). -/
def write_package_line (name : String) (package : PipfilePackage) : String :=
  match package with
  | .Simple version => wline (name ++ " = \"" ++ version ++ "\"")
  | .Detailed detail => wline (name ++ " = \x7b" ++ write_detail_fields detail ++ "\x7d")

/-- Render a map of packages (`writer.rs::write_packages`). -/
def write_packages (packages : SMap PipfilePackage) : String :=
  String.join (packages.map (fun kv => write_package_line kv.1 kv.2))

/-- Render one `[[source]]` block of the writer output. -/
def write_source_block (source : PipfileSource) : String :=
  wline "[[source]]" ++
  wline ("url = \"" ++ source.url ++ "\"") ++
  wline ("verify_ssl = " ++ (if source.verify_ssl then "true" else "false")) ++
  wline ("name = \"" ++ source.name ++ "\"") ++
  wline ""

/-- Serialize the Pipfile to a TOML string (`writer.rs::Pipfile::to_toml_string`):
sources, packages, dev-packages, requires, scripts, pipenv, in that order.
Only script command values pass through `escape_toml_value`. -/
def Pipfile.to_toml_string (p : Pipfile) : String :=
  String.join (p.source.map write_source_block) ++
  wline "[packages]" ++ write_packages p.packages ++ wline "" ++
  wline "[dev-packages]" ++ write_packages p.dev_packages ++ wline "" ++
  (match p.requires with
   | some requires =>
     wline "[requires]" ++
     (match requires.python_version with
      | some version => wline ("python_version = \"" ++ version ++ "\"")
      | none => "") ++
     (match requires.python_full_version with
      | some full_version => wline ("python_full_version = \"" ++ full_version ++ "\"")
      | none => "") ++
     wline ""
   | none => "") ++
  (if p.scripts.isEmpty then ""
   else
     wline "[scripts]" ++
     String.join (p.scripts.map (fun kv =>
       wline (kv.1 ++ " = \"" ++ escape_toml_value kv.2 ++ "\""))) ++
     wline "") ++
  (match p.pipenv with
   | some settings =>
     wline "[pipenv]" ++
     (if settings.allow_prereleases then wline "allow_prereleases = true" else "") ++
     wline ""
   | none => "")

/-! ## JSON values (embedding of `serde_json::Value`) -/

/-- JSON value; objects carry their keys in iteration order of the
backing `serde_json::Map`, which (default features) is a `BTreeMap`,
i.e. sorted by key. -/
inductive Json where
  | null
  | bool (b : Bool)
  | num (n : Nat)
  | str (s : String)
  | arr (xs : List Json)
  | obj (kvs : List (String × Json))

/-- Lowercase hexadecimal digit characters. -/
def hexDigitChar : Nat → Char
  | 0 => '0' | 1 => '1' | 2 => '2' | 3 => '3'
  | 4 => '4' | 5 => '5' | 6 => '6' | 7 => '7'
  | 8 => '8' | 9 => '9' | 10 => 'a' | 11 => 'b'
  | 12 => 'c' | 13 => 'd' | 14 => 'e' | 15 => 'f'
  | _ => '0'

/-- `serde_json` escaping of one character inside a JSON string:
quote, backslash, and the short control escapes, with `\u00XX` for the
remaining control characters. -/
def jsonEscapeChar (c : Char) : List Char :=
  if c = '"' then ['\\', '"']
  else if c = '\\' then ['\\', '\\']
  else if c = Char.ofNat 8 then ['\\', 'b']
  else if c = '\t' then ['\\', 't']
  else if c = '\n' then ['\\', 'n']
  else if c = Char.ofNat 12 then ['\\', 'f']
  else if c = '\r' then ['\\', 'r']
  else if c.toNat < 32 then
    ['\\', 'u', '0', '0', hexDigitChar (c.toNat / 16), hexDigitChar (c.toNat % 16)]
  else [c]

/-- Render a JSON string literal the way `serde_json` does. -/
def jsonString (s : String) : String :=
  "\"" ++ ⟨(s.data.map jsonEscapeChar).flatten⟩ ++ "\""

/-- Compact JSON rendering, matching `serde_json::to_string`
(separators `","` and `":"`, no extra whitespace). -/
def Json.render : Json → String
  | .null => "null"
  | .bool true => "true"
  | .bool false => "false"
  | .num n => toString n
  | .str s => jsonString s
  | .arr xs =>
    "[" ++ String.intercalate "," (xs.attach.map (fun x => Json.render x.1)) ++ "]"
  | .obj kvs =>
    "\x7b" ++
    String.intercalate ","
      (kvs.attach.map (fun kv => jsonString kv.1.1 ++ ":" ++ Json.render kv.1.2)) ++
    "\x7d"
decreasing_by
  · have := List.sizeOf_lt_of_mem x.2
    simp at *; omega
  · have h1 := List.sizeOf_lt_of_mem kv.2
    obtain ⟨⟨k, v⟩, hm⟩ := kv
    simp at *; omega

/-! ## SHA-256 over byte lists (embedding of the `sha2` crate usage) -/

/-- Truncate to a 32-bit word. -/
def w32 (x : Nat) : Nat := x % 4294967296

/-- Right rotation of a 32-bit word. -/
def rotr32 (n x : Nat) : Nat := w32 ((x >>> n) ||| (x <<< (32 - n)))

/-- Bitwise complement of a 32-bit word. -/
def not32 (x : Nat) : Nat := w32 x ^^^ 4294967295

/-- SHA-256 `Ch` function. -/
def sha2Ch (x y z : Nat) : Nat := (x &&& y) ^^^ (not32 x &&& z)

/-- SHA-256 `Maj` function. -/
def sha2Maj (x y z : Nat) : Nat := (x &&& y) ^^^ (x &&& z) ^^^ (y &&& z)

/-- SHA-256 big sigma 0. -/
def bigSigma0 (x : Nat) : Nat := rotr32 2 x ^^^ rotr32 13 x ^^^ rotr32 22 x

/-- SHA-256 big sigma 1. -/
def bigSigma1 (x : Nat) : Nat := rotr32 6 x ^^^ rotr32 11 x ^^^ rotr32 25 x

/-- SHA-256 small sigma 0. -/
def smallSigma0 (x : Nat) : Nat := rotr32 7 x ^^^ rotr32 18 x ^^^ (x >>> 3)

/-- SHA-256 small sigma 1. -/
def smallSigma1 (x : Nat) : Nat := rotr32 17 x ^^^ rotr32 19 x ^^^ (x >>> 10)

/-- The eight 32-bit state words of SHA-256. -/
structure Hash8 where
  a : Nat
  b : Nat
  c : Nat
  d : Nat
  e : Nat
  f : Nat
  g : Nat
  h : Nat
deriving Repr, DecidableEq

/-- SHA-256 round constants. -/
def sha2K : List Nat :=
  [1116352408, 1899447441, 3049323471, 3921009573, 961987163, 1508970993,
   2453635748, 2870763221, 3624381080, 310598401, 607225278, 1426881987,
   1925078388, 2162078206, 2614888103, 3248222580, 3835390401, 4022224774,
   264347078, 604807628, 770255983, 1249150122, 1555081692, 1996064986,
   2554220882, 2821834349, 2952996808, 3210313671, 3336571891, 3584528711,
   113926993, 338241895, 666307205, 773529912, 1294757372, 1396182291,
   1695183700, 1986661051, 2177026350, 2456956037, 2730485921, 2820302411,
   3259730800, 3345764771, 3516065817, 3600352804, 4094571909, 275423344,
   430227734, 506948616, 659060556, 883997877, 958139571, 1322822218,
   1537002063, 1747873779, 1955562222, 2024104815, 2227730452, 2361852424,
   2428436474, 2756734187, 3204031479, 3329325298]

/-- SHA-256 initial state. -/
def sha2H0 : Hash8 :=
  ⟨1779033703, 3144134277, 1013904242, 2773480762,
   1359893119, 2600822924, 528734635, 1541459225⟩

/-- Big-endian 8-byte encoding of a length in bits. -/
def toBytes8 (n : Nat) : List Nat :=
  [n >>> 56 % 256, n >>> 48 % 256, n >>> 40 % 256, n >>> 32 % 256,
   n >>> 24 % 256, n >>> 16 % 256, n >>> 8 % 256, n % 256]

/-- Big-endian 4-byte encoding of a 32-bit word. -/
def toBytes4 (n : Nat) : List Nat :=
  [n >>> 24 % 256, n >>> 16 % 256, n >>> 8 % 256, n % 256]

/-- SHA-256 message padding: `0x80`, zero fill, 64-bit big-endian bit length. -/
def padMessage (msg : List Nat) : List Nat :=
  let zeros := (64 - (msg.length + 9) % 64) % 64
  msg ++ [0x80] ++ List.replicate zeros 0 ++ toBytes8 (8 * msg.length)

/-- Split a byte list into 64-byte blocks. -/
def chunks64 (l : List Nat) : List (List Nat) :=
  if h : l = [] then []
  else (l.take 64) :: chunks64 (l.drop 64)
termination_by l.length
decreasing_by
  cases l with
  | nil => exact absurd rfl h
  | cons x xs => simp [List.length_drop]; omega

/-- Group bytes into big-endian 32-bit words. -/
def toWords : List Nat → List Nat
  | b0 :: b1 :: b2 :: b3 :: rest =>
    (b0 * 16777216 + b1 * 65536 + b2 * 256 + b3) :: toWords rest
  | _ => []

/-- One extension step of the SHA-256 message schedule. -/
def stepW (w : List Nat) : List Nat :=
  let n := w.length
  w ++ [w32 (smallSigma1 (w.getD (n - 2) 0) + w.getD (n - 7) 0 +
             smallSigma0 (w.getD (n - 15) 0) + w.getD (n - 16) 0)]

/-- The full 64-entry message schedule of one block. -/
def fullSchedule (w16 : List Nat) : List Nat :=
  (List.range 48).foldl (fun w _ => stepW w) w16

/-- One SHA-256 compression round. -/
def sha2Round (st : Hash8) (kw : Nat × Nat) : Hash8 :=
  let t1 := w32 (st.h + bigSigma1 st.e + sha2Ch st.e st.f st.g + kw.1 + kw.2)
  let t2 := w32 (bigSigma0 st.a + sha2Maj st.a st.b st.c)
  ⟨w32 (t1 + t2), st.a, st.b, st.c, w32 (st.d + t1), st.e, st.f, st.g⟩

/-- Compress one 64-byte block into the running state. -/
def compressBlock (h : Hash8) (block : List Nat) : Hash8 :=
  let st := (sha2K.zip (fullSchedule (toWords block))).foldl sha2Round h
  ⟨w32 (h.a + st.a), w32 (h.b + st.b), w32 (h.c + st.c), w32 (h.d + st.d),
   w32 (h.e + st.e), w32 (h.f + st.f), w32 (h.g + st.g), w32 (h.h + st.h)⟩

/-- Digest bytes of a final state (big-endian words `a`..`h`). -/
def digestBytes (h : Hash8) : List Nat :=
  toBytes4 h.a ++ toBytes4 h.b ++ toBytes4 h.c ++ toBytes4 h.d ++
  toBytes4 h.e ++ toBytes4 h.f ++ toBytes4 h.g ++ toBytes4 h.h

/-- SHA-256 of a byte list, as 32 digest bytes. -/
def sha256 (msg : List Nat) : List Nat :=
  digestBytes ((chunks64 (padMessage msg)).foldl compressBlock sha2H0)

/-- Lowercase-hex characters of a byte list, two digits per byte, matching
the `{hash:x}` formatting of the digest output. -/
def bytesToHexChars (bytes : List Nat) : List Char :=
  (bytes.map (fun b => [hexDigitChar (b / 16 % 16), hexDigitChar (b % 16)])).flatten

/-- Lowercase-hex string of a byte list. -/
def bytesToHex (bytes : List Nat) : String := ⟨bytesToHexChars bytes⟩

/-- UTF-8 encoding of one character (for `str::as_bytes`). -/
def utf8EncodeChar (c : Char) : List Nat :=
  let n := c.toNat
  if n < 128 then [n]
  else if n < 2048 then [192 ||| (n >>> 6), 128 ||| (n &&& 63)]
  else if n < 65536 then
    [224 ||| (n >>> 12), 128 ||| ((n >>> 6) &&& 63), 128 ||| (n &&& 63)]
  else
    [240 ||| (n >>> 18), 128 ||| ((n >>> 12) &&& 63),
     128 ||| ((n >>> 6) &&& 63), 128 ||| (n &&& 63)]

/-- UTF-8 bytes of a string. -/
def utf8Bytes (s : String) : List Nat := (s.data.map utf8EncodeChar).flatten

/-! ## Pipfile hash computation (src/crates/ripenv/src/pipfile/lockfile.rs) -/

/-- Convert `PipfileRequires` to a JSON value
(`lockfile.rs::pipfile_requires_to_json`). -/
def pipfile_requires_to_json (requires : Option PipfileRequires) : Json :=
  match requires with
  | some req =>
    let map : SMap Json := []
    let map :=
      match req.python_version with
      | some version => SMap.insert "python_version" (Json.str version) map
      | none => map
    let map :=
      match req.python_full_version with
      | some full_version => SMap.insert "python_full_version" (Json.str full_version) map
      | none => map
    Json.obj map
  | none => Json.obj []

/-- Convert a `PipfileSource` to a JSON value (`lockfile.rs::source_to_json`). -/
def source_to_json (source : PipfileSource) : Json :=
  Json.obj (SMap.insert "verify_ssl" (Json.bool source.verify_ssl)
    (SMap.insert "url" (Json.str source.url)
      (SMap.insert "name" (Json.str source.name) [])))

/-- Modelled from the spec: the serde `Serialize` behaviour of
`PipfilePackageDetail`, which is not under src/ (only its use in
`lockfile.rs::packages_to_json` via `serde_json::to_value` is); per §4.4
the detail is serialized as "its full structured form", with the field
renamed `ref` and keys in the sorted order of `serde_json::Map`. -/
def optStrJson (v : Option String) : Json :=
  match v with
  | some s => Json.str s
  | none => Json.null

/-- Modelled from the spec: serde serialization of the detail table; see
the doc comment above. -/
def detail_to_json (detail : PipfilePackageDetail) : Json :=
  let map : SMap Json := []
  let map := SMap.insert "version" (optStrJson detail.version) map
  let map := SMap.insert "extras" (Json.arr (detail.extras.map Json.str)) map
  let map := SMap.insert "markers" (optStrJson detail.markers) map
  let map := SMap.insert "sys_platform" (optStrJson detail.sys_platform) map
  let map := SMap.insert "git" (optStrJson detail.git) map
  let map := SMap.insert "ref" (optStrJson detail.git_ref) map
  let map := SMap.insert "path" (optStrJson detail.path) map
  let map := SMap.insert "editable" (Json.bool detail.editable) map
  let map := SMap.insert "index" (optStrJson detail.index) map
  Json.obj map

/-- Convert a Pipfile packages map to a JSON value
(`lockfile.rs::packages_to_json`). -/
def packages_to_json (packages : SMap PipfilePackage) : Json :=
  Json.obj (packages.foldl (fun map kv =>
    SMap.insert kv.1
      (match kv.2 with
       | .Simple version => Json.str version
       | .Detailed detail => detail_to_json detail) map) [])

/-- Compute the Pipfile content hash (`lockfile.rs::compute_pipfile_hash`):
SHA-256 of the compact JSON document built only from Pipfile content. -/
def compute_pipfile_hash (pipfile : Pipfile) : String :=
  let meta : SMap Json :=
    SMap.insert "sources" (Json.arr (pipfile.source.map source_to_json))
      (SMap.insert "requires" (pipfile_requires_to_json pipfile.requires) [])
  let root : SMap Json :=
    SMap.insert "develop" (packages_to_json pipfile.dev_packages)
      (SMap.insert "default" (packages_to_json pipfile.packages)
        (SMap.insert "_meta" (Json.obj meta) []))
  let json := Json.render (Json.obj root)
  bytesToHex (sha256 (utf8Bytes json))

/-! ## Line-level view of emitted text -/

/-- Split a character stream at newlines (the final fragment is kept even
when empty, matching the view of text as newline-terminated lines). -/
def linesAux : List Char → List (List Char)
  | [] => [[]]
  | c :: rest =>
    if c = '\n' then [] :: linesAux rest
    else
      match linesAux rest with
      | [] => [[c]]
      | l :: ls => (c :: l) :: ls

/-- Lines of a string, as character lists. -/
def linesOf (s : String) : List (List Char) := linesAux s.data

theorem linesAux_append_line (a rest : List Char) (h : ∀ c ∈ a, c ≠ '\n') :
    linesAux (a ++ '\n' :: rest) = a :: linesAux rest := by
  induction a with
  | nil => simp [linesAux]
  | cons c a ih =>
    have hc : c ≠ '\n' := h c (by simp)
    simp only [List.cons_append, linesAux, if_neg hc, List.append_eq]
    rw [ih (fun x hx => h x (by simp [hx]))]

theorem linesAux_wline (a : String) (rest : String) (h : ∀ c ∈ a.data, c ≠ '\n') :
    linesOf (wline a ++ rest) = a.data :: linesOf rest := by
  unfold linesOf wline
  have hd : (a ++ "\n" ++ rest).data = a.data ++ '\n' :: rest.data := by simp
  rw [hd]
  exact linesAux_append_line a.data rest.data h

/-! ## Hex digest helper lemmas -/

/-- Lowercase hexadecimal digit test. -/
def isHexChar (c : Char) : Bool :=
  c.isDigit || ('a' ≤ c && c ≤ 'f')

theorem hexDigitChar_isHex (n : Nat) : isHexChar (hexDigitChar n) = true := by
  unfold hexDigitChar
  split <;> decide

theorem bytesToHexChars_length (bytes : List Nat) :
    (bytesToHexChars bytes).length = 2 * bytes.length := by
  induction bytes with
  | nil => rfl
  | cons b rest ih =>
    simp only [bytesToHexChars, List.map_cons, List.flatten_cons] at *
    simp [ih]
    omega

theorem bytesToHexChars_all_hex (bytes : List Nat) :
    ∀ c ∈ bytesToHexChars bytes, isHexChar c = true := by
  induction bytes with
  | nil => intro c hc; simp [bytesToHexChars] at hc
  | cons b rest ih =>
    intro c hc
    simp only [bytesToHexChars, List.map_cons, List.flatten_cons, List.mem_append] at hc
    rcases hc with hc | hc
    · simp at hc
      rcases hc with rfl | rfl <;> exact hexDigitChar_isHex _
    · exact ih c hc

theorem sha256_length (msg : List Nat) : (sha256 msg).length = 32 := by
  simp [sha256, digestBytes, toBytes4]

/-! ## Claim C1: content hash determinism and shape -/

/-- C1: the lock artifact's content hash is a pure, deterministic function
of the manifest alone — equal Pipfile values give equal digests, and every
digest is a 64-character lowercase-hex SHA-256 string.  The embedded
`compute_pipfile_hash` consumes nothing but the Pipfile value: no resolved
graph, iteration state, or prior-run data occurs in its inputs. -/
theorem c1_content_hash_pure_deterministic (p q : Pipfile) (h : p = q) :
    compute_pipfile_hash p = compute_pipfile_hash q ∧
    (compute_pipfile_hash p).length = 64 ∧
    ∀ c ∈ (compute_pipfile_hash p).data, isHexChar c = true := by
  subst h
  refine ⟨rfl, ?_, ?_⟩
  · show (bytesToHex (sha256 _)).length = 64
    show (bytesToHexChars (sha256 _)).length = 64
    rw [bytesToHexChars_length, sha256_length]
  · intro c hc
    exact bytesToHexChars_all_hex _ c hc

/-- Witness for C1 at a concrete manifest. -/
theorem c1_content_hash_pure_deterministic_witness :
    (compute_pipfile_hash ⟨[], [], [], none, [], none⟩).length = 64 :=
  (c1_content_hash_pure_deterministic ⟨[], [], [], none, [], none⟩ _ rfl).2.1

/-! ## Claim C9: name/version splitting -/

theorem splitNVChars_spec (l : List Char) :
    (splitNVChars l).1 ++ (splitNVChars l).2 = l ∧
    (∀ c ∈ (splitNVChars l).1, isVersionOpChar c = false) ∧
    ((splitNVChars l).2 = [] ∨
      ∃ c rest, (splitNVChars l).2 = c :: rest ∧ isVersionOpChar c = true) := by
  induction l with
  | nil => simp [splitNVChars]
  | cons c l ih =>
    obtain ⟨ih1, ih2, ih3⟩ := ih
    by_cases hc : isVersionOpChar c = true
    · refine ⟨by simp [splitNVChars, hc], by simp [splitNVChars, hc], ?_⟩
      right
      exact ⟨c, l, by simp [splitNVChars, hc], hc⟩
    · have hc' : isVersionOpChar c = false := by simpa using hc
      refine ⟨?_, ?_, ?_⟩
      · simp [splitNVChars, hc', ih1]
      · intro x hx
        simp only [splitNVChars, hc'] at hx
        simp at hx
        rcases hx with rfl | hx
        · exact hc'
        · exact ih2 x hx
      · simpa [splitNVChars, hc'] using ih3

/-- C9: the splitter returns the version constraint starting at the first
occurrence of one of `> < = ! ~`, everything before it (including any
`[extras]` suffix, those brackets not being operators) is the name, and a
spec without such a character is all name with an empty version. -/
theorem c9_split_name_version (spec : String) :
    (split_name_version spec).1 ++ (split_name_version spec).2 = spec ∧
    (∀ c ∈ (split_name_version spec).1.data, isVersionOpChar c = false) ∧
    ((split_name_version spec).2 = "" ∨
      ∃ c rest, (split_name_version spec).2.data = c :: rest ∧
        isVersionOpChar c = true) ∧
    ((∀ c ∈ spec.data, isVersionOpChar c = false) →
      split_name_version spec = (spec, "")) := by
  obtain ⟨h1, h2, h3⟩ := splitNVChars_spec spec.data
  refine ⟨?_, ?_, ?_, ?_⟩
  · show String.mk ((splitNVChars spec.data).1 ++ (splitNVChars spec.data).2) = spec
    rw [h1]
  · exact h2
  · rcases h3 with h3 | ⟨c, rest, hcr, hop⟩
    · left
      show String.mk (splitNVChars spec.data).2 = ""
      rw [h3]
    · right
      exact ⟨c, rest, by show (splitNVChars spec.data).2 = c :: rest; exact hcr, hop⟩
  · intro hall
    have h2' : (splitNVChars spec.data).2 = [] := by
      rcases h3 with h3 | ⟨c, rest, hcr, hop⟩
      · exact h3
      · exfalso
        have hmem : c ∈ spec.data := by
          rw [← h1]
          exact List.mem_append.mpr (Or.inr (by simp [hcr]))
        rw [hall c hmem] at hop
        exact Bool.false_ne_true hop
    have h1' : (splitNVChars spec.data).1 = spec.data := by
      have := h1
      rw [h2', List.append_nil] at this
      exact this
    show (String.mk (splitNVChars spec.data).1, String.mk (splitNVChars spec.data).2) =
      (spec, "")
    rw [h1', h2']

/-- Witness for C9 at a concrete operator-free spec. -/
theorem c9_split_name_version_witness :
    split_name_version "flask" = ("flask", "") :=
  (c9_split_name_version "flask").2.2.2 (by decide)

/-! ## Claim C6: version specifier omission -/

/-- C6: in requirement-string conversion the version specifier is omitted
exactly for git/path sources and for the wildcard `"*"`; any other simple
version is appended verbatim, and a detailed git/path package's
requirement ignores its version field entirely. -/
theorem c6_version_specifier_omission :
    format_simple_requirement "flask" "*" = "flask" ∧
    format_simple_requirement "requests" ">=2.32.0" = "requests>=2.32.0" ∧
    (∀ name, format_simple_requirement name "*" = name) ∧
    (∀ name version, version ≠ "*" →
      format_simple_requirement name version = name ++ version) ∧
    (∀ (name : String) (detail : PipfilePackageDetail) (v : Option String),
      detail.git.isSome ∨ detail.path.isSome →
      (convert_detailed_package name { detail with version := v }).requirement =
        (convert_detailed_package name { detail with version := none }).requirement) ∧
    (∀ (name : String) (detail : PipfilePackageDetail) (version : String),
      detail.git = none → detail.path = none →
      detail.version = some version → version ≠ "*" →
      (convert_detailed_package name detail).requirement =
        name ++ extrasFragment detail ++ version ++ markerFragment detail) := by
  refine ⟨rfl, by decide, ?_, ?_, ?_, ?_⟩
  · intro name
    simp [format_simple_requirement]
  · intro name version h
    simp [format_simple_requirement, h]
  · intro name detail v h
    have hv : versionFragment { detail with version := v } = "" ∧
        versionFragment { detail with version := none } = "" := by
      rcases h with h | h
      · rcases Option.isSome_iff_exists.mp h with ⟨g, hg⟩
        constructor <;> simp [versionFragment, hg]
      · rcases Option.isSome_iff_exists.mp h with ⟨pth, hp⟩
        constructor <;> simp [versionFragment, hp]
    show name ++ extrasFragment _ ++ versionFragment _ ++ markerFragment _ =
      name ++ extrasFragment _ ++ versionFragment _ ++ markerFragment _
    rw [hv.1, hv.2]
    simp [extrasFragment, markerFragment, build_marker]
  · intro name detail version hg hp hv hstar
    have : versionFragment detail = version := by
      simp [versionFragment, hg, hp, hv, hstar]
    show name ++ extrasFragment _ ++ versionFragment _ ++ markerFragment _ = _
    rw [this]

/-- Witness for C6 on a concrete git package with a version field. -/
theorem c6_version_specifier_omission_witness :
    (convert_detailed_package "pkg"
      { (({} : PipfilePackageDetail)) with
          git := some "https://example.com/r.git", version := some "==1.0" }).requirement =
    (convert_detailed_package "pkg"
      { (({} : PipfilePackageDetail)) with
          git := some "https://example.com/r.git", version := none }).requirement :=
  c6_version_specifier_omission.2.2.2.2.1 "pkg"
    { ({} : PipfilePackageDetail) with git := some "https://example.com/r.git" }
    (some "==1.0") (Or.inl (by decide))

/-! ## Claim C10: requires-python precedence -/

/-- C10: when both the minor and the full Python version are set, the
bridge emits `requires-python` as a `>=` floor from the minor version and
ignores the full version; the `==` form appears only when the minor
version is absent and the full version present.  The final conjunct shows
that only this fragment of the pyproject output reads the `requires`
section at all. -/
theorem c10_requires_python_minor_precedence :
    (∀ (v : String) (fv : Option String),
      requiresPythonLines (some ⟨some v, fv⟩) =
        wline ("requires-python = \">=" ++ v ++ "\"")) ∧
    (∀ fv : String,
      requiresPythonLines (some ⟨none, some fv⟩) =
        wline ("requires-python = \"==" ++ fv ++ "\"")) ∧
    requiresPythonLines (some ⟨none, none⟩) = "" ∧
    requiresPythonLines none = "" ∧
    (∀ (p : Pipfile) (n : String) (r : Option PipfileRequires),
      pipfile_to_pyproject_toml { p with requires := r } n =
        wline "[project]" ++ wline ("name = \"" ++ escape_toml_string n ++ "\"") ++
        wline "version = \"0.0.0\"" ++ requiresPythonLines r ++
        (pyprojectDepsPart p ++ pyprojectDevPart p ++ pyprojectIndexPart p ++
          pyprojectSourcesPart p)) := by
  refine ⟨fun v fv => rfl, fun fv => rfl, rfl, rfl, ?_⟩
  intro p n r
  show pyprojectProjectPart _ n ++ pyprojectDepsPart _ ++ pyprojectDevPart _ ++
    pyprojectIndexPart _ ++ pyprojectSourcesPart _ = _
  simp only [pyprojectProjectPart, pyprojectDepsPart, pyprojectDevPart,
    pyprojectIndexPart, pyprojectSourcesPart, String.append_assoc]

/-- Witness for C10 on concrete requires values. -/
theorem c10_requires_python_minor_precedence_witness :
    requiresPythonLines (some ⟨some "3.12", some "3.12.1"⟩) =
      wline ("requires-python = \">=" ++ "3.12" ++ "\"") :=
  c10_requires_python_minor_precedence.1 "3.12" (some "3.12.1")

/-! ## Claim C7: source override priority and index emission -/

theorem escape_no_newline (s : String) (h : ∀ c ∈ s.data, c ≠ '\n') :
    ∀ c ∈ (escape_toml_string s).data, c ≠ '\n' := by
  intro c hc
  show c ≠ '\n'
  have hc' : c ∈ (s.data.map escapeTomlChar).flatten := hc
  rw [List.mem_flatten] at hc'
  obtain ⟨l, hl, hcl⟩ := hc'
  rw [List.mem_map] at hl
  obtain ⟨c0, hc0, rfl⟩ := hl
  unfold escapeTomlChar at hcl
  split at hcl
  · simp at hcl
    rcases hcl with rfl | rfl <;> decide
  · split at hcl
    · simp at hcl
      rcases hcl with rfl | rfl <;> decide
    · simp at hcl
      rw [hcl]
      exact h c0 hc0

/-- C7: the per-package override is selected with priority git, then path,
then index, else none (with `rev` present exactly when a git ref is, and
`editable` exactly when true); index declarations are emitted in manifest
source order and exactly the first entry carries `default = true`. -/
theorem c7_source_override_priority :
    (∀ (d : PipfilePackageDetail) (g r : String), d.git = some g → d.git_ref = some r →
      build_uv_source d =
        some ("\x7b " ++ "git = \"" ++ g ++ "\"" ++ ", " ++ "rev = \"" ++ r ++ "\"" ++
          " \x7d")) ∧
    (∀ (d : PipfilePackageDetail) (g : String), d.git = some g → d.git_ref = none →
      build_uv_source d = some ("\x7b " ++ "git = \"" ++ g ++ "\"" ++ " \x7d")) ∧
    (∀ (d : PipfilePackageDetail) (pth : String), d.git = none → d.path = some pth →
      d.editable = true →
      build_uv_source d =
        some ("\x7b " ++ "path = \"" ++ pth ++ "\"" ++ ", " ++ "editable = true" ++
          " \x7d")) ∧
    (∀ (d : PipfilePackageDetail) (pth : String), d.git = none → d.path = some pth →
      d.editable = false →
      build_uv_source d = some ("\x7b " ++ "path = \"" ++ pth ++ "\"" ++ " \x7d")) ∧
    (∀ (d : PipfilePackageDetail) (i : String), d.git = none → d.path = none →
      d.index = some i →
      build_uv_source d = some ("\x7b index = \"" ++ i ++ "\" \x7d")) ∧
    (∀ d : PipfilePackageDetail, d.git = none → d.path = none → d.index = none →
      build_uv_source d = none) ∧
    (∀ (p : Pipfile) (n : String), p.source ≠ [] → ∃ a b,
      pipfile_to_pyproject_toml p n =
        a ++ String.join (p.source.enum.map
          (fun pr => write_index_entry pr.2 (pr.1 == 0))) ++ b) ∧
    (∀ (s : PipfileSource) (fst : Bool),
      (∀ c ∈ s.name.data, c ≠ '\n') → (∀ c ∈ s.url.data, c ≠ '\n') →
      ((("default = true" : String).data ∈ linesOf (write_index_entry s fst)) ↔
        fst = true)) := by
  refine ⟨?_, ?_, ?_, ?_, ?_, ?_, ?_, ?_⟩
  · intro d g r hg hr
    simp [build_uv_source, hg, hr, String.intercalate, String.intercalate.go,
      ← String.append_assoc]
  · intro d g hg hr
    simp [build_uv_source, hg, hr, String.intercalate, String.intercalate.go,
      ← String.append_assoc]
  · intro d pth hg hp he
    simp [build_uv_source, hg, hp, he, String.intercalate, String.intercalate.go,
      ← String.append_assoc]
  · intro d pth hg hp he
    simp [build_uv_source, hg, hp, he, String.intercalate, String.intercalate.go,
      ← String.append_assoc]
  · intro d i hg hp hi
    simp [build_uv_source, hg, hp, hi]
  · intro d hg hp hi
    simp [build_uv_source, hg, hp, hi]
  · intro p n h
    refine ⟨pyprojectProjectPart p n ++ pyprojectDepsPart p ++ pyprojectDevPart p ++
      wline "", pyprojectSourcesPart p, ?_⟩
    have hne : p.source.isEmpty = false := by
      simpa [List.isEmpty_iff] using h
    show pyprojectProjectPart p n ++ pyprojectDepsPart p ++ pyprojectDevPart p ++
      pyprojectIndexPart p ++ pyprojectSourcesPart p = _
    rw [pyprojectIndexPart, hne]
    simp [String.append_assoc]
  · intro s fst hn hu
    have hline1 : ∀ c ∈ ("[[tool.uv.index]]" : String).data, c ≠ '\n' := by decide
    have hline2 : ∀ c ∈ ("name = \"" ++ escape_toml_string s.name ++ "\"").data,
        c ≠ '\n' := by
      intro c hc
      have : (("name = \"" ++ escape_toml_string s.name ++ "\"").data) =
          ("name = \"" : String).data ++ (escape_toml_string s.name).data ++
            ("\"" : String).data := by simp
      rw [this] at hc
      simp only [List.mem_append] at hc
      rcases hc with (hc | hc) | hc
      · revert c; decide
      · exact escape_no_newline s.name hn c hc
      · revert c; decide
    have hline3 : ∀ c ∈ ("url = \"" ++ escape_toml_string s.url ++ "\"").data,
        c ≠ '\n' := by
      intro c hc
      have : (("url = \"" ++ escape_toml_string s.url ++ "\"").data) =
          ("url = \"" : String).data ++ (escape_toml_string s.url).data ++
            ("\"" : String).data := by simp
      rw [this] at hc
      simp only [List.mem_append] at hc
      rcases hc with (hc | hc) | hc
      · revert c; decide
      · exact escape_no_newline s.url hu c hc
      · revert c; decide
    cases fst with
    | true =>
      have e1 : write_index_entry s true =
          wline "[[tool.uv.index]]" ++
          (wline ("name = \"" ++ escape_toml_string s.name ++ "\"") ++
          (wline ("url = \"" ++ escape_toml_string s.url ++ "\"") ++
          (wline "default = true" ++ wline ""))) := by
        simp [write_index_entry, String.append_assoc]
      rw [e1, linesAux_wline _ _ hline1, linesAux_wline _ _ hline2,
        linesAux_wline _ _ hline3, linesAux_wline _ _ (by decide)]
      simp
    | false =>
      have e2 : write_index_entry s false =
          wline "[[tool.uv.index]]" ++
          (wline ("name = \"" ++ escape_toml_string s.name ++ "\"") ++
          (wline ("url = \"" ++ escape_toml_string s.url ++ "\"") ++
          wline "")) := by
        simp [write_index_entry, String.append_assoc]
      rw [e2, linesAux_wline _ _ hline1, linesAux_wline _ _ hline2,
        linesAux_wline _ _ hline3]
      have e3 : linesOf (wline "") = [[], []] := rfl
      rw [e3]
      constructor
      · intro hmem
        exfalso
        rcases List.mem_cons.mp hmem with h1 | hmem
        · revert h1; decide
        rcases List.mem_cons.mp hmem with h2 | hmem
        · have hhead := congrArg List.head? h2
          simp at hhead
        rcases List.mem_cons.mp hmem with h3 | hmem
        · have hhead := congrArg List.head? h3
          simp at hhead
        rcases List.mem_cons.mp hmem with h4 | hmem
        · revert h4; decide
        rcases List.mem_cons.mp hmem with h5 | hmem
        · revert h5; decide
        · simp at hmem
      · intro hfst
        exact absurd hfst (by decide)

/-- Witness for C7 on a concrete detail with git and path both set. -/
theorem c7_source_override_priority_witness :
    build_uv_source
      { ({} : PipfilePackageDetail) with
          git := some "https://example.com/a.git", git_ref := some "main",
          path := some "./local" } =
      some ("\x7b " ++ "git = \"" ++ "https://example.com/a.git" ++ "\"" ++ ", " ++
        "rev = \"" ++ "main" ++ "\"" ++ " \x7d") :=
  c7_source_override_priority.1 _ "https://example.com/a.git" "main" rfl rfl

/-! ## Resolved graph model (uv.lock, consumed by lockfile.rs) -/

/-- A node of the resolved dependency graph (`uv_resolver::Package` as
consumed by `lockfile.rs`): `index` models the flattened outcome of
`package.index(project_dir).ok()??` and `dependencies` the normalized
dependency package names. -/
structure UvPackage where
  name : String
  version : Option String
  is_virtual : Bool
  dependencies : List String
  hashes : List String
  index : Option String
deriving Repr, DecidableEq

/-- The resolved lock graph (`uv_resolver::Lock`), as the list of its
packages in `lock.packages()` iteration order. -/
structure UvLock where
  packages : List UvPackage
deriving Repr, DecidableEq

/-- Test for characters admitted in a valid package name. -/
def pkgNameChar (c : Char) : Bool :=
  c.isAlphanum || c = '-' || c = '_' || c = '.'

/-- Separator characters canonicalized by name normalization. -/
def pkgSepChar (c : Char) : Bool :=
  c = '-' || c = '_' || c = '.'

/-- Modelled from the spec: validity test of `uv_normalize::PackageName`
(the crate is not under src/): ASCII alphanumerics and `- _ .`, starting
and ending alphanumeric. -/
def isValidPackageName (s : String) : Bool :=
  match s.data with
  | [] => false
  | c :: rest =>
    c.isAlphanum && (c :: rest).all pkgNameChar &&
      ((c :: rest).getLast (by simp)).isAlphanum

theorem length_dropWhile_le (p : Char → Bool) (l : List Char) :
    (l.dropWhile p).length ≤ l.length := by
  induction l with
  | nil => simp
  | cons c rest ih =>
    by_cases h : p c <;> simp [List.dropWhile, h] <;> omega

/-- Modelled from the spec: separator-run canonicalization of
`uv_normalize` (§ Glossary, "separator unification"): maximal runs of
`- _ .` become a single `-`, everything else is lowercased. -/
def canonChars : List Char → List Char
  | [] => []
  | c :: rest =>
    if pkgSepChar c then
      '-' :: canonChars (rest.dropWhile pkgSepChar)
    else
      c.toLower :: canonChars rest
termination_by l => l.length
decreasing_by
  all_goals simp only [List.length_cons]
  all_goals have h := length_dropWhile_le pkgSepChar rest
  all_goals omega

/-- Normalize a package name to uv's convention
(`lockfile.rs::normalize_package_name`): the `PackageName` normalization
when the name is valid, else the literal fallback
`name.to_lowercase().replace('_', "-")`. -/
def normalize_package_name (name : String) : String :=
  if isValidPackageName name then ⟨canonChars name.data⟩
  else ⟨name.data.map (fun c => if c.toLower = '_' then '-' else c.toLower)⟩

/-- Adjacency map built by `lockfile.rs::categorize_packages` (lines
307–315): every graph node inserts its name and dependency list. -/
def build_adjacency (lock : UvLock) : SMap (List String) :=
  lock.packages.foldl
    (fun adjacency package => SMap.insert package.name package.dependencies adjacency) []

/-- All names occurring in an adjacency map (keys and edge targets);
used only in the termination measure of the breadth-first walk. -/
def adjNames (adjacency : SMap (List String)) : Finset String :=
  adjacency.foldr (fun kv s => insert kv.1 (kv.2.foldr insert s)) ∅

/-- Insert into a sorted string set, mirroring `BTreeSet::insert`. -/
def SSet.insert (x : String) : List String → List String
  | [] => [x]
  | y :: rest =>
    if strLt x y then x :: y :: rest
    else if x = y then y :: rest
    else y :: SSet.insert x rest

theorem SSet.mem_insert (x y : String) (l : List String) :
    y ∈ SSet.insert x l ↔ y = x ∨ y ∈ l := by
  induction l with
  | nil => simp [SSet.insert]
  | cons z rest ih =>
    by_cases h1 : strLt x z
    · simp [SSet.insert, h1, List.mem_cons]
      all_goals tauto
    · by_cases h2 : x = z
      · subst h2
        simp [SSet.insert, h1, List.mem_cons]
        all_goals tauto
      · simp only [SSet.insert, if_neg h1, if_neg h2, List.mem_cons, ih]
        tauto

theorem mem_foldr_insert (l : List String) (s : Finset String) (x : String) :
    x ∈ l.foldr insert s ↔ x ∈ l ∨ x ∈ s := by
  induction l with
  | nil => simp
  | cons a l ih =>
    simp [ih]
    tauto

theorem mem_adjNames (adjacency : SMap (List String)) (x : String) :
    x ∈ adjNames adjacency ↔ ∃ kv, kv ∈ adjacency ∧ (x = kv.1 ∨ x ∈ kv.2) := by
  induction adjacency with
  | nil => simp [adjNames]
  | cons kv rest ih =>
    show x ∈ insert kv.1 (kv.2.foldr insert (adjNames rest)) ↔ _
    rw [Finset.mem_insert, mem_foldr_insert, ih]
    constructor
    · rintro (rfl | h | ⟨kv2, hm, hx⟩)
      · exact ⟨kv, List.mem_cons_self kv rest, Or.inl rfl⟩
      · exact ⟨kv, List.mem_cons_self kv rest, Or.inr h⟩
      · exact ⟨kv2, List.mem_cons_of_mem kv hm, hx⟩
    · rintro ⟨kv2, hm, hx⟩
      rcases List.mem_cons.mp hm with rfl | hm
      · rcases hx with rfl | hx
        · exact Or.inl rfl
        · exact Or.inr (Or.inl hx)
      · exact Or.inr (Or.inr ⟨kv2, hm, hx⟩)

theorem SMap.lookup_some_mem {α : Type} (m : SMap α) (k : String) (v : α)
    (h : SMap.lookup? m k = some v) : (k, v) ∈ m := by
  induction m with
  | nil => simp [SMap.lookup?] at h
  | cons kv rest ih =>
    by_cases hk : kv.1 = k
    · simp only [SMap.lookup?, if_pos hk] at h
      have : kv = (k, v) := by
        obtain ⟨k0, v0⟩ := kv
        simp at hk h
        exact Prod.ext hk h
      rw [← this]
      exact List.mem_cons_self kv rest
    · simp only [SMap.lookup?, if_neg hk] at h
      exact List.mem_cons_of_mem _ (ih h)

theorem mem_adjNames_of_dep (adjacency : SMap (List String)) (name x : String)
    (deps : List String) (hlk : SMap.lookup? adjacency name = some deps)
    (hdep : x ∈ deps) : x ∈ adjNames adjacency :=
  (mem_adjNames adjacency x).mpr
    ⟨(name, deps), SMap.lookup_some_mem adjacency name deps hlk, Or.inr hdep⟩

/-- Termination measure of the BFS: the names (adjacency inventory plus
queue) not yet visited. -/
def bfsMeasure (adjacency : SMap (List String)) (visited queue : List String) : Nat :=
  ((adjNames adjacency ∪ queue.toFinset) \ visited.toFinset).card

theorem bfsMeasure_mono_tail (adjacency : SMap (List String))
    (visited rest : List String) (name : String) :
    bfsMeasure adjacency visited rest ≤ bfsMeasure adjacency visited (name :: rest) := by
  apply Finset.card_le_card
  intro x hx
  simp only [Finset.mem_sdiff, Finset.mem_union, List.mem_toFinset,
    List.mem_cons] at hx ⊢
  tauto

theorem bfsMeasure_decreases (adjacency : SMap (List String))
    (visited rest : List String) (name : String) (hv : ¬ name ∈ visited) :
    bfsMeasure adjacency (SSet.insert name visited)
      (rest ++ ((SMap.lookup? adjacency name).getD []).filter
        (fun dep => ¬ dep ∈ SSet.insert name visited)) <
    bfsMeasure adjacency visited (name :: rest) := by
  have hmem : name ∈ (adjNames adjacency ∪ (name :: rest).toFinset) \
      visited.toFinset := by
    simp only [Finset.mem_sdiff, Finset.mem_union, List.mem_toFinset, List.mem_cons]
    exact ⟨Or.inr (Or.inl trivial), hv⟩
  have hsub : (adjNames adjacency ∪
        (rest ++ ((SMap.lookup? adjacency name).getD []).filter
          (fun dep => ¬ dep ∈ SSet.insert name visited)).toFinset) \
        (SSet.insert name visited).toFinset ⊆
      ((adjNames adjacency ∪ (name :: rest).toFinset) \ visited.toFinset).erase
        name := by
    intro x hx
    simp only [Finset.mem_sdiff, Finset.mem_union, List.mem_toFinset,
      Finset.mem_erase, List.mem_append, List.mem_filter, List.mem_cons] at hx ⊢
    obtain ⟨hx1, hx2⟩ := hx
    have hxname : x ≠ name := by
      intro hcon
      subst hcon
      exact hx2 ((SSet.mem_insert x x visited).mpr (Or.inl rfl))
    refine ⟨hxname, ?_, ?_⟩
    · rcases hx1 with hx1 | hx1 | hx1
      · exact Or.inl hx1
      · exact Or.inr (Or.inr hx1)
      · obtain ⟨hdep, _⟩ := hx1
        cases hlk : SMap.lookup? adjacency name with
        | none =>
          rw [hlk] at hdep
          simp at hdep
        | some deps =>
          rw [hlk] at hdep
          simp only [Option.getD_some] at hdep
          exact Or.inl (mem_adjNames_of_dep adjacency name x deps hlk hdep)
    · intro hcon
      exact hx2 ((SSet.mem_insert name x visited).mpr (Or.inr hcon))
  calc bfsMeasure adjacency (SSet.insert name visited)
        (rest ++ ((SMap.lookup? adjacency name).getD []).filter
          (fun dep => ¬ dep ∈ SSet.insert name visited)) ≤
      (((adjNames adjacency ∪ (name :: rest).toFinset) \ visited.toFinset).erase
        name).card := Finset.card_le_card hsub
    _ < bfsMeasure adjacency visited (name :: rest) :=
      Finset.card_erase_lt_of_mem hmem

theorem lex_of_le_of_lt {a b c d : Nat} (h1 : a ≤ b) (h2 : c < d) :
    Prod.Lex (· < ·) (· < ·) (a, c) (b, d) := by
  rcases Nat.lt_or_ge a b with h | h
  · exact Prod.Lex.left _ _ h
  · have heq : a = b := Nat.le_antisymm h1 h
    subst heq
    exact Prod.Lex.right _ h2

/-- Breadth-first walk worker (`lockfile.rs::bfs_reachable`, the loop):
pop the queue front; first-time names are recorded and their not yet
visited dependencies pushed. -/
def bfsAux (adjacency : SMap (List String)) (visited queue : List String) :
    List String :=
  match queue with
  | [] => visited
  | name :: rest =>
    if name ∈ visited then bfsAux adjacency visited rest
    else
      bfsAux adjacency (SSet.insert name visited)
        (rest ++ ((SMap.lookup? adjacency name).getD []).filter
          (fun dep => ¬ dep ∈ SSet.insert name visited))
termination_by (bfsMeasure adjacency visited queue, queue.length)
decreasing_by
  · exact lex_of_le_of_lt (bfsMeasure_mono_tail _ _ _ _) (by simp)
  · rename_i hv
    exact Prod.Lex.left _ _ (bfsMeasure_decreases _ _ _ _ hv)

/-- BFS reachability from root names (`lockfile.rs::bfs_reachable`). -/
def bfs_reachable (adjacency : SMap (List String)) (roots : List String) :
    List String :=
  bfsAux adjacency [] roots

/-- Categorize resolved packages into default and develop name sets
(`lockfile.rs::categorize_packages`): BFS from the normalized `[packages]`
keys, BFS from the normalized `[dev-packages]` keys, and develop-only as
the set difference. -/
def categorize_packages (pipfile : Pipfile) (lock : UvLock) :
    List String × List String :=
  let adjacency := build_adjacency lock
  let default_names :=
    bfs_reachable adjacency (pipfile.packages.map (fun kv => normalize_package_name kv.1))
  let develop_names :=
    bfs_reachable adjacency
      (pipfile.dev_packages.map (fun kv => normalize_package_name kv.1))
  (default_names, develop_names.filter (fun n => ¬ n ∈ default_names))

/-- Insert-or-push, mirroring `entry(name).or_default().push(package)`. -/
def SMap.insertPush (k : String) (p : UvPackage) :
    SMap (List UvPackage) → SMap (List UvPackage)
  | [] => [(k, [p])]
  | (k0, v0) :: rest =>
    if strLt k k0 then (k, [p]) :: (k0, v0) :: rest
    else if k = k0 then (k0, v0 ++ [p]) :: rest
    else (k0, v0) :: SMap.insertPush k p rest

/-- Name → packages lookup skipping virtual and version-less nodes
(`generate_pipfile_lock`, lines 109–119). -/
def packages_by_name (lock : UvLock) : SMap (List UvPackage) :=
  lock.packages.foldl
    (fun m package =>
      if package.is_virtual then m
      else if package.version.isNone then m
      else SMap.insertPush package.name package m) []

/-- A locked package entry of `default` / `develop`. -/
structure PipfileLockPackage where
  hashes : List String
  index : Option String
  markers : Option String
  version : String
deriving Repr, DecidableEq

/-- Source entry of `_meta.sources`. -/
structure PipfileLockSource where
  name : String
  url : String
  verify_ssl : Bool
deriving Repr, DecidableEq

/-- Hash entry of `_meta`. -/
structure PipfileLockHash where
  sha256 : String
deriving Repr, DecidableEq

/-- The `_meta` section of `Pipfile.lock`. -/
structure PipfileLockMeta where
  hash : PipfileLockHash
  pipfile_spec : Nat
  requires : Json
  sources : List PipfileLockSource

/-- Top-level `Pipfile.lock` structure. -/
structure PipfileLock where
  meta : PipfileLockMeta
  default : SMap PipfileLockPackage
  develop : SMap PipfileLockPackage

/-- Find the Pipfile source name for a registry package
(`lockfile.rs::find_source_name`): the package's originating index URL is
matched against manifest sources by prefix in either direction, first
match wins.  The `project_dir`-dependent `package.index(project_dir)`
call is modelled by the `index` field of the package. -/
def find_source_name (package : UvPackage) (pipfile : Pipfile) : Option String :=
  match package.index with
  | none => none
  | some index_str =>
    match pipfile.source.find? (fun source =>
      index_str.startsWith source.url || source.url.startsWith index_str) with
    | some source => some source.name
    | none => none

/-- Build one lock entry (`generate_pipfile_lock::build_entry`). -/
def build_entry (pipfile : Pipfile) (package : UvPackage) : PipfileLockPackage :=
  { hashes := package.hashes
    index := find_source_name package pipfile
    markers := none
    version :=
      match package.version with
      | some v => "==" ++ v
      | none => "" }

/-- The `default` and `develop` maps of the generated lock
(`generate_pipfile_lock`, lines 143–163). -/
def build_lock_maps (pipfile : Pipfile) (lock : UvLock) :
    SMap PipfileLockPackage × SMap PipfileLockPackage :=
  let pbn := packages_by_name lock
  let cats := categorize_packages pipfile lock
  let default := cats.1.foldl
    (fun m name =>
      match SMap.lookup? pbn name with
      | some packages =>
        match packages.head? with
        | some package => SMap.insert name (build_entry pipfile package) m
        | none => m
      | none => m) []
  let develop := cats.2.foldl
    (fun m name =>
      if name ∈ cats.1 then m
      else
        match SMap.lookup? pbn name with
        | some packages =>
          match packages.head? with
          | some package => SMap.insert name (build_entry pipfile package) m
          | none => m
        | none => m) []
  (default, develop)

/-- Spaces for pretty-printed JSON indentation. -/
def spaces (n : Nat) : String := ⟨List.replicate n ' '⟩

/-- Pretty JSON rendering matching `serde_json::to_string_pretty`
(two-space indentation, `": "` separators, empty containers inline). -/
def Json.pretty (j : Json) (indent : Nat) : String :=
  match j with
  | .null => "null"
  | .bool true => "true"
  | .bool false => "false"
  | .num n => toString n
  | .str s => jsonString s
  | .arr [] => "[]"
  | .arr xs =>
    "[\n" ++
    String.intercalate ",\n"
      (xs.attach.map (fun x => spaces (indent + 2) ++ Json.pretty x.1 (indent + 2))) ++
    "\n" ++ spaces indent ++ "]"
  | .obj [] => "\x7b\x7d"
  | .obj kvs =>
    "\x7b\n" ++
    String.intercalate ",\n"
      (kvs.attach.map (fun kv =>
        spaces (indent + 2) ++ jsonString kv.1.1 ++ ": " ++
          Json.pretty kv.1.2 (indent + 2))) ++
    "\n" ++ spaces indent ++ "\x7d"
termination_by sizeOf j
decreasing_by
  · have := List.sizeOf_lt_of_mem x.2
    simp at *
    omega
  · have h1 := List.sizeOf_lt_of_mem kv.2
    obtain ⟨⟨k, v⟩, hm⟩ := kv
    simp at *
    omega

/-- Serde serialization of a lock source (declaration field order). -/
def lockSourceToJson (s : PipfileLockSource) : Json :=
  .obj [("name", .str s.name), ("url", .str s.url), ("verify_ssl", .bool s.verify_ssl)]

/-- Serde serialization of a lock entry: fields in declaration order,
`index` and `markers` skipped when absent. -/
def lockPackageToJson (p : PipfileLockPackage) : Json :=
  .obj ([("hashes", Json.arr (p.hashes.map Json.str))] ++
    (match p.index with
     | some i => [("index", Json.str i)]
     | none => []) ++
    (match p.markers with
     | some m => [("markers", Json.str m)]
     | none => []) ++
    [("version", Json.str p.version)])

/-- Serde serialization of the whole lock artifact. -/
def pipfileLockToJson (l : PipfileLock) : Json :=
  .obj
    [("_meta", .obj
       [("hash", .obj [("sha256", .str l.meta.hash.sha256)]),
        ("pipfile-spec", .num l.meta.pipfile_spec),
        ("requires", l.meta.requires),
        ("sources", .arr (l.meta.sources.map lockSourceToJson))]),
     ("default", .obj (l.default.map (fun kv => (kv.1, lockPackageToJson kv.2)))),
     ("develop", .obj (l.develop.map (fun kv => (kv.1, lockPackageToJson kv.2))))]

/-! ## Filesystem embedding for generate_pipfile_lock -/

/-- The file system visible to the lock generator: path → content. -/
abbrev FS := List (String × String)

/-- Read a file. -/
def FS.read? (fs : FS) (p : String) : Option String :=
  match fs with
  | [] => none
  | (p0, c0) :: rest => if p0 = p then some c0 else FS.read? rest p

/-- The `Path::is_file` test. -/
def FS.isFile (fs : FS) (p : String) : Bool := (FS.read? fs p).isSome

/-- Write (create or overwrite) a file. -/
def FS.write (fs : FS) (p content : String) : FS :=
  match fs with
  | [] => [(p, content)]
  | (p0, c0) :: rest =>
    if p0 = p then (p0, content) :: rest else (p0, c0) :: FS.write rest p content

/-- Generate a `Pipfile.lock` from the current `uv.lock` and `Pipfile`
(`lockfile.rs::generate_pipfile_lock`): returns the resulting file system.
If `uv.lock` is not a file the function returns `Ok` with nothing written;
`parseUvLock` stands for the external `toml::from_str::<Lock>`. -/
def generate_pipfile_lock (parseUvLock : String → Except String UvLock)
    (fs : FS) (project_dir : String) (pipfile : Pipfile) : Except String FS :=
  let uv_lock_path := project_dir ++ "/uv.lock"
  if FS.isFile fs uv_lock_path = false then Except.ok fs
  else
    match FS.read? fs uv_lock_path with
    | none => Except.error "failed to read uv.lock"
    | some uv_lock_content =>
      match parseUvLock uv_lock_content with
      | Except.error e => Except.error ("failed to parse uv.lock: " ++ e)
      | Except.ok lock =>
        let maps := build_lock_maps pipfile lock
        let pipfile_lock : PipfileLock :=
          { meta :=
              { hash := { sha256 := compute_pipfile_hash pipfile }
                pipfile_spec := 6
                requires := pipfile_requires_to_json pipfile.requires
                sources := pipfile.source.map (fun s =>
                  { name := s.name, url := s.url, verify_ssl := s.verify_ssl }) }
            default := maps.1
            develop := maps.2 }
        let json := Json.pretty (pipfileLockToJson pipfile_lock) 0
        Except.ok (FS.write fs (project_dir ++ "/Pipfile.lock") (json ++ "\n"))

/-! ## Claim C5: skip when no resolved graph exists -/

/-- C5: when no `uv.lock` file exists, lock generation returns a
successful skip — the result is `Ok` with the file system unchanged, for
every parser behaviour, directory, and manifest. -/
theorem c5_skip_when_no_uv_lock
    (parseUvLock : String → Except String UvLock) (fs : FS)
    (project_dir : String) (pipfile : Pipfile)
    (h : FS.isFile fs (project_dir ++ "/uv.lock") = false) :
    generate_pipfile_lock parseUvLock fs project_dir pipfile = Except.ok fs := by
  simp [generate_pipfile_lock, h]

/-- Witness for C5 on an empty file system. -/
theorem c5_skip_when_no_uv_lock_witness :
    generate_pipfile_lock (fun _ => Except.error "unused") [] "."
      ⟨[], [], [], none, [], none⟩ = Except.ok [] :=
  c5_skip_when_no_uv_lock (fun _ => Except.error "unused") [] "."
    ⟨[], [], [], none, [], none⟩ rfl

/-! ## BFS correctness -/

/-- Reachability over the adjacency map: roots, plus everything reachable
along dependency edges. -/
inductive ReachableFrom (adjacency : SMap (List String)) (roots : List String) :
    String → Prop
  | root (x : String) : x ∈ roots → ReachableFrom adjacency roots x
  | step (x y : String) (deps : List String) :
      ReachableFrom adjacency roots x →
      SMap.lookup? adjacency x = some deps → y ∈ deps →
      ReachableFrom adjacency roots y

theorem bfsAux_mem (adjacency : SMap (List String)) :
    ∀ visited queue : List String, ∀ x, x ∈ visited ∨ x ∈ queue →
      x ∈ bfsAux adjacency visited queue := by
  intro visited queue
  induction visited, queue using bfsAux.induct adjacency with
  | case1 visited =>
    intro x hx
    rcases hx with hx | hx
    · simpa [bfsAux] using hx
    · simp at hx
  | case2 visited y rest hy ih =>
    intro x hx
    rw [bfsAux, if_pos hy]
    apply ih
    rcases hx with hx | hx
    · exact Or.inl hx
    · rcases List.mem_cons.mp hx with rfl | hx
      · exact Or.inl hy
      · exact Or.inr hx
  | case3 visited y rest hy ih =>
    intro x hx
    rw [bfsAux, if_neg hy]
    apply ih
    rcases hx with hx | hx
    · exact Or.inl ((SSet.mem_insert y x visited).mpr (Or.inr hx))
    · rcases List.mem_cons.mp hx with rfl | hx
      · exact Or.inl ((SSet.mem_insert x x visited).mpr (Or.inl rfl))
      · exact Or.inr (List.mem_append.mpr (Or.inl hx))

theorem bfsAux_sound (adjacency : SMap (List String)) (R : String → Prop)
    (hstep : ∀ x deps d, R x → SMap.lookup? adjacency x = some deps → d ∈ deps → R d) :
    ∀ visited queue : List String, (∀ x ∈ visited, R x) → (∀ x ∈ queue, R x) →
      ∀ x ∈ bfsAux adjacency visited queue, R x := by
  intro visited queue
  induction visited, queue using bfsAux.induct adjacency with
  | case1 visited =>
    intro hv _ x hx
    exact hv x (by simpa [bfsAux] using hx)
  | case2 visited y rest hy ih =>
    intro hv hq x hx
    rw [bfsAux, if_pos hy] at hx
    exact ih hv (fun z hz => hq z (List.mem_cons_of_mem y hz)) x hx
  | case3 visited y rest hy ih =>
    intro hv hq x hx
    rw [bfsAux, if_neg hy] at hx
    refine ih ?_ ?_ x hx
    · intro z hz
      rcases (SSet.mem_insert y z visited).mp hz with rfl | hz
      · exact hq z (List.mem_cons_self z rest)
      · exact hv z hz
    · intro z hz
      rcases List.mem_append.mp hz with hz | hz
      · exact hq z (List.mem_cons_of_mem y hz)
      · have hz2 := List.mem_filter.mp hz
        cases hlk : SMap.lookup? adjacency y with
        | none =>
          rw [hlk] at hz2
          simp at hz2
        | some deps =>
          rw [hlk] at hz2
          exact hstep y deps z (hq y (List.mem_cons_self y rest)) hlk (by simpa using hz2.1)

theorem bfsAux_closed (adjacency : SMap (List String)) :
    ∀ visited queue : List String,
      (∀ v ∈ visited, ∀ deps, SMap.lookup? adjacency v = some deps →
        ∀ d ∈ deps, d ∈ visited ∨ d ∈ queue) →
      ∀ v ∈ bfsAux adjacency visited queue, ∀ deps,
        SMap.lookup? adjacency v = some deps → ∀ d ∈ deps,
          d ∈ bfsAux adjacency visited queue := by
  intro visited queue
  induction visited, queue using bfsAux.induct adjacency with
  | case1 visited =>
    intro hinv v hv deps hlk d hd
    rw [bfsAux] at hv ⊢
    rcases hinv v hv deps hlk d hd with h | h
    · exact h
    · simp at h
  | case2 visited y rest hy ih =>
    intro hinv v hv deps hlk d hd
    rw [bfsAux, if_pos hy] at hv ⊢
    refine ih ?_ v hv deps hlk d hd
    intro v2 hv2 deps2 hlk2 d2 hd2
    rcases hinv v2 hv2 deps2 hlk2 d2 hd2 with h | h
    · exact Or.inl h
    · rcases List.mem_cons.mp h with rfl | h
      · exact Or.inl hy
      · exact Or.inr h
  | case3 visited y rest hy ih =>
    intro hinv v hv deps hlk d hd
    rw [bfsAux, if_neg hy] at hv ⊢
    refine ih ?_ v hv deps hlk d hd
    intro v2 hv2 deps2 hlk2 d2 hd2
    rcases (SSet.mem_insert y v2 visited).mp hv2 with rfl | hv2
    · rw [hlk2]
      by_cases hdv : d2 ∈ SSet.insert v2 visited
      · exact Or.inl hdv
      · refine Or.inr (List.mem_append.mpr (Or.inr ?_))
        rw [List.mem_filter]
        refine ⟨by simp [hlk2, hd2], by simpa using hdv⟩
    · rcases hinv v2 hv2 deps2 hlk2 d2 hd2 with h | h
      · exact Or.inl ((SSet.mem_insert y d2 visited).mpr (Or.inr h))
      · rcases List.mem_cons.mp h with rfl | h
        · exact Or.inl ((SSet.mem_insert d2 d2 visited).mpr (Or.inl rfl))
        · exact Or.inr (List.mem_append.mpr (Or.inl h))

/-- The BFS walk computes exactly the reachability closure. -/
theorem bfs_reachable_iff (adjacency : SMap (List String)) (roots : List String)
    (x : String) :
    x ∈ bfs_reachable adjacency roots ↔ ReachableFrom adjacency roots x := by
  constructor
  · intro hx
    refine bfsAux_sound adjacency (ReachableFrom adjacency roots) ?_ [] roots
      (by simp) (fun z hz => ReachableFrom.root z hz) x hx
    intro z deps d hz hlk hd
    exact ReachableFrom.step z d deps hz hlk hd
  · intro hx
    induction hx with
    | root z hz => exact bfsAux_mem adjacency [] roots z (Or.inr hz)
    | step z y deps _ hlk hy ih =>
      exact bfsAux_closed adjacency [] roots (by simp) z ih deps hlk y hy

/-! ## Map lemmas for the emitted lock maps -/

theorem SMap.lookup_insert {α : Type} (k k2 : String) (v : α) (m : SMap α) :
    SMap.lookup? (SMap.insert k v m) k2 =
      if k = k2 then some v else SMap.lookup? m k2 := by
  induction m with
  | nil => simp [SMap.insert, SMap.lookup?]
  | cons kv rest ih =>
    obtain ⟨k0, v0⟩ := kv
    by_cases h1 : strLt k k0
    · by_cases h2 : k = k2
      · subst h2
        simp [SMap.insert, h1, SMap.lookup?]
      · simp [SMap.insert, h1, SMap.lookup?, h2]
    · by_cases h2 : k = k0
      · subst h2
        by_cases h3 : k = k2
        · subst h3
          simp [SMap.insert, h1, SMap.lookup?]
        · simp [SMap.insert, h1, SMap.lookup?, h3]
      · by_cases h3 : k0 = k2
        · subst h3
          simp [SMap.insert, h1, h2, SMap.lookup?]
        · simp [SMap.insert, h1, h2, SMap.lookup?, h3, ih]

/-- Generic origin lemma for the lock-map folds: a binding of the folded
map either was in the base map or was inserted by a step for its own key. -/
theorem foldl_step_lookup {α : Type} (names : List String) (m0 : SMap α)
    (step : SMap α → String → SMap α) (Q : String → α → Prop)
    (hstep : ∀ m name k v, SMap.lookup? (step m name) k = some v →
      SMap.lookup? m k = some v ∨ (k = name ∧ Q k v)) :
    ∀ k v, SMap.lookup? (names.foldl step m0) k = some v →
      SMap.lookup? m0 k = some v ∨ (k ∈ names ∧ Q k v) := by
  induction names generalizing m0 with
  | nil =>
    intro k v h
    exact Or.inl h
  | cons n ns ih =>
    intro k v h
    simp only [List.foldl_cons] at h
    rcases ih (step m0 n) k v h with h2 | h2
    · rcases hstep m0 n k v h2 with h3 | h3
      · exact Or.inl h3
      · exact Or.inr ⟨h3.1 ▸ List.mem_cons_self n ns, h3.2⟩
    · exact Or.inr ⟨List.mem_cons_of_mem n h2.1, h2.2⟩

theorem SMap.lookup_cons {α : Type} (k0 : String) (v0 : α) (rest : SMap α)
    (k : String) :
    SMap.lookup? ((k0, v0) :: rest) k =
      if k0 = k then some v0 else SMap.lookup? rest k := rfl

theorem SMap.lookup_insertPush (k k2 : String) (p : UvPackage)
    (m : SMap (List UvPackage)) (pkgs : List UvPackage)
    (h : SMap.lookup? (SMap.insertPush k p m) k2 = some pkgs) :
    ∀ q ∈ pkgs, (q = p ∧ k = k2) ∨
      ∃ old, SMap.lookup? m k2 = some old ∧ q ∈ old := by
  induction m generalizing pkgs with
  | nil =>
    rw [show SMap.insertPush k p [] = [(k, [p])] from rfl, SMap.lookup_cons] at h
    by_cases hk : k = k2
    · rw [if_pos hk] at h
      intro q hq
      rw [← Option.some_inj.mp h] at hq
      simp at hq
      exact Or.inl ⟨hq, hk⟩
    · rw [if_neg hk] at h
      simp [SMap.lookup?] at h
  | cons kv rest ih =>
    obtain ⟨k0, v0⟩ := kv
    by_cases h1 : strLt k k0
    · rw [show SMap.insertPush k p ((k0, v0) :: rest) = (k, [p]) :: (k0, v0) :: rest
        from by simp [SMap.insertPush, h1], SMap.lookup_cons] at h
      by_cases hk : k = k2
      · rw [if_pos hk] at h
        intro q hq
        rw [← Option.some_inj.mp h] at hq
        simp at hq
        exact Or.inl ⟨hq, hk⟩
      · rw [if_neg hk] at h
        intro q hq
        exact Or.inr ⟨pkgs, h, hq⟩
    · by_cases h2 : k = k0
      · subst h2
        rw [show SMap.insertPush k p ((k, v0) :: rest) = (k, v0 ++ [p]) :: rest
          from by simp [SMap.insertPush, h1], SMap.lookup_cons] at h
        by_cases hk : k = k2
        · rw [if_pos hk] at h
          intro q hq
          rw [← Option.some_inj.mp h] at hq
          rcases List.mem_append.mp hq with hq | hq
          · exact Or.inr ⟨v0, by rw [SMap.lookup_cons, if_pos hk], hq⟩
          · simp at hq
            exact Or.inl ⟨hq, hk⟩
        · rw [if_neg hk] at h
          intro q hq
          exact Or.inr ⟨pkgs, by rw [SMap.lookup_cons, if_neg hk]; exact h, hq⟩
      · rw [show SMap.insertPush k p ((k0, v0) :: rest) =
            (k0, v0) :: SMap.insertPush k p rest
          from by simp [SMap.insertPush, h1, h2], SMap.lookup_cons] at h
        by_cases hk : k0 = k2
        · rw [if_pos hk] at h
          intro q hq
          rw [← Option.some_inj.mp h] at hq
          exact Or.inr ⟨v0, by rw [SMap.lookup_cons, if_pos hk], hq⟩
        · rw [if_neg hk] at h
          intro q hq
          rcases ih pkgs h q hq with h3 | ⟨old, hold, hqold⟩
          · exact Or.inl h3
          · exact Or.inr ⟨old, by rw [SMap.lookup_cons, if_neg hk]; exact hold, hqold⟩

/-- Every binding of `packages_by_name` holds only non-virtual,
version-bearing graph packages, keyed by their own name. -/
theorem packages_by_name_spec (lock : UvLock) :
    ∀ name pkgs, SMap.lookup? (packages_by_name lock) name = some pkgs →
      ∀ q ∈ pkgs, q.is_virtual = false ∧ q.version.isSome = true ∧
        q ∈ lock.packages ∧ q.name = name := by
  have main : ∀ (l : List UvPackage) (m0 : SMap (List UvPackage)),
      (∀ name pkgs, SMap.lookup? m0 name = some pkgs →
        ∀ q ∈ pkgs, q.is_virtual = false ∧ q.version.isSome = true ∧
          q ∈ lock.packages ∧ q.name = name) →
      (∀ p ∈ l, p ∈ lock.packages) →
      ∀ name pkgs, SMap.lookup? (l.foldl
          (fun m package =>
            if package.is_virtual then m
            else if package.version.isNone then m
            else SMap.insertPush package.name package m) m0) name = some pkgs →
        ∀ q ∈ pkgs, q.is_virtual = false ∧ q.version.isSome = true ∧
          q ∈ lock.packages ∧ q.name = name := by
    intro l
    induction l with
    | nil =>
      intro m0 hm0 _ name pkgs h
      exact hm0 name pkgs h
    | cons p ps ih =>
      intro m0 hm0 hl name pkgs h
      simp only [List.foldl_cons] at h
      by_cases hvirt : p.is_virtual
      · rw [if_pos hvirt] at h
        exact ih m0 hm0 (fun q hq => hl q (List.mem_cons_of_mem p hq)) name pkgs h
      · rw [if_neg hvirt] at h
        by_cases hver : p.version.isNone
        · rw [if_pos hver] at h
          exact ih m0 hm0 (fun q hq => hl q (List.mem_cons_of_mem p hq)) name pkgs h
        · rw [if_neg hver] at h
          refine ih (SMap.insertPush p.name p m0) ?_
            (fun q hq => hl q (List.mem_cons_of_mem p hq)) name pkgs h
          intro name2 pkgs2 h2 q hq
          rcases SMap.lookup_insertPush p.name name2 p m0 pkgs2 h2 q hq with
            ⟨rfl, rfl⟩ | ⟨old, hold, hqold⟩
          · refine ⟨by simpa using hvirt, ?_, hl q (List.mem_cons_self q ps), rfl⟩
            cases hv : q.version with
            | none => rw [hv] at hver; simp at hver
            | some v => simp
          · exact hm0 name2 old hold q hqold
  intro name pkgs h
  exact main lock.packages [] (by intro name2 pkgs2 h2; simp [SMap.lookup?] at h2)
    (fun p hp => hp) name pkgs h

/-- Characterization of the step functions used by both lock-map folds. -/
theorem lock_map_step_origin (pipfile : Pipfile) (pbn : SMap (List UvPackage))
    (m : SMap PipfileLockPackage) (name k : String) (v : PipfileLockPackage)
    (h : SMap.lookup? (match SMap.lookup? pbn name with
      | some packages =>
        match packages.head? with
        | some package => SMap.insert name (build_entry pipfile package) m
        | none => m
      | none => m) k = some v) :
    SMap.lookup? m k = some v ∨ (k = name ∧ ∃ pkgs package,
      SMap.lookup? pbn k = some pkgs ∧ pkgs.head? = some package ∧
      v = build_entry pipfile package) := by
  cases hlk : SMap.lookup? pbn name with
  | none =>
    simp only [hlk] at h
    exact Or.inl h
  | some packages =>
    simp only [hlk] at h
    cases hhd : packages.head? with
    | none =>
      simp only [hhd] at h
      exact Or.inl h
    | some package =>
      simp only [hhd] at h
      rw [SMap.lookup_insert] at h
      split at h
      · rename_i heq
        subst heq
        exact Or.inr ⟨rfl, packages, package, hlk, hhd, (Option.some_inj.mp h).symm⟩
      · exact Or.inl h

/-! ## Claim C2: default/develop categorization -/

/-- C2: `default` is exactly the breadth-first reachable set from the
normalized `[packages]` keys, `develop` exactly the reachable set from the
normalized `[dev-packages]` keys minus `default`; a name reachable from
both sides lands in `default` only, and the two emitted lock maps are
disjoint. -/
theorem c2_categorization (pipfile : Pipfile) (lock : UvLock) :
    (∀ x, x ∈ (categorize_packages pipfile lock).1 ↔
      ReachableFrom (build_adjacency lock)
        (pipfile.packages.map (fun kv => normalize_package_name kv.1)) x) ∧
    (∀ x, x ∈ (categorize_packages pipfile lock).2 ↔
      (ReachableFrom (build_adjacency lock)
          (pipfile.dev_packages.map (fun kv => normalize_package_name kv.1)) x ∧
        ¬ ReachableFrom (build_adjacency lock)
          (pipfile.packages.map (fun kv => normalize_package_name kv.1)) x)) ∧
    (∀ x, x ∈ (categorize_packages pipfile lock).1 →
      ¬ x ∈ (categorize_packages pipfile lock).2) ∧
    (∀ name, SMap.lookup? (build_lock_maps pipfile lock).1 name = none ∨
      SMap.lookup? (build_lock_maps pipfile lock).2 name = none) := by
  have h1 : ∀ x, x ∈ (categorize_packages pipfile lock).1 ↔
      ReachableFrom (build_adjacency lock)
        (pipfile.packages.map (fun kv => normalize_package_name kv.1)) x := by
    intro x
    exact bfs_reachable_iff (build_adjacency lock)
      (pipfile.packages.map (fun kv => normalize_package_name kv.1)) x
  have h2 : ∀ x, x ∈ (categorize_packages pipfile lock).2 ↔
      (ReachableFrom (build_adjacency lock)
          (pipfile.dev_packages.map (fun kv => normalize_package_name kv.1)) x ∧
        ¬ ReachableFrom (build_adjacency lock)
          (pipfile.packages.map (fun kv => normalize_package_name kv.1)) x) := by
    intro x
    show x ∈ List.filter _ _ ↔ _
    rw [List.mem_filter]
    constructor
    · intro ⟨ha, hb⟩
      refine ⟨(bfs_reachable_iff _ _ x).mp ha, ?_⟩
      intro hcon
      have : x ∈ (categorize_packages pipfile lock).1 := (h1 x).mpr hcon
      simp at hb
      exact hb this
    · intro ⟨ha, hb⟩
      refine ⟨(bfs_reachable_iff _ _ x).mpr ha, ?_⟩
      simp
      intro hcon
      exact hb ((h1 x).mp hcon)
  refine ⟨h1, h2, ?_, ?_⟩
  · intro x hx hcon
    exact ((h2 x).mp hcon).2 ((h1 x).mp hx)
  · intro name
    by_cases hd : SMap.lookup? (build_lock_maps pipfile lock).1 name = none
    · exact Or.inl hd
    right
    cases hv : SMap.lookup? (build_lock_maps pipfile lock).2 name with
    | none => rfl
    | some v =>
      exfalso
      cases hd2 : SMap.lookup? (build_lock_maps pipfile lock).1 name with
      | none => exact hd hd2
      | some v2 =>
      have hdef := foldl_step_lookup (categorize_packages pipfile lock).1 []
        (fun m name => match SMap.lookup? (packages_by_name lock) name with
          | some packages =>
            match packages.head? with
            | some package => SMap.insert name (build_entry pipfile package) m
            | none => m
          | none => m)
        (fun _ _ => True)
        (fun m n k v h => by
          rcases lock_map_step_origin pipfile (packages_by_name lock) m n k v h with
            h | h
          · exact Or.inl h
          · exact Or.inr ⟨h.1, trivial⟩)
        name v2 hd2
      have hdev := foldl_step_lookup (categorize_packages pipfile lock).2 []
        (fun m name =>
          if name ∈ (categorize_packages pipfile lock).1 then m
          else match SMap.lookup? (packages_by_name lock) name with
            | some packages =>
              match packages.head? with
              | some package => SMap.insert name (build_entry pipfile package) m
              | none => m
            | none => m)
        (fun _ _ => True)
        (fun m n k v h => by
          beta_reduce at h
          by_cases hmem : n ∈ (categorize_packages pipfile lock).1
          · rw [if_pos hmem] at h
            exact Or.inl h
          · rw [if_neg hmem] at h
            rcases lock_map_step_origin pipfile (packages_by_name lock) m n k v h with
              h | h
            · exact Or.inl h
            · exact Or.inr ⟨h.1, trivial⟩)
        name v hv
      rcases hdef with hdef | ⟨hdef, _⟩
      · simp [SMap.lookup?] at hdef
      rcases hdev with hdev | ⟨hdev, _⟩
      · simp [SMap.lookup?] at hdev
      exact ((h2 name).mp hdev).2 ((h1 name).mp hdef)

/-! ## Claim C4: which nodes feed the adjacency map -/

/-- A resolved graph exhibiting a virtual node and a version-less node,
both of which do contribute adjacency entries. -/
def c4lock : UvLock :=
  ⟨[⟨"myproj", some "0.1.0", true, ["flask"], [], none⟩,
    ⟨"legacy", none, false, ["six"], [], none⟩,
    ⟨"flask", some "3.0.0", false, [], [], none⟩,
    ⟨"six", some "1.17.0", false, [], [], none⟩]⟩

/-- C4 counterexample: `categorize_packages` builds its adjacency map
from every graph node — a virtual node and a version-less node both
contribute a key with their edge list, contradicting the claim that only
non-virtual, version-bearing nodes feed the walked adjacency map. -/
theorem c4_adjacency_filter_counterexample :
    (∃ p ∈ c4lock.packages, p.is_virtual = true ∧ p.name = "myproj") ∧
    SMap.lookup? (build_adjacency c4lock) "myproj" = some ["flask"] ∧
    (∃ p ∈ c4lock.packages, p.version = none ∧ p.name = "legacy") ∧
    SMap.lookup? (build_adjacency c4lock) "legacy" = some ["six"] := by
  refine ⟨⟨⟨"myproj", some "0.1.0", true, ["flask"], [], none⟩, by decide, by decide⟩,
    by decide, ⟨⟨"legacy", none, false, ["six"], [], none⟩, by decide, by decide⟩,
    by decide⟩

/-- C4 amended: the adjacency map walked by the categorization is built
from every graph node, virtual and version-less ones included; the
non-virtual, version-bearing filter instead governs the name → package
lookup used to emit lock entries, so such nodes never reach the emitted
`default`/`develop` maps. -/
theorem c4_adjacency_all_nodes (lock : UvLock) :
    (∀ package ∈ lock.packages,
      SMap.lookup? (build_adjacency lock) package.name ≠ none) ∧
    (∀ (pipfile : Pipfile) (name : String) (entry : PipfileLockPackage),
      (SMap.lookup? (build_lock_maps pipfile lock).1 name = some entry ∨
       SMap.lookup? (build_lock_maps pipfile lock).2 name = some entry) →
      ∃ package, package ∈ lock.packages ∧ package.name = name ∧
        package.is_virtual = false ∧ package.version.isSome = true) := by
  constructor
  · have main : ∀ (l : List UvPackage) (m0 : SMap (List String)) (k : String),
        (∃ p ∈ l, p.name = k) ∨ SMap.lookup? m0 k ≠ none →
        SMap.lookup? (l.foldl
          (fun adjacency package =>
            SMap.insert package.name package.dependencies adjacency) m0) k ≠ none := by
      intro l
      induction l with
      | nil =>
        intro m0 k h
        rcases h with ⟨p, hp, _⟩ | h
        · simp at hp
        · exact h
      | cons p ps ih =>
        intro m0 k h
        simp only [List.foldl_cons]
        apply ih
        rcases h with ⟨q, hq, hqk⟩ | h
        · rcases List.mem_cons.mp hq with rfl | hq
          · right
            rw [SMap.lookup_insert, if_pos hqk]
            simp
          · exact Or.inl ⟨q, hq, hqk⟩
        · right
          rw [SMap.lookup_insert]
          split
          · simp
          · exact h
    intro package hp
    exact main lock.packages [] package.name (Or.inl ⟨package, hp, rfl⟩)
  · intro pipfile name entry hlk
    have origin : ∃ pkgs package, SMap.lookup? (packages_by_name lock) name = some pkgs ∧
        pkgs.head? = some package ∧ entry = build_entry pipfile package := by
      rcases hlk with hlk | hlk
      · have := foldl_step_lookup (categorize_packages pipfile lock).1 []
          (fun m name => match SMap.lookup? (packages_by_name lock) name with
            | some packages =>
              match packages.head? with
              | some package => SMap.insert name (build_entry pipfile package) m
              | none => m
            | none => m)
          (fun k v => ∃ pkgs package,
            SMap.lookup? (packages_by_name lock) k = some pkgs ∧
            pkgs.head? = some package ∧ v = build_entry pipfile package)
          (fun m n k v h => by
            rcases lock_map_step_origin pipfile (packages_by_name lock) m n k v h with
              h | h
            · exact Or.inl h
            · exact Or.inr ⟨h.1, h.2⟩)
          name entry hlk
        rcases this with h | ⟨_, h⟩
        · simp [SMap.lookup?] at h
        · exact h
      · have := foldl_step_lookup (categorize_packages pipfile lock).2 []
          (fun m name =>
            if name ∈ (categorize_packages pipfile lock).1 then m
            else match SMap.lookup? (packages_by_name lock) name with
              | some packages =>
                match packages.head? with
                | some package => SMap.insert name (build_entry pipfile package) m
                | none => m
              | none => m)
          (fun k v => ∃ pkgs package,
            SMap.lookup? (packages_by_name lock) k = some pkgs ∧
            pkgs.head? = some package ∧ v = build_entry pipfile package)
          (fun m n k v h => by
            beta_reduce at h
            by_cases hmem : n ∈ (categorize_packages pipfile lock).1
            · rw [if_pos hmem] at h
              exact Or.inl h
            · rw [if_neg hmem] at h
              rcases lock_map_step_origin pipfile (packages_by_name lock) m n k v h with
                h | h
              · exact Or.inl h
              · exact Or.inr ⟨h.1, h.2⟩)
          name entry hlk
        rcases this with h | ⟨_, h⟩
        · simp [SMap.lookup?] at h
        · exact h
    obtain ⟨pkgs, package, hpkgs, hhd, _⟩ := origin
    have hmem : package ∈ pkgs := by
      cases pkgs with
      | nil => simp at hhd
      | cons q qs =>
        simp at hhd
        subst hhd
        exact List.mem_cons_self q qs
    have := packages_by_name_spec lock name pkgs hpkgs package hmem
    exact ⟨package, this.2.2.1, this.2.2.2, this.1, this.2.1⟩

/-- Witness for the amended C4 on the concrete graph. -/
theorem c4_adjacency_all_nodes_witness :
    SMap.lookup? (build_adjacency c4lock)
      (⟨"flask", some "3.0.0", false, [], [], none⟩ : UvPackage).name ≠ none :=
  (c4_adjacency_all_nodes c4lock).1 ⟨"flask", some "3.0.0", false, [], [], none⟩
    (by decide)

/-! ## Manifest text parsing

The manifest parser of the source is the external `toml` crate driving
the serde derives of `model.rs` (`Pipfile::from_path`, `toml::from_str`).
It is modelled here from the spec (§4.1, §6): a line-oriented TOML subset
covering exactly the forms of the manifest schema — `[[source]]` blocks,
`[section]` tables, `key = value` bindings with basic strings, booleans,
arrays of strings, and inline tables of such scalars.  Unknown sections
and keys are ignored as serde does; duplicate keys and malformed syntax
are errors. -/

/-- Characters of a TOML bare key. -/
def bareKeyChar (c : Char) : Bool :=
  c.isAlphanum || c = '-' || c = '_'

/-- Tokens of one manifest line. -/
inductive Tok where
  | str (s : String)
  | ident (s : String)
  | eq
  | lbrack
  | rbrack
  | lbrace
  | rbrace
  | comma
deriving Repr, DecidableEq

/-- Tokenizer modes: scanning normally, inside a basic string, right
after a backslash, inside a bare identifier, or inside a comment. -/
inductive TkMode where
  | normal
  | instr (acc : List Char)
  | inesc (acc : List Char)
  | inident (acc : List Char)
  | comment
deriving Repr, DecidableEq

/-- Tokenizer state: tokens so far (reversed) and the current mode. -/
structure TkState where
  toks : List Tok
  mode : TkMode
deriving Repr, DecidableEq

/-- Handle one character in normal mode. -/
def tokNormal (toks : List Tok) (c : Char) : Except String TkState :=
  if c = ' ' || c = '\t' then .ok ⟨toks, .normal⟩
  else if c = '#' then .ok ⟨toks, .comment⟩
  else if c = '"' then .ok ⟨toks, .instr []⟩
  else if bareKeyChar c then .ok ⟨toks, .inident [c]⟩
  else if c = '=' then .ok ⟨.eq :: toks, .normal⟩
  else if c = '[' then .ok ⟨.lbrack :: toks, .normal⟩
  else if c = ']' then .ok ⟨.rbrack :: toks, .normal⟩
  else if c = '{' then .ok ⟨.lbrace :: toks, .normal⟩
  else if c = '}' then .ok ⟨.rbrace :: toks, .normal⟩
  else if c = ',' then .ok ⟨.comma :: toks, .normal⟩
  else .error "unsupported character"

/-- Decode one escape character of a basic string. -/
def escChar (e : Char) : Except String Char :=
  if e = '"' then .ok '"'
  else if e = '\\' then .ok '\\'
  else if e = 'n' then .ok '\n'
  else if e = 't' then .ok '\t'
  else if e = 'r' then .ok '\r'
  else if e = 'b' then .ok (Char.ofNat 8)
  else if e = 'f' then .ok (Char.ofNat 12)
  else .error "unsupported escape"

/-- One step of the line tokenizer. -/
def tokChar (st : TkState) (c : Char) : Except String TkState :=
  match st.mode with
  | .comment => .ok st
  | .instr acc =>
    if c = '"' then .ok ⟨.str ⟨acc.reverse⟩ :: st.toks, .normal⟩
    else if c = '\\' then .ok ⟨st.toks, .inesc acc⟩
    else if (c.toNat < 32 && c ≠ '\t') || c.toNat = 127 then
      .error "control character in string"
    else .ok ⟨st.toks, .instr (c :: acc)⟩
  | .inesc acc =>
    match escChar c with
    | .ok d => .ok ⟨st.toks, .instr (d :: acc)⟩
    | .error e => .error e
  | .inident acc =>
    if bareKeyChar c then .ok ⟨st.toks, .inident (c :: acc)⟩
    else tokNormal (.ident ⟨acc.reverse⟩ :: st.toks) c
  | .normal => tokNormal st.toks c

/-- Run the tokenizer over characters. -/
def tokRun (st : TkState) : List Char → Except String TkState
  | [] => .ok st
  | c :: rest =>
    match tokChar st c with
    | .error e => .error e
    | .ok st2 => tokRun st2 rest

/-- Tokenize one line. -/
def tokLine (l : List Char) : Except String (List Tok) := do
  let st ← tokRun ⟨[], .normal⟩ l
  match st.mode with
  | .normal => .ok st.toks.reverse
  | .comment => .ok st.toks.reverse
  | .inident acc => .ok (Tok.ident ⟨acc.reverse⟩ :: st.toks).reverse
  | _ => .error "unterminated string"

/-- Scalar TOML values of the manifest schema. -/
inductive TomlScalar where
  | str (s : String)
  | bool (b : Bool)
  | strs (xs : List String)
deriving Repr, DecidableEq

/-- A value position of the manifest schema: a scalar or an inline table. -/
inductive TomlValue where
  | scalar (s : TomlScalar)
  | table (kvs : List (String × TomlScalar))
deriving Repr, DecidableEq

/-- Parse a string array after its opening bracket (trailing comma
permitted, as in TOML arrays). -/
def parseStrArrayToks : List Tok → List String → Except String (List String × List Tok)
  | .rbrack :: rest, acc => .ok (acc.reverse, rest)
  | .str s :: .comma :: rest, acc => parseStrArrayToks rest (s :: acc)
  | .str s :: .rbrack :: rest, acc => .ok ((s :: acc).reverse, rest)
  | _, _ => .error "malformed array"

/-- Parse one scalar value. -/
def parseScalarToks : List Tok → Except String (TomlScalar × List Tok)
  | .str s :: rest => .ok (.str s, rest)
  | .ident s :: rest =>
    if s = "true" then .ok (.bool true, rest)
    else if s = "false" then .ok (.bool false, rest)
    else .error "unsupported value"
  | .lbrack :: rest =>
    match parseStrArrayToks rest [] with
    | .ok p => .ok (.strs p.1, p.2)
    | .error e => .error e
  | _ => .error "unsupported value"

/-- The key carried by a key token, if any. -/
def keyOfTok : Tok → Option String
  | .ident s => some s
  | .str s => some s
  | _ => none

theorem parseStrArrayToks_len (toks : List Tok) (acc out : List String)
    (rest : List Tok) (h : parseStrArrayToks toks acc = .ok (out, rest)) :
    rest.length < toks.length := by
  induction toks, acc using parseStrArrayToks.induct with
  | case1 rest2 acc =>
    simp only [parseStrArrayToks] at h
    rw [Except.ok.injEq, Prod.mk.injEq] at h
    rw [← h.2]
    simp
  | case2 s rest2 acc ih =>
    simp only [parseStrArrayToks] at h
    have := ih h
    simp at this ⊢
    omega
  | case3 s rest2 acc =>
    simp only [parseStrArrayToks] at h
    rw [Except.ok.injEq, Prod.mk.injEq] at h
    rw [← h.2]
    simp
    omega
  | case4 toks acc h1 h2 h3 =>
    rw [parseStrArrayToks.eq_def] at h
    split at h
    · exact False.elim (h1 _ rfl)
    · exact False.elim (h2 _ _ rfl)
    · exact False.elim (h3 _ _ rfl)
    · simp at h

theorem parseScalarToks_len (toks : List Tok) (v : TomlScalar) (rest : List Tok)
    (h : parseScalarToks toks = .ok (v, rest)) : rest.length < toks.length := by
  match toks with
  | [] => simp [parseScalarToks] at h
  | .str s :: ts =>
    simp only [parseScalarToks] at h
    obtain rfl : rest = ts := by
      rw [Except.ok.injEq, Prod.mk.injEq] at h
      exact h.2.symm
    simp
  | .ident s :: ts =>
    simp only [parseScalarToks] at h
    split at h
    · obtain rfl : rest = ts := by
        rw [Except.ok.injEq, Prod.mk.injEq] at h
        exact h.2.symm
      simp
    · split at h
      · obtain rfl : rest = ts := by
          rw [Except.ok.injEq, Prod.mk.injEq] at h
          exact h.2.symm
        simp
      · simp at h
  | .lbrack :: ts =>
    simp only [parseScalarToks] at h
    split at h
    · rename_i p hp
      rw [Except.ok.injEq, Prod.mk.injEq] at h
      obtain rfl : rest = p.2 := h.2.symm
      have := parseStrArrayToks_len ts [] p.1 p.2 (by rw [hp])
      simp
      omega
    · simp at h
  | .eq :: ts => simp [parseScalarToks] at h
  | .rbrack :: ts => simp [parseScalarToks] at h
  | .lbrace :: ts => simp [parseScalarToks] at h
  | .rbrace :: ts => simp [parseScalarToks] at h
  | .comma :: ts => simp [parseScalarToks] at h

/-- Assoc lookup used by the raw document (file order preserved). -/
def assocHas {β : Type} (l : List (String × β)) (k : String) : Bool :=
  (l.lookup k).isSome

/-- Parse the entries of an inline table after its opening brace
(TOML inline tables: comma-separated, no trailing comma, duplicate keys
rejected).  The fuel argument only forces structural recursion; every
call site passes the token count, which suffices because each entry
consumes at least one token. -/
def parseTableEntriesF : Nat → List Tok → List (String × TomlScalar) →
    Except String (List (String × TomlScalar) × List Tok)
  | 0, _, _ => .error "malformed inline table"
  | fuel + 1, toks, acc =>
    match toks with
    | kt :: .eq :: rest =>
      match keyOfTok kt with
      | none => .error "malformed inline table"
      | some k =>
        if assocHas acc k then .error "duplicate key in inline table"
        else
          match parseScalarToks rest with
          | .error e => .error e
          | .ok (v, rest2) =>
            match rest2 with
            | .comma :: rest3 => parseTableEntriesF fuel rest3 (acc ++ [(k, v)])
            | .rbrace :: rest3 => .ok (acc ++ [(k, v)], rest3)
            | _ => .error "malformed inline table"
    | _ => .error "malformed inline table"

/-- Parse an inline table after its opening brace. -/
def parseTableToks (toks : List Tok) :
    Except String (List (String × TomlScalar) × List Tok) :=
  match toks with
  | .rbrace :: rest => .ok ([], rest)
  | _ => parseTableEntriesF toks.length toks []

/-- The interpretation of one manifest line. -/
inductive LineKind where
  | blank
  | sectionHead (name : String)
  | arrayHead (name : String)
  | kv (key : String) (value : TomlValue)
deriving Repr, DecidableEq

/-- Parse one tokenized line. -/
def parseLineToks : List Tok → Except String LineKind
  | [] => .ok .blank
  | [.lbrack, .ident name, .rbrack] => .ok (.sectionHead name)
  | [.lbrack, .lbrack, .ident name, .rbrack, .rbrack] => .ok (.arrayHead name)
  | kt :: .eq :: rest =>
    match keyOfTok kt with
    | none => .error "malformed line"
    | some k =>
      match rest with
      | .lbrace :: rest2 =>
        match parseTableToks rest2 with
        | .error e => .error e
        | .ok (kvs, rest3) =>
          if rest3.isEmpty then .ok (.kv k (.table kvs))
          else .error "trailing tokens"
      | _ =>
        match parseScalarToks rest with
        | .error e => .error e
        | .ok (v, rest2) =>
          if rest2.isEmpty then .ok (.kv k (.scalar v))
          else .error "trailing tokens"
  | _ => .error "malformed line"

/-- Parse one raw line. -/
def parseLine (l : List Char) : Except String LineKind :=
  match tokLine l with
  | .error e => .error e
  | .ok toks => parseLineToks toks

/-- The raw parsed document: top-level bindings, named tables, and
arrays-of-tables, each in file order. -/
structure RawDoc where
  top : List (String × TomlValue)
  tables : List (String × List (String × TomlValue))
  arrays : List (String × List (List (String × TomlValue)))
deriving Repr, DecidableEq

/-- The section a key–value line currently belongs to. -/
inductive CurSection where
  | top
  | table (name : String)
  | arrayElem (name : String)
deriving Repr, DecidableEq

/-- Document-parser state. -/
structure PState where
  doc : RawDoc
  cur : CurSection
deriving Repr, DecidableEq

/-- Add a binding to a key–value list, rejecting duplicates as TOML does. -/
def kvsInsert (k : String) (v : TomlValue) (l : List (String × TomlValue)) :
    Except String (List (String × TomlValue)) :=
  if assocHas l k then .error "duplicate key" else .ok (l ++ [(k, v)])

/-- Add a binding to the named table. -/
def updTable (name k : String) (v : TomlValue) :
    List (String × List (String × TomlValue)) →
    Except String (List (String × List (String × TomlValue)))
  | [] => .error "internal: missing table"
  | (n, kvs) :: rest =>
    if n = name then
      match kvsInsert k v kvs with
      | .error e => .error e
      | .ok kvs2 => .ok ((n, kvs2) :: rest)
    else
      match updTable name k v rest with
      | .error e => .error e
      | .ok rest2 => .ok ((n, kvs) :: rest2)

/-- Add a binding to the last element of an array-of-tables entry. -/
def updLast (k : String) (v : TomlValue) :
    List (List (String × TomlValue)) →
    Except String (List (List (String × TomlValue)))
  | [] => .error "internal: missing array element"
  | [e] =>
    match kvsInsert k v e with
    | .error err => .error err
    | .ok e2 => .ok [e2]
  | e :: rest =>
    match updLast k v rest with
    | .error err => .error err
    | .ok rest2 => .ok (e :: rest2)

/-- Add a binding to the last element of the named array-of-tables. -/
def updArrays (name k : String) (v : TomlValue) :
    List (String × List (List (String × TomlValue))) →
    Except String (List (String × List (List (String × TomlValue))))
  | [] => .error "internal: missing array"
  | (n, elems) :: rest =>
    if n = name then
      match updLast k v elems with
      | .error err => .error err
      | .ok elems2 => .ok ((n, elems2) :: rest)
    else
      match updArrays name k v rest with
      | .error err => .error err
      | .ok rest2 => .ok ((n, elems) :: rest2)

/-- Open a new element of the named array-of-tables. -/
def arraysAppend (name : String) :
    List (String × List (List (String × TomlValue))) →
    List (String × List (List (String × TomlValue)))
  | [] => [(name, [[]])]
  | (n, elems) :: rest =>
    if n = name then (n, elems ++ [[]]) :: rest
    else (n, elems) :: arraysAppend name rest

/-- Process one line of the document. -/
def stepLine (st : PState) (line : List Char) : Except String PState :=
  match parseLine line with
  | .error e => .error e
  | .ok .blank => .ok st
  | .ok (.sectionHead name) =>
    if assocHas st.doc.tables name || assocHas st.doc.arrays name then
      .error "duplicate section"
    else
      .ok ⟨{ st.doc with tables := st.doc.tables ++ [(name, [])] }, .table name⟩
  | .ok (.arrayHead name) =>
    if assocHas st.doc.tables name then .error "table redefined as array"
    else
      .ok ⟨{ st.doc with arrays := arraysAppend name st.doc.arrays }, .arrayElem name⟩
  | .ok (.kv k v) =>
    match st.cur with
    | .top =>
      match kvsInsert k v st.doc.top with
      | .error e => .error e
      | .ok top2 => .ok ⟨{ st.doc with top := top2 }, st.cur⟩
    | .table name =>
      match updTable name k v st.doc.tables with
      | .error e => .error e
      | .ok tables2 => .ok ⟨{ st.doc with tables := tables2 }, st.cur⟩
    | .arrayElem name =>
      match updArrays name k v st.doc.arrays with
      | .error e => .error e
      | .ok arrays2 => .ok ⟨{ st.doc with arrays := arrays2 }, st.cur⟩

/-- Split a character stream into its newline-separated lines. -/
def splitLinesAux (acc : List Char) : List Char → List (List Char)
  | [] => [acc.reverse]
  | c :: rest =>
    if c = '\n' then acc.reverse :: splitLinesAux [] rest
    else splitLinesAux (c :: acc) rest

/-- Fold the line processor over the lines of the document. -/
def parseDocLines (st : PState) : List (List Char) → Except String PState
  | [] => .ok st
  | line :: rest =>
    match stepLine st line with
    | .error e => .error e
    | .ok st2 => parseDocLines st2 rest

/-! ## Deserialization into the Pipfile model (the serde derives) -/

/-- Optional string field of an inline-table scalar map. -/
def getOptStr (kvs : List (String × TomlScalar)) (k : String) :
    Except String (Option String) :=
  match kvs.lookup k with
  | none => .ok none
  | some (.str s) => .ok (some s)
  | some _ => .error "expected string"

/-- Boolean field with a serde default. -/
def getBoolD (kvs : List (String × TomlScalar)) (k : String) (d : Bool) :
    Except String Bool :=
  match kvs.lookup k with
  | none => .ok d
  | some (.bool b) => .ok b
  | some _ => .error "expected bool"

/-- String-array field with the serde `Vec` default. -/
def getStrs (kvs : List (String × TomlScalar)) (k : String) :
    Except String (List String) :=
  match kvs.lookup k with
  | none => .ok []
  | some (.strs xs) => .ok xs
  | some _ => .error "expected array of strings"

/-- Optional string field of a section (values are `TomlValue`s). -/
def getOptStrV (kvs : List (String × TomlValue)) (k : String) :
    Except String (Option String) :=
  match kvs.lookup k with
  | none => .ok none
  | some (.scalar (.str s)) => .ok (some s)
  | some _ => .error "expected string"

/-- Deserialize a detail table (`PipfilePackageDetail`): unknown fields
ignored, `ref` renamed, `extras` and `editable` defaulted. -/
def parseDetail (kvs : List (String × TomlScalar)) :
    Except String PipfilePackageDetail :=
  match getOptStr kvs "version" with
  | .error e => .error e
  | .ok version =>
  match getStrs kvs "extras" with
  | .error e => .error e
  | .ok extras =>
  match getOptStr kvs "markers" with
  | .error e => .error e
  | .ok markers =>
  match getOptStr kvs "sys_platform" with
  | .error e => .error e
  | .ok sys_platform =>
  match getOptStr kvs "git" with
  | .error e => .error e
  | .ok git =>
  match getOptStr kvs "ref" with
  | .error e => .error e
  | .ok git_ref =>
  match getOptStr kvs "path" with
  | .error e => .error e
  | .ok path =>
  match getBoolD kvs "editable" false with
  | .error e => .error e
  | .ok editable =>
  match getOptStr kvs "index" with
  | .error e => .error e
  | .ok index =>
    .ok ⟨version, extras, markers, sys_platform, git, git_ref, path, editable, index⟩

/-- Deserialize the untagged `Simple | Detailed` package union: the
string attempt first, then the structured table. -/
def parsePackage (v : TomlValue) : Except String PipfilePackage :=
  match v with
  | .scalar (.str s) => .ok (.Simple s)
  | .table kvs =>
    match parseDetail kvs with
    | .error e => .error e
    | .ok detail => .ok (.Detailed detail)
  | _ => .error "invalid package spec"

/-- Deserialize a package section into the name-keyed `BTreeMap`. -/
def parsePackages (kvs : List (String × TomlValue)) :
    Except String (SMap PipfilePackage) :=
  kvs.foldlM (fun m kv =>
    match parsePackage kv.2 with
    | .error e => .error e
    | .ok p => .ok (SMap.insert kv.1 p m)) []

/-- Deserialize one `[[source]]` element: `name` and `url` required,
`verify_ssl` defaulting to true. -/
def parseSource (kvs : List (String × TomlValue)) : Except String PipfileSource :=
  match kvs.lookup "name" with
  | some (.scalar (.str name)) =>
    (match kvs.lookup "url" with
     | some (.scalar (.str url)) =>
       (match kvs.lookup "verify_ssl" with
        | none => .ok ⟨name, url, true⟩
        | some (.scalar (.bool b)) => .ok ⟨name, url, b⟩
        | some _ => .error "expected bool")
     | some _ => .error "expected string"
     | none => .error "missing field url")
  | some _ => .error "expected string"
  | none => .error "missing field name"

/-- Deserialize the `[scripts]` section: every value must be a string. -/
def parseScripts (kvs : List (String × TomlValue)) : Except String (SMap String) :=
  kvs.foldlM (fun m kv =>
    match kv.2 with
    | .scalar (.str s) => .ok (SMap.insert kv.1 s m)
    | _ => .error "script must be a string") []

/-- Deserialize the `[requires]` section. -/
def parseRequires (kvs : List (String × TomlValue)) :
    Except String PipfileRequires :=
  match getOptStrV kvs "python_version" with
  | .error e => .error e
  | .ok python_version =>
    match getOptStrV kvs "python_full_version" with
    | .error e => .error e
    | .ok python_full_version => .ok ⟨python_version, python_full_version⟩

/-- Deserialize the `[pipenv]` section. -/
def parseSettings (kvs : List (String × TomlValue)) :
    Except String PipfileSettings :=
  match kvs.lookup "allow_prereleases" with
  | none => .ok ⟨false⟩
  | some (.scalar (.bool b)) => .ok ⟨b⟩
  | some _ => .error "expected bool"

/-- The section names of the manifest schema. -/
def knownSection (n : String) : Bool :=
  n = "source" || n = "packages" || n = "dev-packages" || n = "requires" ||
  n = "scripts" || n = "pipenv"

/-- Assemble a `Pipfile` from the raw document (the serde `Deserialize`
of the top-level struct: unknown sections ignored, absent sections
defaulted to empty). -/
def deserializePipfile (doc : RawDoc) : Except String Pipfile :=
  if doc.top.any (fun kv => knownSection kv.1) then
    .error "unsupported top-level binding for a schema key"
  else if assocHas doc.tables "source" then
    .error "source must be an array of tables"
  else if assocHas doc.arrays "packages" || assocHas doc.arrays "dev-packages" ||
      assocHas doc.arrays "requires" || assocHas doc.arrays "scripts" ||
      assocHas doc.arrays "pipenv" then
    .error "expected table"
  else
    match ((doc.arrays.lookup "source").getD []).mapM parseSource with
    | .error e => .error e
    | .ok source =>
    match parsePackages ((doc.tables.lookup "packages").getD []) with
    | .error e => .error e
    | .ok packages =>
    match parsePackages ((doc.tables.lookup "dev-packages").getD []) with
    | .error e => .error e
    | .ok dev_packages =>
    match (match doc.tables.lookup "requires" with
           | none => .ok none
           | some kvs =>
             match parseRequires kvs with
             | .error e => .error e
             | .ok r => .ok (some r) : Except String (Option PipfileRequires)) with
    | .error e => .error e
    | .ok requires =>
    match parseScripts ((doc.tables.lookup "scripts").getD []) with
    | .error e => .error e
    | .ok scripts =>
    match (match doc.tables.lookup "pipenv" with
           | none => .ok none
           | some kvs =>
             match parseSettings kvs with
             | .error e => .error e
             | .ok s => .ok (some s) : Except String (Option PipfileSettings)) with
    | .error e => .error e
    | .ok pipenv =>
      .ok ⟨source, packages, dev_packages, requires, scripts, pipenv⟩

/-- Modelled from the spec: `parse(text) -> Manifest | ParseError`
(§4.1) — the external `toml::from_str` driving the serde derives of
`model.rs`, neither of which is under src/. -/
def pipfile_from_toml (text : String) : Except String Pipfile :=
  match parseDocLines ⟨⟨[], [], []⟩, .top⟩ (splitLinesAux [] text.data) with
  | .error e => .error e
  | .ok st => deserializePipfile st.doc

/-! ## Well-formedness of manifests for the round-trip -/

/-- Characters surviving a double-quoted TOML value without escaping. -/
def goodStrChar (c : Char) : Bool :=
  c ≠ '"' && c ≠ '\\' && (32 ≤ c.toNat || c = '\t') && c.toNat ≠ 127

/-- String emitted verbatim into a quoted value. -/
def goodStr (s : String) : Bool := s.data.all goodStrChar

/-- Characters admissible in a script command (quote and backslash are
fine there because the writer escapes script values). -/
def scriptChar (c : Char) : Bool := (32 ≤ c.toNat || c = '\t') && c.toNat ≠ 127

/-- Script command string. -/
def scriptStr (s : String) : Bool := s.data.all scriptChar

/-- Nonempty bare TOML key. -/
def bareKey (s : String) : Bool := !s.data.isEmpty && s.data.all bareKeyChar

/-- Well-formedness of one package binding. -/
def packageWF (kv : String × PipfilePackage) : Bool :=
  bareKey kv.1 &&
  (match kv.2 with
   | .Simple version => goodStr version
   | .Detailed d =>
     (match d.version with | some v => goodStr v | none => true) &&
     d.extras.all goodStr &&
     (match d.markers with | some v => goodStr v | none => true) &&
     (match d.sys_platform with | some v => goodStr v | none => true) &&
     (match d.git with | some v => goodStr v | none => true) &&
     (match d.git_ref with | some v => goodStr v | none => true) &&
     (match d.path with | some v => goodStr v | none => true) &&
     (match d.index with | some v => goodStr v | none => true))

/-- Well-formedness of a manifest for the rendering round-trip:
package and script maps sorted with bare-key names, all plain string
fields free of characters needing TOML escaping, and script commands
(which the writer escapes) merely free of control characters. -/
def pipfileWF (p : Pipfile) : Bool :=
  p.source.all (fun s => goodStr s.name && goodStr s.url) &&
  SMap.sortedKeys p.packages && p.packages.all packageWF &&
  SMap.sortedKeys p.dev_packages && p.dev_packages.all packageWF &&
  (match p.requires with
   | some r =>
     (match r.python_version with | some v => goodStr v | none => true) &&
     (match r.python_full_version with | some v => goodStr v | none => true)
   | none => true) &&
  SMap.sortedKeys p.scripts &&
  p.scripts.all (fun kv => bareKey kv.1 && scriptStr kv.2)

/-! ## Tokenizer run lemmas -/

theorem tokRun_append (a b : List Char) (st : TkState) :
    tokRun st (a ++ b) =
      match tokRun st a with
      | .error e => .error e
      | .ok st2 => tokRun st2 b := by
  induction a generalizing st with
  | nil => simp [tokRun]
  | cons c rest ih =>
    simp only [List.cons_append, tokRun]
    cases tokChar st c with
    | error e => rfl
    | ok st2 => exact ih st2

theorem tokChar_instr_good (toks : List Tok) (acc : List Char) (c : Char)
    (h : goodStrChar c = true) :
    tokChar ⟨toks, .instr acc⟩ c = .ok ⟨toks, .instr (c :: acc)⟩ := by
  simp only [goodStrChar, Bool.and_eq_true, decide_eq_true_eq, Bool.or_eq_true,
    decide_eq_true_eq, ne_eq] at h
  obtain ⟨⟨⟨h1, h2⟩, h3⟩, h4⟩ := h
  simp only [tokChar]
  rw [if_neg (by simpa using h1), if_neg (by simpa using h2), if_neg]
  simp only [Bool.or_eq_true, Bool.and_eq_true, decide_eq_true_eq, not_or, not_and]
  constructor
  · intro hlt
    rcases h3 with h3 | h3
    · omega
    · simp [h3]
  · omega

theorem tokRun_instr (s : List Char) (h : s.all goodStrChar) (toks : List Tok)
    (acc : List Char) :
    tokRun ⟨toks, .instr acc⟩ s = .ok ⟨toks, .instr (s.reverse ++ acc)⟩ := by
  induction s generalizing acc with
  | nil => simp [tokRun]
  | cons c rest ih =>
    simp only [List.all_cons, Bool.and_eq_true] at h
    simp only [tokRun, tokChar_instr_good toks acc c h.1]
    rw [ih h.2 (c :: acc)]
    simp

theorem tokRun_ident (k : List Char) (h : k.all bareKeyChar) (toks : List Tok)
    (acc : List Char) :
    tokRun ⟨toks, .inident acc⟩ k = .ok ⟨toks, .inident (k.reverse ++ acc)⟩ := by
  induction k generalizing acc with
  | nil => simp [tokRun]
  | cons c rest ih =>
    simp only [List.all_cons, Bool.and_eq_true] at h
    have hstep : tokChar ⟨toks, .inident acc⟩ c = .ok ⟨toks, .inident (c :: acc)⟩ := by
      simp [tokChar, h.1]
    simp only [tokRun, hstep]
    rw [ih h.2 (c :: acc)]
    simp

theorem tokRun_script (s : List Char) (h : s.all scriptChar) (toks : List Tok)
    (acc : List Char) :
    tokRun ⟨toks, .instr acc⟩ ((s.map escapeTomlChar).flatten) =
      .ok ⟨toks, .instr (s.reverse ++ acc)⟩ := by
  induction s generalizing acc with
  | nil => simp [tokRun]
  | cons c rest ih =>
    simp only [List.all_cons, Bool.and_eq_true] at h
    simp only [List.map_cons, List.flatten_cons]
    rw [tokRun_append]
    by_cases hb : c = '\\'
    · subst hb
      rw [show escapeTomlChar '\\' = ['\\', '\\'] from rfl]
      rw [show tokRun ⟨toks, .instr acc⟩ ['\\', '\\'] =
        .ok ⟨toks, .instr ('\\' :: acc)⟩ from rfl]
      simp [ih h.2]
    · by_cases hq : c = '"'
      · subst hq
        rw [show escapeTomlChar '"' = ['\\', '"'] from rfl]
        rw [show tokRun ⟨toks, .instr acc⟩ ['\\', '"'] =
          .ok ⟨toks, .instr ('"' :: acc)⟩ from rfl]
        simp [ih h.2]
      · rw [show escapeTomlChar c = [c] from by simp [escapeTomlChar, hb, hq]]
        have hg : goodStrChar c = true := by
          simp only [scriptChar, Bool.and_eq_true, Bool.or_eq_true,
            decide_eq_true_eq, ne_eq] at h
          simp only [goodStrChar, Bool.and_eq_true, decide_eq_true_eq,
            Bool.or_eq_true, ne_eq]
          exact ⟨⟨⟨by simpa using hq, by simpa using hb⟩, h.1.1⟩, h.1.2⟩
        have hstep : tokChar ⟨toks, .instr acc⟩ c = .ok ⟨toks, .instr (c :: acc)⟩ :=
          tokChar_instr_good toks acc c hg
        simp only [tokRun, hstep]
        rw [ih h.2]
        simp

theorem tokNormal_bare (toks : List Tok) (c : Char) (h : bareKeyChar c = true) :
    tokNormal toks c = .ok ⟨toks, .inident [c]⟩ := by
  have h1 : c ≠ ' ' := by rintro rfl; exact absurd h (by decide)
  have h2 : c ≠ '\t' := by rintro rfl; exact absurd h (by decide)
  have h3 : c ≠ '#' := by rintro rfl; exact absurd h (by decide)
  have h4 : c ≠ '"' := by rintro rfl; exact absurd h (by decide)
  simp [tokNormal, h1, h2, h3, h4, h]

theorem tokLine_ok (l : List Char) (toks : List Tok)
    (h : tokRun ⟨[], .normal⟩ l = .ok ⟨toks, .normal⟩) :
    tokLine l = .ok toks.reverse := by
  unfold tokLine
  rw [h]
  rfl

theorem tokRun_cons (st : TkState) (c : Char) (rest : List Char) (st2 : TkState)
    (h : tokChar st c = .ok st2) : tokRun st (c :: rest) = tokRun st2 rest := by
  simp only [tokRun, h]

theorem tokRun_ok_append (st st2 : TkState) (a b : List Char)
    (h : tokRun st a = .ok st2) : tokRun st (a ++ b) = tokRun st2 b := by
  rw [tokRun_append, h]

theorem tokRun_key_sp (k : String) (hk : bareKey k = true) (toks : List Tok)
    (rest : List Char) :
    tokRun ⟨toks, .normal⟩ (k.data ++ ' ' :: rest) =
      tokRun ⟨.ident k :: toks, .normal⟩ rest := by
  simp only [bareKey, Bool.and_eq_true, Bool.not_eq_true'] at hk
  obtain ⟨hne, hall⟩ := hk
  cases hd : k.data with
  | nil => rw [hd] at hne; simp at hne
  | cons c k2 =>
    rw [hd] at hall
    simp only [List.all_cons, Bool.and_eq_true] at hall
    rw [List.cons_append]
    rw [tokRun_cons _ _ _ _ (by
      rw [show tokChar ⟨toks, .normal⟩ c = tokNormal toks c from rfl]
      exact tokNormal_bare toks c hall.1)]
    rw [tokRun_ok_append _ _ _ _ (tokRun_ident k2 hall.2 toks [c])]
    rw [tokRun_cons _ _ _ _
      (show tokChar ⟨toks, .inident (k2.reverse ++ [c])⟩ ' ' =
        .ok ⟨.ident ⟨(k2.reverse ++ [c]).reverse⟩ :: toks, .normal⟩ from rfl)]
    have heq : (⟨(k2.reverse ++ [c]).reverse⟩ : String) = k := by
      show String.mk (k2.reverse ++ [c]).reverse = k
      rw [List.reverse_append, List.reverse_reverse]
      simp only [List.reverse_cons, List.reverse_nil, List.nil_append,
        List.singleton_append]
      rw [← hd]
    rw [heq]

theorem tokRun_quoted (s : String) (hs : goodStr s = true) (toks : List Tok)
    (rest : List Char) :
    tokRun ⟨toks, .normal⟩ ('"' :: (s.data ++ '"' :: rest)) =
      tokRun ⟨.str s :: toks, .normal⟩ rest := by
  rw [tokRun_cons _ _ _ _ (show tokChar ⟨toks, .normal⟩ '"' =
    .ok ⟨toks, .instr []⟩ from rfl)]
  rw [tokRun_ok_append _ _ _ _ (by
    have := tokRun_instr s.data hs toks []
    rw [List.append_nil] at this
    exact this)]
  rw [tokRun_cons _ _ _ _ (show tokChar ⟨toks, .instr s.data.reverse⟩ '"' =
    .ok ⟨.str ⟨s.data.reverse.reverse⟩ :: toks, .normal⟩ from rfl)]
  rw [show (⟨s.data.reverse.reverse⟩ : String) = s from by
    show String.mk s.data.reverse.reverse = s
    rw [List.reverse_reverse]]

theorem tokRun_script_quoted (s : String) (hs : scriptStr s = true) (toks : List Tok)
    (rest : List Char) :
    tokRun ⟨toks, .normal⟩ ('"' :: ((escape_toml_value s).data ++ '"' :: rest)) =
      tokRun ⟨.str s :: toks, .normal⟩ rest := by
  rw [tokRun_cons _ _ _ _ (show tokChar ⟨toks, .normal⟩ '"' =
    .ok ⟨toks, .instr []⟩ from rfl)]
  rw [show (escape_toml_value s).data = (s.data.map escapeTomlChar).flatten from rfl]
  rw [tokRun_ok_append _ _ _ _ (by
    have := tokRun_script s.data hs toks []
    rw [List.append_nil] at this
    exact this)]
  rw [tokRun_cons _ _ _ _ (show tokChar ⟨toks, .instr s.data.reverse⟩ '"' =
    .ok ⟨.str ⟨s.data.reverse.reverse⟩ :: toks, .normal⟩ from rfl)]
  rw [show (⟨s.data.reverse.reverse⟩ : String) = s from by
    show String.mk s.data.reverse.reverse = s
    rw [List.reverse_reverse]]

/-! ## Scalar rendering and its tokenization -/

/-- Rendering of a scalar exactly as the writer emits it. -/
def scalarRender : TomlScalar → String
  | .str s => "\"" ++ s ++ "\""
  | .bool true => "true"
  | .bool false => "false"
  | .strs xs =>
    "[" ++ String.intercalate ", " (xs.map (fun e => "\"" ++ e ++ "\"")) ++ "]"

/-- Token list of a rendered scalar. -/
def scalarToks : TomlScalar → List Tok
  | .str s => [.str s]
  | .bool true => [.ident "true"]
  | .bool false => [.ident "false"]
  | .strs xs => .lbrack :: ((xs.map Tok.str).intersperse .comma ++ [.rbrack])

/-- Well-formedness of a scalar's strings. -/
def scalarWF : TomlScalar → Bool
  | .str s => goodStr s
  | .bool _ => true
  | .strs xs => xs.all goodStr

theorem intercalate_go_append (x y s : String) (t : List String) :
    String.intercalate.go (x ++ y) s t = x ++ String.intercalate.go y s t := by
  induction t generalizing y with
  | nil => simp [String.intercalate.go]
  | cons c t ih =>
    simp only [String.intercalate.go]
    rw [show x ++ y ++ s ++ c = x ++ (y ++ s ++ c) from by
      simp [String.append_assoc], ih]

theorem intercalate_cons_cons (s a b : String) (t : List String) :
    String.intercalate s (a :: b :: t) = a ++ s ++ String.intercalate s (b :: t) := by
  show String.intercalate.go a s (b :: t) = _
  show String.intercalate.go (a ++ s ++ b) s t = _
  rw [show a ++ s ++ b = (a ++ s) ++ b from rfl, intercalate_go_append]
  rfl

theorem tokRun_strlist (xs : List String) (hxs : xs.all goodStr = true)
    (toks : List Tok) (rest : List Char) :
    tokRun ⟨toks, .normal⟩
      ((String.intercalate ", " (xs.map (fun e => "\"" ++ e ++ "\""))).data ++
        ']' :: rest) =
      tokRun ⟨.rbrack :: (((xs.map Tok.str).intersperse .comma).reverse ++ toks),
        .normal⟩ rest := by
  induction xs generalizing toks with
  | nil =>
    show tokRun ⟨toks, .normal⟩ (("" : String).data ++ ']' :: rest) = _
    rw [show ("" : String).data = [] from rfl, List.nil_append]
    rw [tokRun_cons _ _ _ _ (show tokChar ⟨toks, .normal⟩ ']' =
      .ok ⟨.rbrack :: toks, .normal⟩ from rfl)]
    rfl
  | cons x t ih =>
    simp only [List.all_cons, Bool.and_eq_true] at hxs
    cases t with
    | nil =>
      show tokRun ⟨toks, .normal⟩ (("\"" ++ x ++ "\"").data ++ ']' :: rest) = _
      rw [show ("\"" ++ x ++ "\"").data ++ ']' :: rest =
        '"' :: (x.data ++ '"' :: (']' :: rest)) from by simp]
      rw [tokRun_quoted x hxs.1 toks (']' :: rest)]
      rw [tokRun_cons _ _ _ _ (show tokChar ⟨.str x :: toks, .normal⟩ ']' =
        .ok ⟨.rbrack :: .str x :: toks, .normal⟩ from rfl)]
      rfl
    | cons y t2 =>
      rw [show List.map (fun e => "\"" ++ e ++ "\"") (x :: y :: t2) =
        ("\"" ++ x ++ "\"") :: ("\"" ++ y ++ "\"") ::
          t2.map (fun e => "\"" ++ e ++ "\"") from rfl]
      rw [intercalate_cons_cons]
      rw [show (("\"" ++ x ++ "\"") ++ ", " ++
          String.intercalate ", " (("\"" ++ y ++ "\"") ::
            t2.map (fun e => "\"" ++ e ++ "\""))).data ++ ']' :: rest =
        '"' :: (x.data ++ '"' :: (',' :: ' ' ::
          ((String.intercalate ", " (("\"" ++ y ++ "\"") ::
            t2.map (fun e => "\"" ++ e ++ "\""))).data ++ ']' :: rest))) from by simp]
      rw [tokRun_quoted x hxs.1 toks]
      rw [tokRun_cons _ _ _ _ (show tokChar ⟨.str x :: toks, .normal⟩ ',' =
        .ok ⟨.comma :: .str x :: toks, .normal⟩ from rfl)]
      rw [tokRun_cons _ _ _ _ (show tokChar ⟨.comma :: .str x :: toks, .normal⟩ ' ' =
        .ok ⟨.comma :: .str x :: toks, .normal⟩ from rfl)]
      rw [show ("\"" ++ y ++ "\"") :: List.map (fun e => "\"" ++ e ++ "\"") t2 =
        List.map (fun e => "\"" ++ e ++ "\"") (y :: t2) from rfl]
      rw [ih hxs.2 (.comma :: .str x :: toks)]
      rw [show ((x :: y :: t2).map Tok.str).intersperse .comma =
        .str x :: .comma :: ((y :: t2).map Tok.str).intersperse .comma from by
          simp [List.intersperse]]
      simp

theorem tokRun_scalar (v : TomlScalar) (hv : scalarWF v = true) (toks : List Tok)
    (c : Char) (hc : bareKeyChar c = false) (rest : List Char) :
    tokRun ⟨toks, .normal⟩ ((scalarRender v).data ++ c :: rest) =
      tokRun ⟨(scalarToks v).reverse ++ toks, .normal⟩ (c :: rest) := by
  cases v with
  | str s =>
    rw [show (scalarRender (.str s)).data ++ c :: rest =
      '"' :: (s.data ++ '"' :: (c :: rest)) from by simp [scalarRender]]
    rw [tokRun_quoted s hv toks (c :: rest)]
    rfl
  | bool b =>
    cases b with
    | true =>
      rw [show (scalarRender (.bool true)).data ++ c :: rest =
        ['t', 'r', 'u', 'e'] ++ c :: rest from rfl]
      rw [tokRun_ok_append _ _ _ _ (show tokRun ⟨toks, .normal⟩ ['t', 'r', 'u', 'e'] =
        .ok ⟨toks, .inident ['e', 'u', 'r', 't']⟩ from rfl)]
      have hs1 : tokChar ⟨toks, .inident ['e', 'u', 'r', 't']⟩ c =
          tokNormal (Tok.ident "true" :: toks) c := by
        simp only [tokChar, hc]
        rw [show (⟨['e', 'u', 'r', 't'].reverse⟩ : String) = "true" from by decide]
        simp
      simp only [tokRun, hs1]
      rfl
    | false =>
      rw [show (scalarRender (.bool false)).data ++ c :: rest =
        ['f', 'a', 'l', 's', 'e'] ++ c :: rest from rfl]
      rw [tokRun_ok_append _ _ _ _
        (show tokRun ⟨toks, .normal⟩ ['f', 'a', 'l', 's', 'e'] =
          .ok ⟨toks, .inident ['e', 's', 'l', 'a', 'f']⟩ from rfl)]
      have hs1 : tokChar ⟨toks, .inident ['e', 's', 'l', 'a', 'f']⟩ c =
          tokNormal (Tok.ident "false" :: toks) c := by
        simp only [tokChar, hc]
        rw [show (⟨['e', 's', 'l', 'a', 'f'].reverse⟩ : String) = "false" from by decide]
        simp
      simp only [tokRun, hs1]
      rfl
  | strs xs =>
    rw [show (scalarRender (.strs xs)).data ++ c :: rest =
      '[' :: ((String.intercalate ", "
        (xs.map (fun e => "\"" ++ e ++ "\""))).data ++ ']' :: (c :: rest))
      from by simp [scalarRender]]
    rw [tokRun_cons _ _ _ _ (show tokChar ⟨toks, .normal⟩ '[' =
      .ok ⟨.lbrack :: toks, .normal⟩ from rfl)]
    rw [tokRun_strlist xs hv (.lbrack :: toks) (c :: rest)]
    rw [show (scalarToks (.strs xs)).reverse ++ toks =
      .rbrack :: (((xs.map Tok.str).intersperse .comma).reverse ++ (.lbrack :: toks))
      from by simp [scalarToks]]

/-- Well-formedness of one rendered inline-table field. -/
def fieldWF (kv : String × TomlScalar) : Bool := bareKey kv.1 && scalarWF kv.2

/-- Token list of an inline table body. -/
def fieldsToks : List (String × TomlScalar) → List Tok
  | [] => []
  | [kv] => .ident kv.1 :: .eq :: scalarToks kv.2
  | kv :: rest => .ident kv.1 :: .eq :: (scalarToks kv.2 ++ .comma :: fieldsToks rest)

/-- The writer's rendering of an inline table body. -/
def renderFields (kvs : List (String × TomlScalar)) : String :=
  String.intercalate ", " (kvs.map (fun kv => kv.1 ++ " = " ++ scalarRender kv.2))

theorem tokRun_field (k : String) (hk : bareKey k = true) (v : TomlScalar)
    (hv : scalarWF v = true) (toks : List Tok) (c : Char)
    (hc : bareKeyChar c = false) (rest : List Char) :
    tokRun ⟨toks, .normal⟩ ((k ++ " = " ++ scalarRender v).data ++ c :: rest) =
      tokRun ⟨(scalarToks v).reverse ++ .eq :: .ident k :: toks, .normal⟩
        (c :: rest) := by
  rw [show (k ++ " = " ++ scalarRender v).data ++ c :: rest =
    k.data ++ ' ' :: ('=' :: ' ' :: ((scalarRender v).data ++ c :: rest))
    from by simp]
  rw [tokRun_key_sp k hk]
  rw [tokRun_cons _ _ _ _ (show tokChar ⟨.ident k :: toks, .normal⟩ '=' =
    .ok ⟨.eq :: .ident k :: toks, .normal⟩ from rfl)]
  rw [tokRun_cons _ _ _ _ (show tokChar ⟨.eq :: .ident k :: toks, .normal⟩ ' ' =
    .ok ⟨.eq :: .ident k :: toks, .normal⟩ from rfl)]
  exact tokRun_scalar v hv _ c hc rest

theorem tokRun_fields (kvs : List (String × TomlScalar))
    (h : kvs.all fieldWF = true) (toks : List Tok) (rest : List Char) :
    tokRun ⟨toks, .normal⟩ ((renderFields kvs).data ++ '\x7d' :: rest) =
      tokRun ⟨.rbrace :: ((fieldsToks kvs).reverse ++ toks), .normal⟩ rest := by
  induction kvs generalizing toks with
  | nil =>
    rw [show (renderFields []).data = [] from rfl, List.nil_append]
    rw [tokRun_cons _ _ _ _ (show tokChar ⟨toks, .normal⟩ '\x7d' =
      .ok ⟨.rbrace :: toks, .normal⟩ from rfl)]
    rfl
  | cons kv t ih =>
    simp only [List.all_cons, Bool.and_eq_true, fieldWF] at h
    cases t with
    | nil =>
      rw [show renderFields [kv] = kv.1 ++ " = " ++ scalarRender kv.2 from rfl]
      rw [tokRun_field kv.1 h.1.1 kv.2 h.1.2 toks '\x7d' (by decide) rest]
      rw [tokRun_cons _ _ _ _
        (show tokChar ⟨(scalarToks kv.2).reverse ++ .eq :: .ident kv.1 :: toks,
          .normal⟩ '\x7d' = .ok ⟨.rbrace :: ((scalarToks kv.2).reverse ++
            .eq :: .ident kv.1 :: toks), .normal⟩ from rfl)]
      rw [show fieldsToks [kv] = .ident kv.1 :: .eq :: scalarToks kv.2 from rfl]
      simp
    | cons kv2 t2 =>
      rw [show renderFields (kv :: kv2 :: t2) =
        (kv.1 ++ " = " ++ scalarRender kv.2) ++ ", " ++
          renderFields (kv2 :: t2) from by
        show String.intercalate ", " _ = _
        rw [show List.map (fun kv : String × TomlScalar =>
            kv.1 ++ " = " ++ scalarRender kv.2) (kv :: kv2 :: t2) =
          (kv.1 ++ " = " ++ scalarRender kv.2) ::
            (kv2.1 ++ " = " ++ scalarRender kv2.2) ::
            t2.map (fun kv => kv.1 ++ " = " ++ scalarRender kv.2) from rfl]
        rw [intercalate_cons_cons]
        rfl]
      rw [show ((kv.1 ++ " = " ++ scalarRender kv.2) ++ ", " ++
          renderFields (kv2 :: t2)).data ++ '\x7d' :: rest =
        (kv.1 ++ " = " ++ scalarRender kv.2).data ++ ',' :: (' ' ::
          ((renderFields (kv2 :: t2)).data ++ '\x7d' :: rest)) from by simp]
      rw [show (kv.1 ++ " = " ++ scalarRender kv.2).data =
        (kv.1 ++ " = " ++ scalarRender kv.2).data from rfl]
      rw [show ((kv.1 ++ " = " ++ scalarRender kv.2).data ++ ',' :: (' ' ::
          ((renderFields (kv2 :: t2)).data ++ '\x7d' :: rest))) =
        ((kv.1 ++ " = " ++ scalarRender kv.2).data ++ ',' :: (' ' ::
          ((renderFields (kv2 :: t2)).data ++ '\x7d' :: rest))) from rfl]
      rw [tokRun_field kv.1 h.1.1 kv.2 h.1.2 toks ',' (by decide)]
      rw [tokRun_cons _ _ _ _
        (show tokChar ⟨(scalarToks kv.2).reverse ++ .eq :: .ident kv.1 :: toks,
          .normal⟩ ',' = .ok ⟨.comma :: ((scalarToks kv.2).reverse ++
            .eq :: .ident kv.1 :: toks), .normal⟩ from rfl)]
      rw [tokRun_cons _ _ _ _
        (show tokChar ⟨.comma :: ((scalarToks kv.2).reverse ++
            .eq :: .ident kv.1 :: toks), .normal⟩ ' ' =
          .ok ⟨.comma :: ((scalarToks kv.2).reverse ++
            .eq :: .ident kv.1 :: toks), .normal⟩ from rfl)]
      rw [ih h.2]
      rw [show fieldsToks (kv :: kv2 :: t2) =
        .ident kv.1 :: .eq :: (scalarToks kv.2 ++ .comma ::
          fieldsToks (kv2 :: t2)) from rfl]
      simp

/-- An optional string field rendered as one inline-table binding. -/
def optSeg (name : String) (o : Option String) : List (String × TomlScalar) :=
  match o with
  | some x => [(name, TomlScalar.str x)]
  | none => []

/-- The key/scalar bindings of a detailed package in the writer's field
order. -/
def detailKvs (d : PipfilePackageDetail) : List (String × TomlScalar) :=
  optSeg "version" d.version ++
  (if d.extras.isEmpty then [] else [("extras", TomlScalar.strs d.extras)]) ++
  optSeg "git" d.git ++
  optSeg "ref" d.git_ref ++
  optSeg "path" d.path ++
  (if d.editable then [("editable", TomlScalar.bool true)] else []) ++
  optSeg "index" d.index ++
  optSeg "markers" d.markers ++
  optSeg "sys_platform" d.sys_platform

theorem write_detail_fields_eq (d : PipfilePackageDetail) :
    write_detail_fields d = renderFields (detailKvs d) := by
  obtain ⟨v, ex, mk, sp, g, r, p, ed, i⟩ := d
  simp only [write_detail_fields, renderFields, detailKvs, optSeg]
  cases v <;> cases g <;> cases r <;> cases p <;> cases ed <;> cases i <;>
    cases mk <;> cases sp <;> cases hex : ex.isEmpty <;>
    simp [scalarRender, ← String.append_assoc, hex]

theorem detailKvs_wf (name : String) (d : PipfilePackageDetail)
    (h : packageWF (name, .Detailed d) = true) :
    (detailKvs d).all fieldWF = true := by
  obtain ⟨v, ex, mk, sp, g, r, p, ed, i⟩ := d
  simp only [packageWF, Bool.and_eq_true] at h
  obtain ⟨-, ⟨⟨⟨⟨⟨⟨⟨hv, hex⟩, hmk⟩, hsp⟩, hg⟩, hr⟩, hp⟩, hi⟩⟩ := h
  simp only [detailKvs, optSeg, List.all_append, Bool.and_eq_true]
  refine ⟨⟨⟨⟨⟨⟨⟨⟨?_, ?_⟩, ?_⟩, ?_⟩, ?_⟩, ?_⟩, ?_⟩, ?_⟩, ?_⟩
  · cases v with
    | none => rfl
    | some vv =>
      simp only [List.all_cons, List.all_nil, Bool.and_true, fieldWF, scalarWF,
        Bool.and_eq_true]
      exact ⟨by decide, hv⟩
  · by_cases hexe : ex.isEmpty
    · simp [hexe]
    · simp only [if_neg hexe, List.all_cons, List.all_nil, Bool.and_true, fieldWF,
        scalarWF, Bool.and_eq_true]
      exact ⟨by decide, hex⟩
  · cases g with
    | none => rfl
    | some gv =>
      simp only [List.all_cons, List.all_nil, Bool.and_true, fieldWF, scalarWF,
        Bool.and_eq_true]
      exact ⟨by decide, hg⟩
  · cases r with
    | none => rfl
    | some rv =>
      simp only [List.all_cons, List.all_nil, Bool.and_true, fieldWF, scalarWF,
        Bool.and_eq_true]
      exact ⟨by decide, hr⟩
  · cases p with
    | none => rfl
    | some pv =>
      simp only [List.all_cons, List.all_nil, Bool.and_true, fieldWF, scalarWF,
        Bool.and_eq_true]
      exact ⟨by decide, hp⟩
  · cases ed with
    | false => rfl
    | true => simp [fieldWF, scalarWF, bareKey, bareKeyChar]
  · cases i with
    | none => rfl
    | some iv =>
      simp only [List.all_cons, List.all_nil, Bool.and_true, fieldWF, scalarWF,
        Bool.and_eq_true]
      exact ⟨by decide, hi⟩
  · cases mk with
    | none => rfl
    | some mv =>
      simp only [List.all_cons, List.all_nil, Bool.and_true, fieldWF, scalarWF,
        Bool.and_eq_true]
      exact ⟨by decide, hmk⟩
  · cases sp with
    | none => rfl
    | some sv =>
      simp only [List.all_cons, List.all_nil, Bool.and_true, fieldWF, scalarWF,
        Bool.and_eq_true]
      exact ⟨by decide, hsp⟩

/-! ## Line-level tokenization lemmas -/

theorem tokLine_kv_str (k s : String) (hk : bareKey k = true)
    (hs : goodStr s = true) :
    tokLine ((k ++ " = \"" ++ s ++ "\"").data) = .ok [.ident k, .eq, .str s] := by
  have h : tokRun ⟨[], .normal⟩ ((k ++ " = \"" ++ s ++ "\"").data) =
      .ok ⟨[.str s, .eq, .ident k], .normal⟩ := by
    rw [show (k ++ " = \"" ++ s ++ "\"").data =
      k.data ++ ' ' :: ('=' :: ' ' :: ('"' :: (s.data ++ '"' :: []))) from by simp]
    rw [tokRun_key_sp k hk]
    rw [tokRun_cons _ _ _ _ (show tokChar ⟨[.ident k], .normal⟩ '=' =
      .ok ⟨[.eq, .ident k], .normal⟩ from rfl)]
    rw [tokRun_cons _ _ _ _ (show tokChar ⟨[.eq, .ident k], .normal⟩ ' ' =
      .ok ⟨[.eq, .ident k], .normal⟩ from rfl)]
    rw [tokRun_quoted s hs]
    rfl
  have := tokLine_ok _ _ h
  simpa using this

theorem tokLine_kv_script (k s : String) (hk : bareKey k = true)
    (hs : scriptStr s = true) :
    tokLine ((k ++ " = \"" ++ escape_toml_value s ++ "\"").data) =
      .ok [.ident k, .eq, .str s] := by
  have h : tokRun ⟨[], .normal⟩ ((k ++ " = \"" ++ escape_toml_value s ++ "\"").data) =
      .ok ⟨[.str s, .eq, .ident k], .normal⟩ := by
    rw [show (k ++ " = \"" ++ escape_toml_value s ++ "\"").data =
      k.data ++ ' ' :: ('=' :: ' ' :: ('"' ::
        ((escape_toml_value s).data ++ '"' :: []))) from by simp]
    rw [tokRun_key_sp k hk]
    rw [tokRun_cons _ _ _ _ (show tokChar ⟨[.ident k], .normal⟩ '=' =
      .ok ⟨[.eq, .ident k], .normal⟩ from rfl)]
    rw [tokRun_cons _ _ _ _ (show tokChar ⟨[.eq, .ident k], .normal⟩ ' ' =
      .ok ⟨[.eq, .ident k], .normal⟩ from rfl)]
    rw [tokRun_script_quoted s hs]
    rfl
  have := tokLine_ok _ _ h
  simpa using this

theorem tokLine_kv_table (k : String) (hk : bareKey k = true)
    (kvs : List (String × TomlScalar)) (hkvs : kvs.all fieldWF = true) :
    tokLine ((k ++ " = \x7b" ++ renderFields kvs ++ "\x7d").data) =
      .ok (.ident k :: .eq :: .lbrace :: (fieldsToks kvs ++ [.rbrace])) := by
  have h : tokRun ⟨[], .normal⟩ ((k ++ " = \x7b" ++ renderFields kvs ++ "\x7d").data) =
      .ok ⟨.rbrace :: ((fieldsToks kvs).reverse ++ [.lbrace, .eq, .ident k]),
        .normal⟩ := by
    rw [show (k ++ " = \x7b" ++ renderFields kvs ++ "\x7d").data =
      k.data ++ ' ' :: ('=' :: ' ' :: ('\x7b' ::
        ((renderFields kvs).data ++ '\x7d' :: []))) from by simp]
    rw [tokRun_key_sp k hk]
    rw [tokRun_cons _ _ _ _ (show tokChar ⟨[.ident k], .normal⟩ '=' =
      .ok ⟨[.eq, .ident k], .normal⟩ from rfl)]
    rw [tokRun_cons _ _ _ _ (show tokChar ⟨[.eq, .ident k], .normal⟩ ' ' =
      .ok ⟨[.eq, .ident k], .normal⟩ from rfl)]
    rw [tokRun_cons _ _ _ _ (show tokChar ⟨[.eq, .ident k], .normal⟩ '\x7b' =
      .ok ⟨[.lbrace, .eq, .ident k], .normal⟩ from rfl)]
    rw [tokRun_fields kvs hkvs [.lbrace, .eq, .ident k] []]
    rfl
  have := tokLine_ok _ _ h
  simpa using this

/-! ## Parse-side lemmas: token lists of rendered values parse back -/

theorem parseStrArrayToks_render (xs : List String) (acc : List String)
    (rest : List Tok) :
    parseStrArrayToks ((xs.map Tok.str).intersperse .comma ++ .rbrack :: rest) acc =
      .ok (acc.reverse ++ xs, rest) := by
  induction xs generalizing acc with
  | nil => simp [parseStrArrayToks]
  | cons x t ih =>
    cases t with
    | nil => simp [parseStrArrayToks]
    | cons y t2 =>
      rw [show (List.map Tok.str (x :: y :: t2)).intersperse .comma =
        .str x :: .comma :: (List.map Tok.str (y :: t2)).intersperse .comma from by
          simp [List.intersperse]]
      rw [show (Tok.str x :: .comma :: (List.map Tok.str (y :: t2)).intersperse
          .comma) ++ .rbrack :: rest =
        Tok.str x :: .comma :: ((List.map Tok.str (y :: t2)).intersperse .comma ++
          .rbrack :: rest) from by simp]
      rw [show parseStrArrayToks (Tok.str x :: .comma ::
          ((List.map Tok.str (y :: t2)).intersperse .comma ++ .rbrack :: rest)) acc =
        parseStrArrayToks ((List.map Tok.str (y :: t2)).intersperse .comma ++
          .rbrack :: rest) (x :: acc) from rfl]
      rw [ih (x :: acc)]
      simp

theorem parseScalarToks_scalarToks (v : TomlScalar) (rest : List Tok) :
    parseScalarToks (scalarToks v ++ rest) = .ok (v, rest) := by
  cases v with
  | str s => rfl
  | bool b => cases b <;> rfl
  | strs xs =>
    rw [show scalarToks (.strs xs) ++ rest =
      .lbrack :: ((xs.map Tok.str).intersperse .comma ++ .rbrack :: rest) from by
        simp [scalarToks]]
    rw [show parseScalarToks (Tok.lbrack :: ((xs.map Tok.str).intersperse .comma ++
        .rbrack :: rest)) =
      (match parseStrArrayToks ((xs.map Tok.str).intersperse .comma ++
          .rbrack :: rest) [] with
       | .ok p => .ok (.strs p.1, p.2)
       | .error e => .error e) from rfl]
    rw [parseStrArrayToks_render xs [] rest]
    simp

theorem lookup_eq_none_of_not_mem {β : Type} (l : List (String × β)) (k : String)
    (h : k ∉ l.map Prod.fst) : l.lookup k = none := by
  induction l with
  | nil => rfl
  | cons kv t ih =>
    simp only [List.map_cons, List.mem_cons, not_or] at h
    rw [show (kv :: t).lookup k = (match k == kv.1 with
      | true => some kv.2
      | false => t.lookup k) from by cases kv; rfl]
    rw [show (k == kv.1) = false from by simp [h.1]]
    exact ih h.2

theorem assocHas_false_of_not_mem {β : Type} (l : List (String × β)) (k : String)
    (h : k ∉ l.map Prod.fst) : assocHas l k = false := by
  simp [assocHas, lookup_eq_none_of_not_mem l k h]

theorem fieldsToks_length (kvs : List (String × TomlScalar)) :
    kvs.length ≤ (fieldsToks kvs).length := by
  induction kvs with
  | nil => simp [fieldsToks]
  | cons kv t ih =>
    cases t with
    | nil => simp [fieldsToks]
    | cons kv2 t2 =>
      rw [show fieldsToks (kv :: kv2 :: t2) =
        .ident kv.1 :: .eq :: (scalarToks kv.2 ++ .comma ::
          fieldsToks (kv2 :: t2)) from rfl]
      simp only [List.length_cons, List.length_append] at ih ⊢
      omega

theorem parseTableEntriesF_fields (kvs : List (String × TomlScalar))
    (acc : List (String × TomlScalar)) (fuel : Nat) (rest : List Tok)
    (hne : kvs ≠ [])
    (hfuel : kvs.length ≤ fuel)
    (hnd : ((acc ++ kvs).map Prod.fst).Nodup) :
    parseTableEntriesF fuel (fieldsToks kvs ++ .rbrace :: rest) acc =
      .ok (acc ++ kvs, rest) := by
  induction kvs generalizing acc fuel with
  | nil => exact absurd rfl hne
  | cons kv t ih =>
    obtain ⟨fuel, rfl⟩ : ∃ f, fuel = f + 1 := by
      cases fuel with
      | zero => simp at hfuel
      | succ f => exact ⟨f, rfl⟩
    have hacc : assocHas acc kv.1 = false := by
      apply assocHas_false_of_not_mem
      intro hmem
      have := (List.nodup_append.mp (by simpa using hnd)).2.2
      exact this hmem (by simp)
    cases t with
    | nil =>
      rw [show fieldsToks [kv] ++ .rbrace :: rest =
        .ident kv.1 :: .eq :: (scalarToks kv.2 ++ .rbrace :: rest) from by
          simp [fieldsToks]]
      simp only [parseTableEntriesF, keyOfTok, hacc, Bool.false_eq_true, if_false,
        parseScalarToks_scalarToks kv.2 (.rbrace :: rest)]
    | cons kv2 t2 =>
      rw [show fieldsToks (kv :: kv2 :: t2) ++ .rbrace :: rest =
        .ident kv.1 :: .eq :: (scalarToks kv.2 ++ .comma ::
          (fieldsToks (kv2 :: t2) ++ .rbrace :: rest)) from by
            rw [show fieldsToks (kv :: kv2 :: t2) =
              .ident kv.1 :: .eq :: (scalarToks kv.2 ++ .comma ::
                fieldsToks (kv2 :: t2)) from rfl]
            simp]
      simp only [parseTableEntriesF, keyOfTok, hacc, Bool.false_eq_true, if_false,
        parseScalarToks_scalarToks kv.2 (.comma :: (fieldsToks (kv2 :: t2) ++
          .rbrace :: rest))]
      rw [ih (acc ++ [kv]) fuel (by simp) (by simpa using hfuel) (by simpa using hnd)]
      simp

theorem parseTableToks_fields (kvs : List (String × TomlScalar))
    (hnd : (kvs.map Prod.fst).Nodup) :
    parseTableToks (fieldsToks kvs ++ [.rbrace]) = .ok (kvs, []) := by
  cases kvs with
  | nil => rfl
  | cons kv t =>
    obtain ⟨tl, htl⟩ : ∃ tl, fieldsToks (kv :: t) = Tok.ident kv.1 :: tl := by
      cases t <;> exact ⟨_, rfl⟩
    rw [show parseTableToks (fieldsToks (kv :: t) ++ [Tok.rbrace]) =
      parseTableEntriesF (fieldsToks (kv :: t) ++ [Tok.rbrace]).length
        (fieldsToks (kv :: t) ++ [Tok.rbrace]) [] from by rw [htl]; rfl]
    rw [show fieldsToks (kv :: t) ++ [Tok.rbrace] =
      fieldsToks (kv :: t) ++ Tok.rbrace :: [] from rfl]
    exact parseTableEntriesF_fields (kv :: t) [] _ [] (by simp)
      (Nat.le_trans (fieldsToks_length _) (by simp)) (by simpa using hnd)

/-! ## Order facts about the key comparison -/

theorem strLtChars_irrefl (a : List Char) : strLtChars a a = false := by
  induction a with
  | nil => rfl
  | cons c t ih => simp [strLtChars, ih]

theorem strLtChars_asymm (a b : List Char) (h : strLtChars a b = true) :
    strLtChars b a = false := by
  induction a generalizing b with
  | nil =>
    cases b with
    | nil => exact absurd h (by simp [strLtChars])
    | cons c t => rfl
  | cons c t ih =>
    cases b with
    | nil => exact absurd h (by simp [strLtChars])
    | cons c2 t2 =>
      simp only [strLtChars] at h ⊢
      by_cases h1 : c.toNat < c2.toNat
      · rw [if_neg (by omega), if_pos h1]
      · by_cases h2 : c2.toNat < c.toNat
        · rw [if_neg h1, if_pos h2] at h
          exact absurd h (by simp)
        · rw [if_neg h1, if_neg h2] at h
          rw [if_neg h2, if_neg h1]
          exact ih t2 h

theorem strLtChars_trans (a b c : List Char) (h1 : strLtChars a b = true)
    (h2 : strLtChars b c = true) : strLtChars a c = true := by
  induction a generalizing b c with
  | nil =>
    cases c with
    | nil =>
      cases b with
      | nil => exact absurd h2 (by simp [strLtChars])
      | cons x y => exact absurd h2 (by simp [strLtChars])
    | cons c0 ct => simp [strLtChars]
  | cons a0 at2 ih =>
    cases b with
    | nil => exact absurd h1 (by simp [strLtChars])
    | cons b0 bt =>
      cases c with
      | nil => exact absurd h2 (by simp [strLtChars])
      | cons c0 ct =>
        simp only [strLtChars] at h1 h2 ⊢
        by_cases hba : b0.toNat < a0.toNat
        · rw [if_neg (by omega), if_pos hba] at h1
          exact absurd h1 (by simp)
        by_cases hcb : c0.toNat < b0.toNat
        · rw [if_neg (by omega), if_pos hcb] at h2
          exact absurd h2 (by simp)
        by_cases hab : a0.toNat < b0.toNat
        · rw [if_pos (by omega)]
        · by_cases hbc : b0.toNat < c0.toNat
          · rw [if_pos (by omega)]
          · rw [if_neg hab, if_neg hba] at h1
            rw [if_neg hbc, if_neg hcb] at h2
            rw [if_neg (by omega), if_neg (by omega)]
            exact ih bt ct h1 h2

theorem strLt_irrefl (k : String) : strLt k k = false := strLtChars_irrefl k.data

theorem strLt_asymm (a b : String) (h : strLt a b = true) : strLt b a = false :=
  strLtChars_asymm a.data b.data h

theorem strLt_trans (a b c : String) (h1 : strLt a b = true)
    (h2 : strLt b c = true) : strLt a c = true :=
  strLtChars_trans a.data b.data c.data h1 h2

theorem strLt_ne (a b : String) (h : strLt a b = true) : a ≠ b := by
  intro he
  subst he
  rw [strLt_irrefl] at h
  exact absurd h (by simp)

theorem sortedKeys_tail {α : Type} (kv : String × α) (t : SMap α)
    (h : SMap.sortedKeys (kv :: t) = true) : SMap.sortedKeys t = true := by
  cases t with
  | nil => rfl
  | cons kv2 t2 =>
    simp only [SMap.sortedKeys, Bool.and_eq_true] at h
    exact h.2

theorem sortedKeys_head_lt {α : Type} (kv : String × α) (t : SMap α)
    (h : SMap.sortedKeys (kv :: t) = true) :
    ∀ kv' ∈ t, strLt kv.1 kv'.1 = true := by
  induction t generalizing kv with
  | nil => intro kv' h'; simp at h'
  | cons kv2 t2 ih =>
    intro kv' h'
    have h1 : strLt kv.1 kv2.1 = true ∧ SMap.sortedKeys (kv2 :: t2) = true := by
      simpa [SMap.sortedKeys] using h
    rcases List.mem_cons.mp h' with rfl | hmem
    · exact h1.1
    · exact strLt_trans _ _ _ h1.1 (ih kv2 h1.2 kv' hmem)

theorem SMap.insert_append_last {α : Type} (k : String) (v : α) (m : SMap α)
    (h : ∀ kv ∈ m, strLt kv.1 k = true) : SMap.insert k v m = m ++ [(k, v)] := by
  induction m with
  | nil => rfl
  | cons kv t ih =>
    have hk : strLt kv.1 k = true := h kv (by simp)
    rw [show SMap.insert k v (kv :: t) =
      (if strLt k kv.1 then (k, v) :: kv :: t
       else if k = kv.1 then (k, v) :: t
       else kv :: SMap.insert k v t) from by cases kv; rfl]
    rw [if_neg (by simp [strLt_asymm _ _ hk])]
    rw [if_neg (by
      intro he
      subst he
      rw [strLt_irrefl] at hk
      exact absurd hk (by simp))]
    rw [ih (fun kv' h' => h kv' (List.mem_cons_of_mem _ h'))]
    simp

theorem assocHas_append {β : Type} (a b : List (String × β)) (k : String) :
    assocHas (a ++ b) k = (assocHas a k || assocHas b k) := by
  induction a with
  | nil => simp [assocHas]
  | cons kv t ih =>
    simp only [assocHas, List.cons_append] at ih ⊢
    rw [show List.lookup k (kv :: (t ++ b)) = (match k == kv.1 with
      | true => some kv.2
      | false => (t ++ b).lookup k) from by cases kv; rfl]
    rw [show List.lookup k (kv :: t) = (match k == kv.1 with
      | true => some kv.2
      | false => t.lookup k) from by cases kv; rfl]
    cases hkk : k == kv.1 with
    | true => simp
    | false => simpa using ih

theorem updLast_snoc (k : String) (v : TomlValue)
    (elems : List (List (String × TomlValue))) (e : List (String × TomlValue))
    (he : assocHas e k = false) :
    updLast k v (elems ++ [e]) = .ok (elems ++ [e ++ [(k, v)]]) := by
  induction elems with
  | nil =>
    simp only [List.nil_append, updLast, kvsInsert, he, Bool.false_eq_true,
      if_false]
  | cons e0 t ih =>
    have hsh : ∃ x xs, t ++ [e] = x :: xs := by
      cases t with
      | nil => exact ⟨e, [], rfl⟩
      | cons a b => exact ⟨a, b ++ [e], rfl⟩
    obtain ⟨x, xs, hx⟩ := hsh
    rw [show (e0 :: t) ++ [e] = e0 :: (t ++ [e]) from rfl, hx]
    rw [show updLast k v (e0 :: x :: xs) = (match updLast k v (x :: xs) with
      | .error err => .error err
      | .ok rest2 => .ok (e0 :: rest2)) from rfl]
    rw [← hx, ih]
    simp

theorem updTable_last (name k : String) (v : TomlValue)
    (pre : List (String × List (String × TomlValue)))
    (acc : List (String × TomlValue))
    (hpre : ∀ e ∈ pre, e.1 ≠ name)
    (hk : assocHas acc k = false) :
    updTable name k v (pre ++ [(name, acc)]) =
      .ok (pre ++ [(name, acc ++ [(k, v)])]) := by
  induction pre with
  | nil =>
    simp only [List.nil_append, updTable, if_pos rfl, kvsInsert, hk,
      Bool.false_eq_true, if_false]
    simp
  | cons e t ih =>
    rw [show (e :: t) ++ [(name, acc)] = e :: (t ++ [(name, acc)]) from rfl]
    rw [show updTable name k v (e :: (t ++ [(name, acc)])) =
      (if e.1 = name then
        match kvsInsert k v e.2 with
        | .error err => .error err
        | .ok kvs2 => .ok ((e.1, kvs2) :: (t ++ [(name, acc)]))
       else
        match updTable name k v (t ++ [(name, acc)]) with
        | .error err => .error err
        | .ok rest2 => .ok ((e.1, e.2) :: rest2)) from by cases e; rfl]
    rw [if_neg (hpre e (by simp))]
    rw [ih (fun e' h' => hpre e' (List.mem_cons_of_mem _ h'))]
    simp

theorem updArrays_single (name k : String) (v : TomlValue)
    (elems : List (List (String × TomlValue))) (elems2 : _)
    (h : updLast k v elems = .ok elems2) :
    updArrays name k v [(name, elems)] = .ok [(name, elems2)] := by
  simp only [updArrays, if_pos rfl, h]
  simp

/-! ## Round-trip of one package binding through the deserializer -/

theorem detailKvs_keys_sublist (d : PipfilePackageDetail) :
    ((detailKvs d).map Prod.fst).Sublist
      ["version", "extras", "git", "ref", "path", "editable", "index",
       "markers", "sys_platform"] := by
  obtain ⟨v, ex, mk, sp, g, r, p, ed, i⟩ := d
  rw [show (["version", "extras", "git", "ref", "path", "editable", "index",
      "markers", "sys_platform"] : List String) =
    ["version"] ++ (["extras"] ++ (["git"] ++ (["ref"] ++ (["path"] ++
      (["editable"] ++ (["index"] ++ (["markers"] ++
        ["sys_platform"]))))))) from rfl]
  simp only [detailKvs, optSeg, List.map_append, List.append_assoc]
  refine List.Sublist.append ?_ (List.Sublist.append ?_ (List.Sublist.append ?_
    (List.Sublist.append ?_ (List.Sublist.append ?_ (List.Sublist.append ?_
      (List.Sublist.append ?_ (List.Sublist.append ?_ ?_)))))))
  · cases v <;> simp
  · by_cases hex : ex.isEmpty <;> simp [hex]
  · cases g <;> simp
  · cases r <;> simp
  · cases p <;> simp
  · cases ed <;> simp
  · cases i <;> simp
  · cases mk <;> simp
  · cases sp <;> simp

theorem detailKvs_keys_nodup (d : PipfilePackageDetail) :
    ((detailKvs d).map Prod.fst).Nodup :=
  (detailKvs_keys_sublist d).nodup (by decide)

theorem lookup_optSeg_same (name : String) (o : Option String) :
    List.lookup name (optSeg name o) = o.map TomlScalar.str := by
  cases o with
  | none => rfl
  | some x =>
    rw [show List.lookup name (optSeg name (some x)) =
      (match name == name with
       | true => some (TomlScalar.str x)
       | false => List.lookup name ([] : List (String × TomlScalar))) from rfl]
    rw [beq_self_eq_true]
    rfl

theorem lookup_optSeg_other (name k : String) (o : Option String)
    (h : (k == name) = false) : List.lookup k (optSeg name o) = none := by
  cases o with
  | none => rfl
  | some x =>
    rw [show List.lookup k (optSeg name (some x)) =
      (match k == name with
       | true => some (TomlScalar.str x)
       | false => List.lookup k ([] : List (String × TomlScalar))) from rfl]
    rw [h]
    rfl

theorem lookup_exseg_same (ex : List String) :
    List.lookup "extras"
      (if ex.isEmpty then [] else [("extras", TomlScalar.strs ex)]) =
    (if ex.isEmpty then none else some (TomlScalar.strs ex)) := by
  by_cases hex : ex.isEmpty
  · rw [if_pos hex, if_pos hex]
    rfl
  · rw [if_neg hex, if_neg hex]
    rw [show List.lookup "extras" [("extras", TomlScalar.strs ex)] =
      (match "extras" == "extras" with
       | true => some (TomlScalar.strs ex)
       | false => List.lookup "extras" ([] : List (String × TomlScalar)))
      from rfl]
    rw [beq_self_eq_true]

theorem lookup_exseg_other (ex : List String) (k : String)
    (h : (k == "extras") = false) :
    List.lookup k (if ex.isEmpty then [] else [("extras", TomlScalar.strs ex)]) =
      none := by
  by_cases hex : ex.isEmpty
  · rw [if_pos hex]
    rfl
  · rw [if_neg hex]
    rw [show List.lookup k [("extras", TomlScalar.strs ex)] =
      (match k == "extras" with
       | true => some (TomlScalar.strs ex)
       | false => List.lookup k ([] : List (String × TomlScalar))) from rfl]
    rw [h]
    rfl

theorem lookup_edseg_same (ed : Bool) :
    List.lookup "editable"
      (if ed then [("editable", TomlScalar.bool true)] else []) =
    (if ed then some (TomlScalar.bool true) else none) := by
  cases ed <;> rfl

theorem lookup_edseg_other (ed : Bool) (k : String)
    (h : (k == "editable") = false) :
    List.lookup k (if ed then [("editable", TomlScalar.bool true)] else []) =
      none := by
  cases ed with
  | false => rfl
  | true =>
    rw [if_pos rfl]
    rw [show List.lookup k [("editable", TomlScalar.bool true)] =
      (match k == "editable" with
       | true => some (TomlScalar.bool true)
       | false => List.lookup k ([] : List (String × TomlScalar))) from rfl]
    rw [h]
    rfl

theorem lookup_append_or {β : Type} (a b : List (String × β)) (k : String) :
    List.lookup k (a ++ b) =
      (match List.lookup k a with
       | some v => some v
       | none => List.lookup k b) := by
  induction a with
  | nil => rfl
  | cons kv t ih =>
    rw [show List.lookup k ((kv :: t) ++ b) =
      (match k == kv.1 with
       | true => some kv.2
       | false => List.lookup k (t ++ b)) from by cases kv; rfl]
    rw [show List.lookup k (kv :: t) =
      (match k == kv.1 with
       | true => some kv.2
       | false => List.lookup k t) from by cases kv; rfl]
    cases hkk : k == kv.1 with
    | true => rfl
    | false => simpa using ih

theorem detailKvs_lookup_version (d : PipfilePackageDetail) :
    List.lookup "version" (detailKvs d) = (d.version).map TomlScalar.str := by
  obtain ⟨v, ex, mk, sp, g, r, p, ed, i⟩ := d
  simp only [detailKvs, List.append_assoc, lookup_append_or]
  rw [lookup_optSeg_same "version" v]
  rw [lookup_exseg_other ex "version" (by decide)]
  rw [lookup_optSeg_other "git" "version" g (by decide)]
  rw [lookup_optSeg_other "ref" "version" r (by decide)]
  rw [lookup_optSeg_other "path" "version" p (by decide)]
  rw [lookup_edseg_other ed "version" (by decide)]
  rw [lookup_optSeg_other "index" "version" i (by decide)]
  rw [lookup_optSeg_other "markers" "version" mk (by decide)]
  rw [lookup_optSeg_other "sys_platform" "version" sp (by decide)]
  all_goals cases v <;> simp

theorem detailKvs_lookup_extras (d : PipfilePackageDetail) :
    List.lookup "extras" (detailKvs d) = (if d.extras.isEmpty then none else some (TomlScalar.strs d.extras)) := by
  obtain ⟨v, ex, mk, sp, g, r, p, ed, i⟩ := d
  simp only [detailKvs, List.append_assoc, lookup_append_or]
  rw [lookup_optSeg_other "version" "extras" v (by decide)]
  rw [lookup_exseg_same ex]
  rw [lookup_optSeg_other "git" "extras" g (by decide)]
  rw [lookup_optSeg_other "ref" "extras" r (by decide)]
  rw [lookup_optSeg_other "path" "extras" p (by decide)]
  rw [lookup_edseg_other ed "extras" (by decide)]
  rw [lookup_optSeg_other "index" "extras" i (by decide)]
  rw [lookup_optSeg_other "markers" "extras" mk (by decide)]
  rw [lookup_optSeg_other "sys_platform" "extras" sp (by decide)]
  all_goals by_cases hex : ex.isEmpty <;> simp [hex]

theorem detailKvs_lookup_git (d : PipfilePackageDetail) :
    List.lookup "git" (detailKvs d) = (d.git).map TomlScalar.str := by
  obtain ⟨v, ex, mk, sp, g, r, p, ed, i⟩ := d
  simp only [detailKvs, List.append_assoc, lookup_append_or]
  rw [lookup_optSeg_other "version" "git" v (by decide)]
  rw [lookup_exseg_other ex "git" (by decide)]
  rw [lookup_optSeg_same "git" g]
  rw [lookup_optSeg_other "ref" "git" r (by decide)]
  rw [lookup_optSeg_other "path" "git" p (by decide)]
  rw [lookup_edseg_other ed "git" (by decide)]
  rw [lookup_optSeg_other "index" "git" i (by decide)]
  rw [lookup_optSeg_other "markers" "git" mk (by decide)]
  rw [lookup_optSeg_other "sys_platform" "git" sp (by decide)]
  all_goals cases g <;> simp

theorem detailKvs_lookup_ref (d : PipfilePackageDetail) :
    List.lookup "ref" (detailKvs d) = (d.git_ref).map TomlScalar.str := by
  obtain ⟨v, ex, mk, sp, g, r, p, ed, i⟩ := d
  simp only [detailKvs, List.append_assoc, lookup_append_or]
  rw [lookup_optSeg_other "version" "ref" v (by decide)]
  rw [lookup_exseg_other ex "ref" (by decide)]
  rw [lookup_optSeg_other "git" "ref" g (by decide)]
  rw [lookup_optSeg_same "ref" r]
  rw [lookup_optSeg_other "path" "ref" p (by decide)]
  rw [lookup_edseg_other ed "ref" (by decide)]
  rw [lookup_optSeg_other "index" "ref" i (by decide)]
  rw [lookup_optSeg_other "markers" "ref" mk (by decide)]
  rw [lookup_optSeg_other "sys_platform" "ref" sp (by decide)]
  all_goals cases r <;> simp

theorem detailKvs_lookup_path (d : PipfilePackageDetail) :
    List.lookup "path" (detailKvs d) = (d.path).map TomlScalar.str := by
  obtain ⟨v, ex, mk, sp, g, r, p, ed, i⟩ := d
  simp only [detailKvs, List.append_assoc, lookup_append_or]
  rw [lookup_optSeg_other "version" "path" v (by decide)]
  rw [lookup_exseg_other ex "path" (by decide)]
  rw [lookup_optSeg_other "git" "path" g (by decide)]
  rw [lookup_optSeg_other "ref" "path" r (by decide)]
  rw [lookup_optSeg_same "path" p]
  rw [lookup_edseg_other ed "path" (by decide)]
  rw [lookup_optSeg_other "index" "path" i (by decide)]
  rw [lookup_optSeg_other "markers" "path" mk (by decide)]
  rw [lookup_optSeg_other "sys_platform" "path" sp (by decide)]
  all_goals cases p <;> simp

theorem detailKvs_lookup_editable (d : PipfilePackageDetail) :
    List.lookup "editable" (detailKvs d) = (if d.editable then some (TomlScalar.bool true) else none) := by
  obtain ⟨v, ex, mk, sp, g, r, p, ed, i⟩ := d
  simp only [detailKvs, List.append_assoc, lookup_append_or]
  rw [lookup_optSeg_other "version" "editable" v (by decide)]
  rw [lookup_exseg_other ex "editable" (by decide)]
  rw [lookup_optSeg_other "git" "editable" g (by decide)]
  rw [lookup_optSeg_other "ref" "editable" r (by decide)]
  rw [lookup_optSeg_other "path" "editable" p (by decide)]
  rw [lookup_edseg_same ed]
  rw [lookup_optSeg_other "index" "editable" i (by decide)]
  rw [lookup_optSeg_other "markers" "editable" mk (by decide)]
  rw [lookup_optSeg_other "sys_platform" "editable" sp (by decide)]
  all_goals cases ed <;> simp

theorem detailKvs_lookup_index (d : PipfilePackageDetail) :
    List.lookup "index" (detailKvs d) = (d.index).map TomlScalar.str := by
  obtain ⟨v, ex, mk, sp, g, r, p, ed, i⟩ := d
  simp only [detailKvs, List.append_assoc, lookup_append_or]
  rw [lookup_optSeg_other "version" "index" v (by decide)]
  rw [lookup_exseg_other ex "index" (by decide)]
  rw [lookup_optSeg_other "git" "index" g (by decide)]
  rw [lookup_optSeg_other "ref" "index" r (by decide)]
  rw [lookup_optSeg_other "path" "index" p (by decide)]
  rw [lookup_edseg_other ed "index" (by decide)]
  rw [lookup_optSeg_same "index" i]
  rw [lookup_optSeg_other "markers" "index" mk (by decide)]
  rw [lookup_optSeg_other "sys_platform" "index" sp (by decide)]
  all_goals cases i <;> simp

theorem detailKvs_lookup_markers (d : PipfilePackageDetail) :
    List.lookup "markers" (detailKvs d) = (d.markers).map TomlScalar.str := by
  obtain ⟨v, ex, mk, sp, g, r, p, ed, i⟩ := d
  simp only [detailKvs, List.append_assoc, lookup_append_or]
  rw [lookup_optSeg_other "version" "markers" v (by decide)]
  rw [lookup_exseg_other ex "markers" (by decide)]
  rw [lookup_optSeg_other "git" "markers" g (by decide)]
  rw [lookup_optSeg_other "ref" "markers" r (by decide)]
  rw [lookup_optSeg_other "path" "markers" p (by decide)]
  rw [lookup_edseg_other ed "markers" (by decide)]
  rw [lookup_optSeg_other "index" "markers" i (by decide)]
  rw [lookup_optSeg_same "markers" mk]
  rw [lookup_optSeg_other "sys_platform" "markers" sp (by decide)]
  all_goals cases mk <;> simp

theorem detailKvs_lookup_sys_platform (d : PipfilePackageDetail) :
    List.lookup "sys_platform" (detailKvs d) = (d.sys_platform).map TomlScalar.str := by
  obtain ⟨v, ex, mk, sp, g, r, p, ed, i⟩ := d
  simp only [detailKvs, List.append_assoc, lookup_append_or]
  rw [lookup_optSeg_other "version" "sys_platform" v (by decide)]
  rw [lookup_exseg_other ex "sys_platform" (by decide)]
  rw [lookup_optSeg_other "git" "sys_platform" g (by decide)]
  rw [lookup_optSeg_other "ref" "sys_platform" r (by decide)]
  rw [lookup_optSeg_other "path" "sys_platform" p (by decide)]
  rw [lookup_edseg_other ed "sys_platform" (by decide)]
  rw [lookup_optSeg_other "index" "sys_platform" i (by decide)]
  rw [lookup_optSeg_other "markers" "sys_platform" mk (by decide)]
  rw [lookup_optSeg_same "sys_platform" sp]
  all_goals cases sp <;> simp

theorem parseDetail_detailKvs (d : PipfilePackageDetail) :
    parseDetail (detailKvs d) = .ok d := by
  obtain ⟨v, ex, mk, sp, g, r, p, ed, i⟩ := d
  simp only [parseDetail, getOptStr, getStrs, getBoolD, detailKvs_lookup_version,
    detailKvs_lookup_extras, detailKvs_lookup_markers,
    detailKvs_lookup_sys_platform, detailKvs_lookup_git, detailKvs_lookup_ref,
    detailKvs_lookup_path, detailKvs_lookup_editable, detailKvs_lookup_index]
  by_cases hex : ex.isEmpty
  · have hex2 : ex = [] := by simpa [List.isEmpty_iff] using hex
    subst hex2
    rcases v <;> rcases mk <;> rcases sp <;> rcases g <;> rcases r <;>
      rcases p <;> rcases ed <;> rcases i <;> rfl
  · rw [if_neg hex]
    rcases v <;> rcases mk <;> rcases sp <;> rcases g <;> rcases r <;>
      rcases p <;> rcases ed <;> rcases i <;> rfl

/-- The raw TOML binding a package map entry renders to. -/
def pkgKv (kv : String × PipfilePackage) : String × TomlValue :=
  (kv.1, match kv.2 with
    | .Simple v => .scalar (.str v)
    | .Detailed d => .table (detailKvs d))

/-- The raw TOML binding a script map entry renders to. -/
def scriptKv (kv : String × String) : String × TomlValue :=
  (kv.1, .scalar (.str kv.2))

theorem parsePackage_pkgKv (kv : String × PipfilePackage) :
    parsePackage (pkgKv kv).2 = .ok kv.2 := by
  obtain ⟨k, pk⟩ := kv
  cases pk with
  | Simple v => rfl
  | Detailed d =>
    simp only [pkgKv, parsePackage, parseDetail_detailKvs]

theorem parsePackages_go (m : SMap PipfilePackage) (acc : SMap PipfilePackage)
    (hs : SMap.sortedKeys m = true)
    (hacc : ∀ kv ∈ acc, ∀ kv2 ∈ m, strLt kv.1 kv2.1 = true) :
    List.foldlM (fun m2 kv =>
      (match parsePackage kv.2 with
       | .error e => .error e
       | .ok p => .ok (SMap.insert kv.1 p m2) :
        Except String (SMap PipfilePackage))) acc (m.map pkgKv) =
      .ok (acc ++ m) := by
  induction m generalizing acc with
  | nil => simp; rfl
  | cons kv t ih =>
    simp only [List.map_cons, List.foldlM_cons, parsePackage_pkgKv]
    rw [show (pkgKv kv).1 = kv.1 from rfl]
    rw [SMap.insert_append_last kv.1 kv.2 acc
      (fun kv2 h2 => hacc kv2 h2 kv (by simp))]
    rw [show ((Except.ok (acc ++ [(kv.1, kv.2)]) : Except String _) >>=
        fun m2 => List.foldlM (fun m2 kv =>
          (match parsePackage kv.2 with
           | .error e => .error e
           | .ok p => .ok (SMap.insert kv.1 p m2) :
            Except String (SMap PipfilePackage))) m2 (t.map pkgKv)) =
      List.foldlM (fun m2 kv =>
        (match parsePackage kv.2 with
         | .error e => .error e
         | .ok p => .ok (SMap.insert kv.1 p m2) :
          Except String (SMap PipfilePackage))) (acc ++ [(kv.1, kv.2)])
        (t.map pkgKv) from rfl]
    rw [ih (acc ++ [(kv.1, kv.2)]) (sortedKeys_tail kv t hs)]
    · simp
    · intro kv2 h2 kv3 h3
      rcases List.mem_append.mp h2 with h2 | h2
      · exact hacc kv2 h2 kv3 (List.mem_cons_of_mem _ h3)
      · have : kv2 = (kv.1, kv.2) := by simpa using h2
        subst this
        exact sortedKeys_head_lt kv t hs kv3 h3

theorem parsePackages_map (m : SMap PipfilePackage)
    (hs : SMap.sortedKeys m = true) :
    parsePackages (m.map pkgKv) = .ok m := by
  have := parsePackages_go m [] hs (by intro kv h; simp at h)
  simpa [parsePackages] using this

theorem parseScripts_go (m : SMap String) (acc : SMap String)
    (hs : SMap.sortedKeys m = true)
    (hacc : ∀ kv ∈ acc, ∀ kv2 ∈ m, strLt kv.1 kv2.1 = true) :
    List.foldlM (fun m2 kv =>
      (match kv.2 with
       | .scalar (.str s) => .ok (SMap.insert kv.1 s m2)
       | _ => .error "script must be a string" :
        Except String (SMap String))) acc (m.map scriptKv) =
      .ok (acc ++ m) := by
  induction m generalizing acc with
  | nil => simp; rfl
  | cons kv t ih =>
    simp only [List.map_cons, List.foldlM_cons]
    rw [show (match (scriptKv kv).2 with
      | .scalar (.str s) => Except.ok (SMap.insert (scriptKv kv).1 s acc)
      | _ => (.error "script must be a string" : Except String (SMap String))) =
      Except.ok (SMap.insert kv.1 kv.2 acc) from by cases kv; rfl]
    rw [SMap.insert_append_last kv.1 kv.2 acc
      (fun kv2 h2 => hacc kv2 h2 kv (by simp))]
    rw [show ((Except.ok (acc ++ [(kv.1, kv.2)]) : Except String _) >>=
        fun m2 => List.foldlM (fun m2 kv =>
          (match kv.2 with
           | .scalar (.str s) => .ok (SMap.insert kv.1 s m2)
           | _ => .error "script must be a string" :
            Except String (SMap String))) m2 (t.map scriptKv)) =
      List.foldlM (fun m2 kv =>
        (match kv.2 with
         | .scalar (.str s) => .ok (SMap.insert kv.1 s m2)
         | _ => .error "script must be a string" :
          Except String (SMap String))) (acc ++ [(kv.1, kv.2)])
        (t.map scriptKv) from rfl]
    rw [ih (acc ++ [(kv.1, kv.2)]) (sortedKeys_tail kv t hs)]
    · simp
    · intro kv2 h2 kv3 h3
      rcases List.mem_append.mp h2 with h2 | h2
      · exact hacc kv2 h2 kv3 (List.mem_cons_of_mem _ h3)
      · have : kv2 = (kv.1, kv.2) := by simpa using h2
        subst this
        exact sortedKeys_head_lt kv t hs kv3 h3

theorem parseScripts_map (m : SMap String) (hs : SMap.sortedKeys m = true) :
    parseScripts (m.map scriptKv) = .ok m := by
  have := parseScripts_go m [] hs (by intro kv h; simp at h)
  simpa [parseScripts] using this

/-! ## Whole-line parse lemmas -/

theorem parseLineToks_kv_str (k s : String) :
    parseLineToks [.ident k, .eq, .str s] = .ok (.kv k (.scalar (.str s))) := rfl

theorem parseLineToks_kv_table (k : String) (kvs : List (String × TomlScalar))
    (hnd : (kvs.map Prod.fst).Nodup) :
    parseLineToks (.ident k :: .eq :: .lbrace :: (fieldsToks kvs ++ [.rbrace])) =
      .ok (.kv k (.table kvs)) := by
  rw [show parseLineToks (.ident k :: .eq :: .lbrace ::
      (fieldsToks kvs ++ [.rbrace])) =
    (match parseTableToks (fieldsToks kvs ++ [.rbrace]) with
     | .error e => .error e
     | .ok (kvs2, rest3) =>
       if rest3.isEmpty then .ok (.kv k (.table kvs2))
       else .error "trailing tokens") from rfl]
  rw [parseTableToks_fields kvs hnd]
  rfl

theorem parseLine_kv_str (k s : String) (hk : bareKey k = true)
    (hs : goodStr s = true) :
    parseLine ((k ++ " = \"" ++ s ++ "\"").data) =
      .ok (.kv k (.scalar (.str s))) := by
  unfold parseLine
  rw [tokLine_kv_str k s hk hs]
  rfl

theorem parseLine_kv_script (k s : String) (hk : bareKey k = true)
    (hs : scriptStr s = true) :
    parseLine ((k ++ " = \"" ++ escape_toml_value s ++ "\"").data) =
      .ok (.kv k (.scalar (.str s))) := by
  unfold parseLine
  rw [tokLine_kv_script k s hk hs]
  rfl

theorem parseLine_kv_table (k : String) (hk : bareKey k = true)
    (kvs : List (String × TomlScalar)) (hkvs : kvs.all fieldWF = true)
    (hnd : (kvs.map Prod.fst).Nodup) :
    parseLine ((k ++ " = \x7b" ++ renderFields kvs ++ "\x7d").data) =
      .ok (.kv k (.table kvs)) := by
  unfold parseLine
  rw [tokLine_kv_table k hk kvs hkvs]
  exact parseLineToks_kv_table k kvs hnd

/-! ## Newline-freedom of rendered line bodies -/

/-- The string contains no newline, so it survives line splitting intact. -/
def noNL (s : String) : Bool := s.data.all (fun c => c != '\n')

theorem noNL_append (a b : String) : noNL (a ++ b) = (noNL a && noNL b) := by
  simp [noNL, List.all_append]

theorem noNL_of_all {p : Char → Bool}
    (hp : ∀ c, p c = true → (c != '\n') = true) (s : String)
    (h : s.data.all p = true) : noNL s = true := by
  simp only [noNL, List.all_eq_true] at h ⊢
  exact fun c hc => hp c (h c hc)

theorem bareKeyChar_ne_nl (c : Char) (h : bareKeyChar c = true) :
    (c != '\n') = true := by
  by_contra hc
  simp only [bne_eq_false_iff_eq, Bool.not_eq_true] at hc
  rw [show c = '\n' from by simpa using hc] at h
  exact absurd h (by decide)

theorem goodStrChar_ne_nl (c : Char) (h : goodStrChar c = true) :
    (c != '\n') = true := by
  by_contra hc
  simp only [bne_eq_false_iff_eq, Bool.not_eq_true] at hc
  rw [show c = '\n' from by simpa using hc] at h
  exact absurd h (by decide)

theorem scriptChar_ne_nl (c : Char) (h : scriptChar c = true) :
    (c != '\n') = true := by
  by_contra hc
  simp only [bne_eq_false_iff_eq, Bool.not_eq_true] at hc
  rw [show c = '\n' from by simpa using hc] at h
  exact absurd h (by decide)

theorem noNL_bareKey (k : String) (h : bareKey k = true) : noNL k = true :=
  noNL_of_all bareKeyChar_ne_nl k (by
    simp only [bareKey, Bool.and_eq_true] at h
    exact h.2)

theorem noNL_goodStr (s : String) (h : goodStr s = true) : noNL s = true :=
  noNL_of_all goodStrChar_ne_nl s h

theorem noNL_escape (s : String) (hs : scriptStr s = true) :
    noNL (escape_toml_value s) = true := by
  simp only [noNL, escape_toml_value, List.all_eq_true]
  intro c hc
  simp only [List.mem_flatten, List.mem_map] at hc
  obtain ⟨l, ⟨c0, hc0, rfl⟩, hcl⟩ := hc
  have hs0 : scriptChar c0 = true := by
    simp only [scriptStr, List.all_eq_true] at hs
    exact hs c0 hc0
  unfold escapeTomlChar at hcl
  by_cases h1 : c0 = '\\'
  · rw [if_pos h1] at hcl
    simp only [List.mem_cons, List.not_mem_nil, or_false] at hcl
    rcases hcl with rfl | rfl <;> decide
  · rw [if_neg h1] at hcl
    by_cases h2 : c0 = '"'
    · rw [if_pos h2] at hcl
      simp only [List.mem_cons, List.not_mem_nil, or_false] at hcl
      rcases hcl with rfl | rfl <;> decide
    · rw [if_neg h2] at hcl
      simp only [List.mem_cons, List.not_mem_nil, or_false] at hcl
      rw [hcl]
      exact scriptChar_ne_nl c0 hs0

theorem noNL_strlist (xs : List String) (h : xs.all goodStr = true) :
    noNL (String.intercalate ", " (xs.map (fun e => "\"" ++ e ++ "\""))) = true := by
  induction xs with
  | nil => rfl
  | cons x t ih =>
    simp only [List.all_cons, Bool.and_eq_true] at h
    cases t with
    | nil =>
      rw [show String.intercalate ", "
          ((x :: []).map (fun e => "\"" ++ e ++ "\"")) =
        "\"" ++ x ++ "\"" from rfl]
      simp only [noNL_append, Bool.and_eq_true]
      exact ⟨⟨by decide, noNL_goodStr x h.1⟩, by decide⟩
    | cons y t2 =>
      rw [show List.map (fun e => "\"" ++ e ++ "\"") (x :: y :: t2) =
        ("\"" ++ x ++ "\"") :: ("\"" ++ y ++ "\"") ::
          List.map (fun e => "\"" ++ e ++ "\"") t2 from rfl]
      rw [intercalate_cons_cons]
      rw [show ("\"" ++ y ++ "\"") :: List.map (fun e => "\"" ++ e ++ "\"") t2 =
        List.map (fun e => "\"" ++ e ++ "\"") (y :: t2) from rfl]
      simp only [noNL_append, Bool.and_eq_true]
      exact ⟨⟨⟨⟨by decide, noNL_goodStr x h.1⟩, by decide⟩, by decide⟩, ih h.2⟩

theorem noNL_scalarRender (v : TomlScalar) (hv : scalarWF v = true) :
    noNL (scalarRender v) = true := by
  cases v with
  | str s =>
    simp only [scalarRender, noNL_append, Bool.and_eq_true]
    exact ⟨⟨by decide, noNL_goodStr s hv⟩, by decide⟩
  | bool b => cases b <;> rfl
  | strs xs =>
    simp only [scalarRender, noNL_append, Bool.and_eq_true]
    exact ⟨⟨by decide, noNL_strlist xs hv⟩, by decide⟩

theorem noNL_renderFields (kvs : List (String × TomlScalar))
    (h : kvs.all fieldWF = true) : noNL (renderFields kvs) = true := by
  induction kvs with
  | nil => rfl
  | cons kv t ih =>
    simp only [List.all_cons, Bool.and_eq_true, fieldWF] at h
    cases t with
    | nil =>
      rw [show renderFields [kv] = kv.1 ++ " = " ++ scalarRender kv.2 from rfl]
      simp only [noNL_append, Bool.and_eq_true]
      exact ⟨⟨noNL_bareKey kv.1 h.1.1, by decide⟩, noNL_scalarRender kv.2 h.1.2⟩
    | cons kv2 t2 =>
      rw [show renderFields (kv :: kv2 :: t2) =
        (kv.1 ++ " = " ++ scalarRender kv.2) ++ ", " ++
          renderFields (kv2 :: t2) from by
        show String.intercalate ", " _ = _
        rw [show List.map (fun kv : String × TomlScalar =>
            kv.1 ++ " = " ++ scalarRender kv.2) (kv :: kv2 :: t2) =
          (kv.1 ++ " = " ++ scalarRender kv.2) ::
            (kv2.1 ++ " = " ++ scalarRender kv2.2) ::
            t2.map (fun kv => kv.1 ++ " = " ++ scalarRender kv.2) from rfl]
        rw [intercalate_cons_cons]
        rfl]
      simp only [noNL_append, Bool.and_eq_true]
      exact ⟨⟨⟨⟨noNL_bareKey kv.1 h.1.1, by decide⟩,
        noNL_scalarRender kv.2 h.1.2⟩, by decide⟩, ih h.2⟩

theorem noNL_packageLine (kv : String × PipfilePackage)
    (h : packageWF kv = true) :
    noNL (match kv.2 with
      | .Simple v => kv.1 ++ " = \"" ++ v ++ "\""
      | .Detailed d => kv.1 ++ " = \x7b" ++ write_detail_fields d ++ "\x7d") =
      true := by
  have hk : bareKey kv.1 = true := by
    simp only [packageWF, Bool.and_eq_true] at h
    exact h.1
  cases hp : kv.2 with
  | Simple v =>
    have hv : goodStr v = true := by
      simp only [packageWF, hp, Bool.and_eq_true] at h
      exact h.2
    simp only [noNL_append, Bool.and_eq_true]
    exact ⟨⟨⟨noNL_bareKey kv.1 hk, by decide⟩, noNL_goodStr v hv⟩, by decide⟩
  | Detailed d =>
    show noNL (kv.1 ++ " = \x7b" ++ write_detail_fields d ++ "\x7d") = true
    rw [write_detail_fields_eq d]
    have hwf : (detailKvs d).all fieldWF = true := by
      apply detailKvs_wf kv.1
      rw [← hp]
      exact h
    simp only [noNL_append, Bool.and_eq_true]
    exact ⟨⟨⟨noNL_bareKey kv.1 hk, by decide⟩, noNL_renderFields _ hwf⟩,
      by decide⟩

/-! ## The writer output as a list of lines -/

/-- Concatenation of newline-terminated lines. -/
def wlines : List String → String
  | [] => ""
  | l :: rest => wline l ++ wlines rest

theorem wlines_append (a b : List String) :
    wlines (a ++ b) = wlines a ++ wlines b := by
  induction a with
  | nil => simp [wlines]
  | cons l t ih => simp [wlines, ih, String.append_assoc]

theorem foldl_append_wline (ls : List String) (s : String) :
    List.foldl (· ++ ·) s (ls.map wline) = s ++ wlines ls := by
  induction ls generalizing s with
  | nil => simp [wlines]
  | cons l t ih =>
    simp only [List.map_cons, List.foldl_cons, wlines]
    rw [ih, String.append_assoc]

theorem join_map_wline (ls : List String) :
    String.join (ls.map wline) = wlines ls := by
  rw [show String.join (ls.map wline) =
    List.foldl (· ++ ·) "" (ls.map wline) from rfl]
  rw [foldl_append_wline]
  simp

/-- The five lines of one `[[source]]` block. -/
def sourceLinesOf (s : PipfileSource) : List String :=
  ["[[source]]",
   "url = \"" ++ s.url ++ "\"",
   "verify_ssl = " ++ (if s.verify_ssl then "true" else "false"),
   "name = \"" ++ s.name ++ "\"",
   ""]

/-- The body of one rendered package binding line. -/
def packageLineOf (kv : String × PipfilePackage) : String :=
  match kv.2 with
  | .Simple v => kv.1 ++ " = \"" ++ v ++ "\""
  | .Detailed d => kv.1 ++ " = \x7b" ++ write_detail_fields d ++ "\x7d"

/-- The body of one rendered script binding line. -/
def scriptLineOf (kv : String × String) : String :=
  kv.1 ++ " = \"" ++ escape_toml_value kv.2 ++ "\""

/-- All lines of the rendered Pipfile, in order. -/
def pipfileLines (p : Pipfile) : List String :=
  (p.source.map sourceLinesOf).flatten ++
  ["[packages]"] ++ p.packages.map packageLineOf ++ [""] ++
  ["[dev-packages]"] ++ p.dev_packages.map packageLineOf ++ [""] ++
  (match p.requires with
   | some r =>
     ["[requires]"] ++
     (match r.python_version with
      | some v => ["python_version = \"" ++ v ++ "\""]
      | none => []) ++
     (match r.python_full_version with
      | some v => ["python_full_version = \"" ++ v ++ "\""]
      | none => []) ++
     [""]
   | none => []) ++
  (if p.scripts.isEmpty then []
   else ["[scripts]"] ++ p.scripts.map scriptLineOf ++ [""]) ++
  (match p.pipenv with
   | some settings =>
     ["[pipenv]"] ++
     (if settings.allow_prereleases then ["allow_prereleases = true"] else []) ++
     [""]
   | none => [])

theorem write_source_block_eq (s : PipfileSource) :
    write_source_block s = wlines (sourceLinesOf s) := by
  simp [write_source_block, sourceLinesOf, wlines, String.append_assoc]

theorem write_packages_eq (m : SMap PipfilePackage) :
    write_packages m = wlines (m.map packageLineOf) := by
  rw [show write_packages m =
    String.join (m.map (fun kv => write_package_line kv.1 kv.2)) from rfl]
  rw [show m.map (fun kv => write_package_line kv.1 kv.2) =
    (m.map packageLineOf).map wline from by
      rw [List.map_map]
      apply List.map_congr_left
      intro kv hkv
      cases hp : kv.2 <;> simp [write_package_line, packageLineOf, hp, wline]]
  exact join_map_wline _

theorem to_toml_string_eq_wlines (p : Pipfile) :
    Pipfile.to_toml_string p = wlines (pipfileLines p) := by
  rw [show Pipfile.to_toml_string p =
    String.join (p.source.map write_source_block) ++
    (wline "[packages]" ++ write_packages p.packages ++ wline "" ++
    (wline "[dev-packages]" ++ write_packages p.dev_packages ++ wline "" ++
    ((match p.requires with
     | some requires =>
       wline "[requires]" ++
       ((match requires.python_version with
        | some version => wline ("python_version = \"" ++ version ++ "\"")
        | none => "") ++
       ((match requires.python_full_version with
        | some full_version =>
          wline ("python_full_version = \"" ++ full_version ++ "\"")
        | none => "") ++
       wline ""))
     | none => "") ++
    ((if p.scripts.isEmpty then ""
     else
       wline "[scripts]" ++
       (String.join (p.scripts.map (fun kv =>
         wline (kv.1 ++ " = \"" ++ escape_toml_value kv.2 ++ "\""))) ++
       wline "")) ++
    (match p.pipenv with
     | some settings =>
       wline "[pipenv]" ++
       ((if settings.allow_prereleases then wline "allow_prereleases = true"
         else "") ++
       wline "")
     | none => "")))))
    from by rw [Pipfile.to_toml_string]; simp [String.append_assoc]]
  rw [show pipfileLines p =
    (p.source.map sourceLinesOf).flatten ++
    (["[packages]"] ++ p.packages.map packageLineOf ++ [""] ++
    (["[dev-packages]"] ++ p.dev_packages.map packageLineOf ++ [""] ++
    ((match p.requires with
     | some r =>
       ["[requires]"] ++
       (match r.python_version with
        | some v => ["python_version = \"" ++ v ++ "\""]
        | none => []) ++
       (match r.python_full_version with
        | some v => ["python_full_version = \"" ++ v ++ "\""]
        | none => []) ++
       [""]
     | none => []) ++
    ((if p.scripts.isEmpty then []
     else ["[scripts]"] ++ p.scripts.map scriptLineOf ++ [""]) ++
    (match p.pipenv with
     | some settings =>
       ["[pipenv]"] ++
       (if settings.allow_prereleases then ["allow_prereleases = true"]
        else []) ++
       [""]
     | none => [])))))
    from by rw [pipfileLines]; simp [List.append_assoc]]
  rw [wlines_append]
  congr 1
  · rw [show p.source.map write_source_block =
      ((p.source.map sourceLinesOf).map wlines) from by
        rw [List.map_map]
        exact List.map_congr_left (fun s _ => write_source_block_eq s)]
    induction p.source with
    | nil => rfl
    | cons s t ih =>
      simp only [List.map_cons, List.flatten_cons, String.join, List.foldl_cons]
      rw [wlines_append, ← ih]
      rw [show String.join (List.map wlines (List.map sourceLinesOf t)) =
        List.foldl (· ++ ·) "" (List.map wlines (List.map sourceLinesOf t))
        from rfl]
      rw [show ("" ++ wlines (sourceLinesOf s)) = wlines (sourceLinesOf s)
        from by simp]
      generalize wlines (sourceLinesOf s) = a
      generalize (List.map wlines (List.map sourceLinesOf t)) = ls
      induction ls generalizing a with
      | nil => simp [String.join]
      | cons x xs ih2 =>
        simp only [List.foldl_cons]
        rw [ih2 (a ++ x)]
        rw [ih2 ("" ++ x)]
        simp [String.append_assoc]
  · rw [wlines_append]
    congr 1
    · rw [wlines_append, wlines_append]
      rw [write_packages_eq]
      simp [wlines, String.append_assoc]
    rw [wlines_append]
    congr 1
    · rw [wlines_append, wlines_append]
      rw [write_packages_eq]
      simp [wlines, String.append_assoc]
    rw [wlines_append]
    congr 1
    · cases hreq : p.requires with
      | none => rfl
      | some r =>
        rw [wlines_append, wlines_append]
        cases hv : r.python_version <;> cases hf : r.python_full_version <;>
          simp [wlines, String.append_assoc, hv, hf]
    rw [wlines_append]
    congr 1
    · by_cases hs : p.scripts.isEmpty
      · rw [if_pos hs, if_pos hs]
        rfl
      · rw [if_neg hs, if_neg hs]
        rw [wlines_append, wlines_append]
        rw [show String.join (p.scripts.map (fun kv =>
            wline (kv.1 ++ " = \"" ++ escape_toml_value kv.2 ++ "\""))) =
          wlines (p.scripts.map scriptLineOf) from by
            rw [show p.scripts.map (fun kv =>
                wline (kv.1 ++ " = \"" ++ escape_toml_value kv.2 ++ "\"")) =
              (p.scripts.map scriptLineOf).map wline from by
                rw [List.map_map]; rfl]
            exact join_map_wline _]
        simp [wlines, String.append_assoc]
    · cases hp : p.pipenv with
      | none => rfl
      | some settings =>
        rw [wlines_append, wlines_append]
        cases ha : settings.allow_prereleases <;>
          simp [wlines, String.append_assoc, ha]

/-! ## Folding the document parser over rendered lines -/

/-- Process a list of line bodies. -/
def stepLines (st : PState) : List String → Except String PState
  | [] => .ok st
  | l :: rest =>
    match stepLine st l.data with
    | .error e => .error e
    | .ok st2 => stepLines st2 rest

theorem stepLines_append (a b : List String) (st : PState) :
    stepLines st (a ++ b) =
      match stepLines st a with
      | .error e => .error e
      | .ok st2 => stepLines st2 b := by
  induction a generalizing st with
  | nil => rfl
  | cons l t ih =>
    simp only [List.cons_append, stepLines]
    cases stepLine st l.data with
    | error e => rfl
    | ok st2 => exact ih st2

theorem splitLinesAux_nonl (a : List Char) (h : a.all (fun c => c != '\n') = true)
    (acc rest : List Char) :
    splitLinesAux acc (a ++ '\n' :: rest) =
      (acc.reverse ++ a) :: splitLinesAux [] rest := by
  induction a generalizing acc with
  | nil => simp [splitLinesAux]
  | cons c t ih =>
    simp only [List.all_cons, Bool.and_eq_true] at h
    simp only [List.cons_append, splitLinesAux, List.append_eq]
    rw [if_neg (by simpa using h.1)]
    rw [ih h.2 (c :: acc)]
    simp

theorem splitLines_wline (a : String) (h : noNL a = true) (rest : List Char) :
    splitLinesAux [] ((wline a).data ++ rest) =
      a.data :: splitLinesAux [] rest := by
  rw [show (wline a).data ++ rest = a.data ++ '\n' :: rest from by simp [wline]]
  rw [splitLinesAux_nonl a.data h [] rest]
  simp

theorem parseDoc_wlines (ls : List String) (h : ls.all noNL = true) (st : PState)
    (rest : List Char) :
    parseDocLines st (splitLinesAux [] ((wlines ls).data ++ rest)) =
      match stepLines st ls with
      | .error e => .error e
      | .ok st2 => parseDocLines st2 (splitLinesAux [] rest) := by
  induction ls generalizing st with
  | nil => rfl
  | cons l t ih =>
    simp only [List.all_cons, Bool.and_eq_true] at h
    rw [show (wlines (l :: t)).data ++ rest =
      (wline l).data ++ ((wlines t).data ++ rest) from by simp [wlines]]
    rw [splitLines_wline l h.1]
    simp only [parseDocLines, stepLines]
    cases stepLine st l.data with
    | error e => rfl
    | ok st2 => exact ih h.2 st2

theorem stepLines_cons (st : PState) (l : String) (ls : List String) (st2 : PState)
    (h : stepLine st l.data = .ok st2) :
    stepLines st (l :: ls) = stepLines st2 ls := by
  simp only [stepLines, h]

theorem stepLine_arrayHead (st : PState) (l : List Char) (name : String)
    (h : parseLine l = .ok (.arrayHead name))
    (ht : assocHas st.doc.tables name = false) :
    stepLine st l =
      .ok ⟨{ st.doc with arrays := arraysAppend name st.doc.arrays },
        .arrayElem name⟩ := by
  unfold stepLine
  rw [h]
  simp [ht]

theorem stepLine_sectionHead (st : PState) (l : List Char) (name : String)
    (h : parseLine l = .ok (.sectionHead name))
    (ht : assocHas st.doc.tables name = false)
    (ha : assocHas st.doc.arrays name = false) :
    stepLine st l =
      .ok ⟨{ st.doc with tables := st.doc.tables ++ [(name, [])] },
        .table name⟩ := by
  unfold stepLine
  rw [h]
  simp [ht, ha]

theorem stepLine_kv_intable (st : PState) (l : List Char) (k : String)
    (v : TomlValue) (name : String)
    (tables2 : List (String × List (String × TomlValue)))
    (h : parseLine l = .ok (.kv k v)) (hcur : st.cur = .table name)
    (hupd : updTable name k v st.doc.tables = .ok tables2) :
    stepLine st l = .ok ⟨{ st.doc with tables := tables2 }, st.cur⟩ := by
  obtain ⟨doc, cur⟩ := st
  have hcur2 : cur = .table name := hcur
  subst hcur2
  unfold stepLine
  rw [h]
  simp [hupd]

theorem stepLine_kv_inarray (st : PState) (l : List Char) (k : String)
    (v : TomlValue) (name : String)
    (arrays2 : List (String × List (List (String × TomlValue))))
    (h : parseLine l = .ok (.kv k v)) (hcur : st.cur = .arrayElem name)
    (hupd : updArrays name k v st.doc.arrays = .ok arrays2) :
    stepLine st l = .ok ⟨{ st.doc with arrays := arrays2 }, st.cur⟩ := by
  obtain ⟨doc, cur⟩ := st
  have hcur2 : cur = .arrayElem name := hcur
  subst hcur2
  unfold stepLine
  rw [h]
  simp [hupd]

theorem stepLine_blank (st : PState) (l : List Char)
    (h : parseLine l = .ok .blank) : stepLine st l = .ok st := by
  unfold stepLine
  rw [h]

/-- The raw bindings one `[[source]]` block parses back to. -/
def sourceKvs (s : PipfileSource) : List (String × TomlValue) :=
  [("url", .scalar (.str s.url)),
   ("verify_ssl", .scalar (.bool s.verify_ssl)),
   ("name", .scalar (.str s.name))]

theorem stepLines_source_block (s : PipfileSource) (hn : goodStr s.name = true)
    (hu : goodStr s.url = true)
    (A : List (String × List (List (String × TomlValue))))
    (elems : List (List (String × TomlValue)))
    (hA : arraysAppend "source" A = [("source", elems ++ [[]])])
    (top : List (String × TomlValue)) (cur : CurSection) (rest : List String) :
    stepLines ⟨⟨top, [], A⟩, cur⟩ (sourceLinesOf s ++ rest) =
      stepLines ⟨⟨top, [], [("source", elems ++ [sourceKvs s])]⟩,
        .arrayElem "source"⟩ rest := by
  rw [show sourceLinesOf s ++ rest =
    "[[source]]" :: ("url = \"" ++ s.url ++ "\"") ::
    ("verify_ssl = " ++ (if s.verify_ssl then "true" else "false")) ::
    ("name = \"" ++ s.name ++ "\"") :: "" :: rest from rfl]
  rw [stepLines_cons ⟨⟨top, [], A⟩, cur⟩ "[[source]]" _
    ⟨⟨top, [], [("source", elems ++ [[]])]⟩, .arrayElem "source"⟩ (by
      rw [stepLine_arrayHead _ _ "source"
        (show parseLine ("[[source]]".data) = .ok (.arrayHead "source") from by
          decide)
        (by rfl)]
      simp [hA])]
  rw [stepLines_cons ⟨⟨top, [], [("source", elems ++ [[]])]⟩, .arrayElem "source"⟩
    ("url = \"" ++ s.url ++ "\"") _
    ⟨⟨top, [], [("source", elems ++ [[("url", TomlValue.scalar (TomlScalar.str s.url))]])]⟩,
      .arrayElem "source"⟩ (by
      refine stepLine_kv_inarray
        ⟨⟨top, [], [("source", elems ++ [[]])]⟩, .arrayElem "source"⟩
        _ "url" (TomlValue.scalar (TomlScalar.str s.url)) "source"
        [("source", elems ++ [[("url", TomlValue.scalar (TomlScalar.str s.url))]])] ?_ rfl ?_
      · rw [show ("url = \"" ++ s.url ++ "\"") =
          ("url" ++ " = \"" ++ s.url ++ "\"") from by
            rw [show ("url" ++ " = \"" : String) = "url = \"" from rfl]]
        exact parseLine_kv_str "url" s.url (by decide) hu
      · refine updArrays_single _ _ _ _ _ ?_
        rw [updLast_snoc _ _ elems [] (by rfl)]
        simp)]
  rw [stepLines_cons
    ⟨⟨top, [], [("source", elems ++ [[("url", TomlValue.scalar (TomlScalar.str s.url))]])]⟩,
      .arrayElem "source"⟩
    ("verify_ssl = " ++ (if s.verify_ssl then "true" else "false")) _
    ⟨⟨top, [], [("source", elems ++ [[("url", TomlValue.scalar (TomlScalar.str s.url)),
      ("verify_ssl", TomlValue.scalar (TomlScalar.bool s.verify_ssl))]])]⟩,
      .arrayElem "source"⟩ (by
      refine stepLine_kv_inarray
        ⟨⟨top, [], [("source", elems ++ [[("url", TomlValue.scalar (TomlScalar.str s.url))]])]⟩,
          .arrayElem "source"⟩
        _ "verify_ssl" (TomlValue.scalar (TomlScalar.bool s.verify_ssl)) "source"
        [("source", elems ++ [[("url", TomlValue.scalar (TomlScalar.str s.url)),
          ("verify_ssl", TomlValue.scalar (TomlScalar.bool s.verify_ssl))]])] ?_ rfl ?_
      · cases hb : s.verify_ssl
        · rw [show ("verify_ssl = " ++ (if false then "true" else "false")) =
            "verify_ssl = false" from rfl]
          decide
        · rw [show ("verify_ssl = " ++ (if true then "true" else "false")) =
            "verify_ssl = true" from rfl]
          decide
      · refine updArrays_single _ _ _ _ _ ?_
        rw [updLast_snoc _ _ elems [("url", TomlValue.scalar (TomlScalar.str s.url))] (by rfl)]
        simp)]
  rw [stepLines_cons
    ⟨⟨top, [], [("source", elems ++ [[("url", TomlValue.scalar (TomlScalar.str s.url)),
      ("verify_ssl", TomlValue.scalar (TomlScalar.bool s.verify_ssl))]])]⟩,
      .arrayElem "source"⟩
    ("name = \"" ++ s.name ++ "\"") _
    ⟨⟨top, [], [("source", elems ++ [sourceKvs s])]⟩, .arrayElem "source"⟩ (by
      refine stepLine_kv_inarray
        ⟨⟨top, [], [("source", elems ++ [[("url", TomlValue.scalar (TomlScalar.str s.url)),
          ("verify_ssl", TomlValue.scalar (TomlScalar.bool s.verify_ssl))]])]⟩,
          .arrayElem "source"⟩
        _ "name" (TomlValue.scalar (TomlScalar.str s.name)) "source"
        [("source", elems ++ [sourceKvs s])] ?_ rfl ?_
      · rw [show ("name = \"" ++ s.name ++ "\"") =
          ("name" ++ " = \"" ++ s.name ++ "\"") from by
            rw [show ("name" ++ " = \"" : String) = "name = \"" from rfl]]
        exact parseLine_kv_str "name" s.name (by decide) hn
      · refine updArrays_single _ _ _ _ _ ?_
        rw [updLast_snoc _ _ elems [("url", TomlValue.scalar (TomlScalar.str s.url)),
          ("verify_ssl", TomlValue.scalar (TomlScalar.bool s.verify_ssl))] (by rfl)]
        simp [sourceKvs])]
  rw [stepLines_cons
    ⟨⟨top, [], [("source", elems ++ [sourceKvs s])]⟩, .arrayElem "source"⟩
    "" _ ⟨⟨top, [], [("source", elems ++ [sourceKvs s])]⟩, .arrayElem "source"⟩
    (stepLine_blank _ _ rfl)]

theorem stepLines_sources (sources : List PipfileSource)
    (h : sources.all (fun s => goodStr s.name && goodStr s.url) = true)
    (elems : List (List (String × TomlValue)))
    (top : List (String × TomlValue)) (cur : CurSection) (rest : List String) :
    stepLines ⟨⟨top, [], [("source", elems)]⟩, cur⟩
      ((sources.map sourceLinesOf).flatten ++ rest) =
      stepLines ⟨⟨top, [], [("source", elems ++ sources.map sourceKvs)]⟩,
        (if sources.isEmpty then cur else .arrayElem "source")⟩ rest := by
  induction sources generalizing elems cur with
  | nil => simp
  | cons s t ih =>
    simp only [List.all_cons, Bool.and_eq_true] at h
    simp only [List.map_cons, List.flatten_cons, List.append_assoc]
    rw [stepLines_source_block s h.1.1 h.1.2 [("source", elems)] elems
      (by rfl) top cur _]
    rw [ih h.2 (elems ++ [sourceKvs s]) (.arrayElem "source")]
    simp

theorem stepLines_sources_init (sources : List PipfileSource)
    (h : sources.all (fun s => goodStr s.name && goodStr s.url) = true)
    (rest : List String) :
    stepLines ⟨⟨[], [], []⟩, .top⟩ ((sources.map sourceLinesOf).flatten ++ rest) =
      stepLines ⟨⟨[], [],
        (if sources.isEmpty then [] else [("source", sources.map sourceKvs)])⟩,
        (if sources.isEmpty then .top else .arrayElem "source")⟩ rest := by
  cases sources with
  | nil => rfl
  | cons s t =>
    simp only [List.all_cons, Bool.and_eq_true] at h
    simp only [List.map_cons, List.flatten_cons, List.append_assoc]
    rw [stepLines_source_block s h.1.1 h.1.2 [] [] (by rfl) [] .top _]
    simp only [List.nil_append]
    rw [stepLines_sources t h.2 [sourceKvs s] [] (.arrayElem "source") rest]
    simp

theorem stepLines_pkgsec (m : SMap PipfilePackage) (hs : SMap.sortedKeys m = true)
    (hwf : m.all packageWF = true) (name : String)
    (pre : List (String × List (String × TomlValue)))
    (hpre : ∀ e ∈ pre, e.1 ≠ name)
    (acc : List (String × TomlValue))
    (hacc : ∀ kv ∈ m, assocHas acc kv.1 = false)
    (top : List (String × TomlValue))
    (arrays : List (String × List (List (String × TomlValue))))
    (rest : List String) :
    stepLines ⟨⟨top, pre ++ [(name, acc)], arrays⟩, .table name⟩
      (m.map packageLineOf ++ rest) =
      stepLines ⟨⟨top, pre ++ [(name, acc ++ m.map pkgKv)], arrays⟩, .table name⟩
        rest := by
  induction m generalizing acc with
  | nil => simp
  | cons kv t ih =>
    simp only [List.all_cons, Bool.and_eq_true] at hwf
    have hk : bareKey kv.1 = true := by
      have := hwf.1
      simp only [packageWF, Bool.and_eq_true] at this
      exact this.1
    simp only [List.map_cons, List.cons_append]
    rw [stepLines_cons ⟨⟨top, pre ++ [(name, acc)], arrays⟩, .table name⟩
      (packageLineOf kv) _
      ⟨⟨top, pre ++ [(name, acc ++ [pkgKv kv])], arrays⟩, .table name⟩ (by
        refine stepLine_kv_intable
          ⟨⟨top, pre ++ [(name, acc)], arrays⟩, .table name⟩
          _ kv.1 (pkgKv kv).2 name
          (pre ++ [(name, acc ++ [pkgKv kv])]) ?_ rfl ?_
        · cases hp : kv.2 with
          | Simple v =>
            have hv : goodStr v = true := by
              have := hwf.1
              simp only [packageWF, hp, Bool.and_eq_true] at this
              exact this.2
            rw [show packageLineOf kv = kv.1 ++ " = \"" ++ v ++ "\"" from by
              simp [packageLineOf, hp]]
            rw [show (pkgKv kv).2 = TomlValue.scalar (TomlScalar.str v) from by
              simp [pkgKv, hp]]
            exact parseLine_kv_str kv.1 v hk hv
          | Detailed d =>
            have hdwf : packageWF (kv.1, .Detailed d) = true := by
              rw [show ((kv.1, PipfilePackage.Detailed d) :
                  String × PipfilePackage) = (kv.1, kv.2) from by rw [hp]]
              exact hwf.1
            rw [show packageLineOf kv =
              kv.1 ++ " = \x7b" ++ write_detail_fields d ++ "\x7d" from by
                simp [packageLineOf, hp]]
            rw [write_detail_fields_eq d]
            rw [show (pkgKv kv).2 = TomlValue.table (detailKvs d) from by
              simp [pkgKv, hp]]
            exact parseLine_kv_table kv.1 hk (detailKvs d)
              (detailKvs_wf kv.1 d hdwf) (detailKvs_keys_nodup d)
        · rw [show (acc ++ [pkgKv kv]) = acc ++ [(kv.1, (pkgKv kv).2)] from by
            rw [show pkgKv kv = (kv.1, (pkgKv kv).2) from rfl]]
          exact updTable_last name kv.1 (pkgKv kv).2 pre acc hpre
            (hacc kv (by simp)))]
    rw [ih (sortedKeys_tail kv t hs) hwf.2 (acc ++ [pkgKv kv]) (by
      intro kv2 h2
      rw [assocHas_append, Bool.or_eq_false_iff]
      refine ⟨hacc kv2 (List.mem_cons_of_mem _ h2), ?_⟩
      have hlt := sortedKeys_head_lt kv t hs kv2 h2
      have hne := strLt_ne kv.1 kv2.1 hlt
      have hbeq : (kv2.1 == kv.1) = false := by
        simp only [beq_eq_false_iff_ne, ne_eq]
        exact fun he => hne he.symm
      simp [assocHas, List.lookup, pkgKv, hbeq])]
    simp

theorem stepLines_scriptfold (m : SMap String) (hs : SMap.sortedKeys m = true)
    (hwf : m.all (fun kv => bareKey kv.1 && scriptStr kv.2) = true) (name : String)
    (pre : List (String × List (String × TomlValue)))
    (hpre : ∀ e ∈ pre, e.1 ≠ name)
    (acc : List (String × TomlValue))
    (hacc : ∀ kv ∈ m, assocHas acc kv.1 = false)
    (top : List (String × TomlValue))
    (arrays : List (String × List (List (String × TomlValue))))
    (rest : List String) :
    stepLines ⟨⟨top, pre ++ [(name, acc)], arrays⟩, .table name⟩
      (m.map scriptLineOf ++ rest) =
      stepLines ⟨⟨top, pre ++ [(name, acc ++ m.map scriptKv)], arrays⟩,
        .table name⟩ rest := by
  induction m generalizing acc with
  | nil => simp
  | cons kv t ih =>
    simp only [List.all_cons, Bool.and_eq_true] at hwf
    simp only [List.map_cons, List.cons_append]
    rw [stepLines_cons ⟨⟨top, pre ++ [(name, acc)], arrays⟩, .table name⟩
      (scriptLineOf kv) _
      ⟨⟨top, pre ++ [(name, acc ++ [scriptKv kv])], arrays⟩, .table name⟩ (by
        refine stepLine_kv_intable
          ⟨⟨top, pre ++ [(name, acc)], arrays⟩, .table name⟩
          _ kv.1 (scriptKv kv).2 name
          (pre ++ [(name, acc ++ [scriptKv kv])]) ?_ rfl ?_
        · rw [show scriptLineOf kv =
            kv.1 ++ " = \"" ++ escape_toml_value kv.2 ++ "\"" from rfl]
          rw [show (scriptKv kv).2 = TomlValue.scalar (TomlScalar.str kv.2)
            from rfl]
          exact parseLine_kv_script kv.1 kv.2 hwf.1.1 hwf.1.2
        · rw [show (acc ++ [scriptKv kv]) = acc ++ [(kv.1, (scriptKv kv).2)]
            from by rw [show scriptKv kv = (kv.1, (scriptKv kv).2) from rfl]]
          exact updTable_last name kv.1 (scriptKv kv).2 pre acc hpre
            (hacc kv (by simp)))]
    rw [ih (sortedKeys_tail kv t hs) hwf.2 (acc ++ [scriptKv kv]) (by
      intro kv2 h2
      rw [assocHas_append, Bool.or_eq_false_iff]
      refine ⟨hacc kv2 (List.mem_cons_of_mem _ h2), ?_⟩
      have hlt := sortedKeys_head_lt kv t hs kv2 h2
      have hne := strLt_ne kv.1 kv2.1 hlt
      have hbeq : (kv2.1 == kv.1) = false := by
        simp only [beq_eq_false_iff_ne, ne_eq]
        exact fun he => hne he.symm
      simp [assocHas, List.lookup, scriptKv, hbeq])]
    simp

theorem stepLines_pkgsec_full (headLine name : String)
    (m : SMap PipfilePackage) (hs : SMap.sortedKeys m = true)
    (hwf : m.all packageWF = true)
    (tables0 : List (String × List (String × TomlValue)))
    (hpre : ∀ e ∈ tables0, e.1 ≠ name)
    (top : List (String × TomlValue))
    (arrays : List (String × List (List (String × TomlValue))))
    (harr : assocHas arrays name = false) (cur : CurSection)
    (hhead : parseLine headLine.data = .ok (.sectionHead name))
    (rest : List String) :
    stepLines ⟨⟨top, tables0, arrays⟩, cur⟩
      ((headLine :: m.map packageLineOf ++ [""]) ++ rest) =
      stepLines ⟨⟨top, tables0 ++ [(name, m.map pkgKv)], arrays⟩, .table name⟩
        rest := by
  rw [show (headLine :: m.map packageLineOf ++ [""]) ++ rest =
    headLine :: (m.map packageLineOf ++ ("" :: rest)) from by simp]
  rw [stepLines_cons ⟨⟨top, tables0, arrays⟩, cur⟩ headLine _
    ⟨⟨top, tables0 ++ [(name, [])], arrays⟩, .table name⟩ (by
      rw [stepLine_sectionHead _ _ name hhead
        (assocHas_false_of_not_mem _ _ (by
          intro hmem
          simp only [List.mem_map] at hmem
          obtain ⟨e, he, hne⟩ := hmem
          exact hpre e he hne)) harr])]
  rw [stepLines_pkgsec m hs hwf name tables0 hpre [] (fun kv _ => rfl)
    top arrays ("" :: rest)]
  rw [stepLines_cons _ "" _
    ⟨⟨top, tables0 ++ [(name, [] ++ m.map pkgKv)], arrays⟩, .table name⟩
    (stepLine_blank _ _ rfl)]
  simp

theorem stepLines_scriptsec_full (m : SMap String)
    (hs : SMap.sortedKeys m = true)
    (hwf : m.all (fun kv => bareKey kv.1 && scriptStr kv.2) = true)
    (tables0 : List (String × List (String × TomlValue)))
    (hpre : ∀ e ∈ tables0, e.1 ≠ "scripts")
    (top : List (String × TomlValue))
    (arrays : List (String × List (List (String × TomlValue))))
    (harr : assocHas arrays "scripts" = false) (cur : CurSection)
    (rest : List String) :
    stepLines ⟨⟨top, tables0, arrays⟩, cur⟩
      ((if m.isEmpty then [] else "[scripts]" :: m.map scriptLineOf ++ [""]) ++
        rest) =
      stepLines ⟨⟨top,
        tables0 ++ (if m.isEmpty then [] else [("scripts", m.map scriptKv)]),
        arrays⟩, (if m.isEmpty then cur else .table "scripts")⟩ rest := by
  by_cases he : m.isEmpty
  · rw [if_pos he, if_pos he, if_pos he]
    simp
  · rw [if_neg he, if_neg he, if_neg he]
    rw [show ("[scripts]" :: m.map scriptLineOf ++ [""]) ++ rest =
      "[scripts]" :: (m.map scriptLineOf ++ ("" :: rest)) from by simp]
    rw [stepLines_cons ⟨⟨top, tables0, arrays⟩, cur⟩ "[scripts]" _
      ⟨⟨top, tables0 ++ [("scripts", [])], arrays⟩, .table "scripts"⟩ (by
        rw [stepLine_sectionHead _ _ "scripts" (by decide)
          (assocHas_false_of_not_mem _ _ (by
            intro hmem
            simp only [List.mem_map] at hmem
            obtain ⟨e, he2, hne⟩ := hmem
            exact hpre e he2 hne)) harr])]
    rw [stepLines_scriptfold m hs hwf "scripts" tables0 hpre []
      (fun kv _ => rfl) top arrays ("" :: rest)]
    rw [stepLines_cons _ "" _
      ⟨⟨top, tables0 ++ [("scripts", [] ++ m.map scriptKv)], arrays⟩,
        .table "scripts"⟩
      (stepLine_blank _ _ rfl)]
    simp

/-- The raw bindings the `[requires]` section parses back to. -/
def requiresKvs (r : PipfileRequires) : List (String × TomlValue) :=
  (match r.python_version with
   | some v => [("python_version", TomlValue.scalar (TomlScalar.str v))]
   | none => []) ++
  (match r.python_full_version with
   | some v => [("python_full_version", TomlValue.scalar (TomlScalar.str v))]
   | none => [])

/-- The raw bindings the `[pipenv]` section parses back to. -/
def pipenvKvs (settings : PipfileSettings) : List (String × TomlValue) :=
  if settings.allow_prereleases
  then [("allow_prereleases", TomlValue.scalar (TomlScalar.bool true))]
  else []

/-- The rendered lines of the `[requires]` section. -/
def reqLines : Option PipfileRequires → List String
  | some r =>
    ["[requires]"] ++
    (match r.python_version with
     | some v => ["python_version = \"" ++ v ++ "\""]
     | none => []) ++
    (match r.python_full_version with
     | some v => ["python_full_version = \"" ++ v ++ "\""]
     | none => []) ++
    [""]
  | none => []

/-- The rendered lines of the `[pipenv]` section. -/
def pipenvLines : Option PipfileSettings → List String
  | some settings =>
    ["[pipenv]"] ++
    (if settings.allow_prereleases then ["allow_prereleases = true"] else []) ++
    [""]
  | none => []

/-- The table segment contributed by the `[requires]` section. -/
def reqTablesSeg : Option PipfileRequires → List (String × List (String × TomlValue))
  | some r => [("requires", requiresKvs r)]
  | none => []

/-- The cursor after the `[requires]` section. -/
def reqCur (cur : CurSection) : Option PipfileRequires → CurSection
  | some _ => .table "requires"
  | none => cur

/-- The table segment contributed by the `[pipenv]` section. -/
def pipenvTablesSeg :
    Option PipfileSettings → List (String × List (String × TomlValue))
  | some s2 => [("pipenv", pipenvKvs s2)]
  | none => []

/-- The cursor after the `[pipenv]` section. -/
def pipenvCur (cur : CurSection) : Option PipfileSettings → CurSection
  | some _ => .table "pipenv"
  | none => cur

theorem stepLines_reqsec (req : Option PipfileRequires)
    (hwf : (match req with
            | some r =>
              (match r.python_version with
               | some v => goodStr v | none => true) &&
              (match r.python_full_version with
               | some v => goodStr v | none => true)
            | none => true) = true)
    (tables0 : List (String × List (String × TomlValue)))
    (hpre : ∀ e ∈ tables0, e.1 ≠ "requires")
    (top : List (String × TomlValue))
    (arrays : List (String × List (List (String × TomlValue))))
    (harr : assocHas arrays "requires" = false) (cur : CurSection)
    (rest : List String) :
    stepLines ⟨⟨top, tables0, arrays⟩, cur⟩ (reqLines req ++ rest) =
      stepLines ⟨⟨top, tables0 ++ reqTablesSeg req, arrays⟩, reqCur cur req⟩
        rest := by
  cases req with
  | none => simp [reqLines, reqTablesSeg, reqCur]
  | some r =>
    obtain ⟨pv, pf⟩ := r
    cases pv with
    | some v =>
      cases pf with
      | some f =>
        have hwf2 : goodStr v = true ∧ goodStr f = true := by simpa using hwf
        rw [show reqLines (some ⟨some v, some f⟩) ++ rest =
          "[requires]" :: ("python_version = \"" ++ v ++ "\"") ::
          ("python_full_version = \"" ++ f ++ "\"") :: "" :: rest from by
            simp [reqLines]]
        rw [stepLines_cons ⟨⟨top, tables0, arrays⟩, cur⟩ "[requires]" _
          ⟨⟨top, tables0 ++ [("requires", [])], arrays⟩, .table "requires"⟩ (by
            rw [stepLine_sectionHead _ _ "requires" (by decide)
              (assocHas_false_of_not_mem _ _ (by
                intro hmem
                simp only [List.mem_map] at hmem
                obtain ⟨e, he2, hne⟩ := hmem
                exact hpre e he2 hne)) harr])]
        rw [stepLines_cons _ ("python_version = \"" ++ v ++ "\"") _
          ⟨⟨top, tables0 ++ [("requires", [("python_version", TomlValue.scalar (TomlScalar.str v))])], arrays⟩,
            .table "requires"⟩ (by
            refine stepLine_kv_intable
              ⟨⟨top, tables0 ++ [("requires", [])], arrays⟩,
                .table "requires"⟩
              _ "python_version" (TomlValue.scalar (TomlScalar.str v)) "requires"
              (tables0 ++ [("requires", [("python_version", TomlValue.scalar (TomlScalar.str v))])]) ?_ rfl ?_
            · rw [show ("python_version = \"" ++ v ++ "\"") =
                ("python_version" ++ " = \"" ++ v ++ "\"") from by
                  rw [show ("python_version" ++ " = \"" : String) = "python_version = \"" from rfl]]
              exact parseLine_kv_str "python_version" v (by decide) hwf2.1
            · exact updTable_last "requires" "python_version"
                (TomlValue.scalar (TomlScalar.str v)) tables0 []
                hpre rfl)]
        rw [stepLines_cons _ ("python_full_version = \"" ++ f ++ "\"") _
          ⟨⟨top, tables0 ++ [("requires", [("python_version", TomlValue.scalar (TomlScalar.str v)), ("python_full_version", TomlValue.scalar (TomlScalar.str f))])], arrays⟩,
            .table "requires"⟩ (by
            refine stepLine_kv_intable
              ⟨⟨top, tables0 ++ [("requires", [("python_version", TomlValue.scalar (TomlScalar.str v))])], arrays⟩,
                .table "requires"⟩
              _ "python_full_version" (TomlValue.scalar (TomlScalar.str f)) "requires"
              (tables0 ++ [("requires", [("python_version", TomlValue.scalar (TomlScalar.str v)), ("python_full_version", TomlValue.scalar (TomlScalar.str f))])]) ?_ rfl ?_
            · rw [show ("python_full_version = \"" ++ f ++ "\"") =
                ("python_full_version" ++ " = \"" ++ f ++ "\"") from by
                  rw [show ("python_full_version" ++ " = \"" : String) = "python_full_version = \"" from rfl]]
              exact parseLine_kv_str "python_full_version" f (by decide) hwf2.2
            · exact updTable_last "requires" "python_full_version"
                (TomlValue.scalar (TomlScalar.str f)) tables0 [("python_version", TomlValue.scalar (TomlScalar.str v))]
                hpre rfl)]
        rw [stepLines_cons _ "" _ _ (stepLine_blank _ _ rfl)]
        simp [requiresKvs, reqTablesSeg, reqCur]
      | none =>
        have hwf2 : goodStr v = true := by simpa using hwf
        rw [show reqLines (some ⟨some v, none⟩) ++ rest =
          "[requires]" :: ("python_version = \"" ++ v ++ "\"") :: "" :: rest from by
            simp [reqLines]]
        rw [stepLines_cons ⟨⟨top, tables0, arrays⟩, cur⟩ "[requires]" _
          ⟨⟨top, tables0 ++ [("requires", [])], arrays⟩, .table "requires"⟩ (by
            rw [stepLine_sectionHead _ _ "requires" (by decide)
              (assocHas_false_of_not_mem _ _ (by
                intro hmem
                simp only [List.mem_map] at hmem
                obtain ⟨e, he2, hne⟩ := hmem
                exact hpre e he2 hne)) harr])]
        rw [stepLines_cons _ ("python_version = \"" ++ v ++ "\"") _
          ⟨⟨top, tables0 ++ [("requires", [("python_version", TomlValue.scalar (TomlScalar.str v))])], arrays⟩,
            .table "requires"⟩ (by
            refine stepLine_kv_intable
              ⟨⟨top, tables0 ++ [("requires", [])], arrays⟩,
                .table "requires"⟩
              _ "python_version" (TomlValue.scalar (TomlScalar.str v)) "requires"
              (tables0 ++ [("requires", [("python_version", TomlValue.scalar (TomlScalar.str v))])]) ?_ rfl ?_
            · rw [show ("python_version = \"" ++ v ++ "\"") =
                ("python_version" ++ " = \"" ++ v ++ "\"") from by
                  rw [show ("python_version" ++ " = \"" : String) = "python_version = \"" from rfl]]
              exact parseLine_kv_str "python_version" v (by decide) hwf2
            · exact updTable_last "requires" "python_version"
                (TomlValue.scalar (TomlScalar.str v)) tables0 []
                hpre rfl)]
        rw [stepLines_cons _ "" _ _ (stepLine_blank _ _ rfl)]
        simp [requiresKvs, reqTablesSeg, reqCur]
    | none =>
      cases pf with
      | some f =>
        have hwf2 : goodStr f = true := by simpa using hwf
        rw [show reqLines (some ⟨none, some f⟩) ++ rest =
          "[requires]" :: ("python_full_version = \"" ++ f ++ "\"") :: "" :: rest
          from by simp [reqLines]]
        rw [stepLines_cons ⟨⟨top, tables0, arrays⟩, cur⟩ "[requires]" _
          ⟨⟨top, tables0 ++ [("requires", [])], arrays⟩, .table "requires"⟩ (by
            rw [stepLine_sectionHead _ _ "requires" (by decide)
              (assocHas_false_of_not_mem _ _ (by
                intro hmem
                simp only [List.mem_map] at hmem
                obtain ⟨e, he2, hne⟩ := hmem
                exact hpre e he2 hne)) harr])]
        rw [stepLines_cons _ ("python_full_version = \"" ++ f ++ "\"") _
          ⟨⟨top, tables0 ++ [("requires", [("python_full_version", TomlValue.scalar (TomlScalar.str f))])], arrays⟩,
            .table "requires"⟩ (by
            refine stepLine_kv_intable
              ⟨⟨top, tables0 ++ [("requires", [])], arrays⟩,
                .table "requires"⟩
              _ "python_full_version" (TomlValue.scalar (TomlScalar.str f)) "requires"
              (tables0 ++ [("requires", [("python_full_version", TomlValue.scalar (TomlScalar.str f))])]) ?_ rfl ?_
            · rw [show ("python_full_version = \"" ++ f ++ "\"") =
                ("python_full_version" ++ " = \"" ++ f ++ "\"") from by
                  rw [show ("python_full_version" ++ " = \"" : String) = "python_full_version = \"" from rfl]]
              exact parseLine_kv_str "python_full_version" f (by decide) hwf2
            · exact updTable_last "requires" "python_full_version"
                (TomlValue.scalar (TomlScalar.str f)) tables0 []
                hpre rfl)]
        rw [stepLines_cons _ "" _ _ (stepLine_blank _ _ rfl)]
        simp [requiresKvs, reqTablesSeg, reqCur]
      | none =>
        rw [show reqLines (some ⟨none, none⟩) ++ rest =
          "[requires]" :: "" :: rest from by simp [reqLines]]
        rw [stepLines_cons ⟨⟨top, tables0, arrays⟩, cur⟩ "[requires]" _
          ⟨⟨top, tables0 ++ [("requires", [])], arrays⟩, .table "requires"⟩ (by
            rw [stepLine_sectionHead _ _ "requires" (by decide)
              (assocHas_false_of_not_mem _ _ (by
                intro hmem
                simp only [List.mem_map] at hmem
                obtain ⟨e, he2, hne⟩ := hmem
                exact hpre e he2 hne)) harr])]
        rw [stepLines_cons _ "" _ _ (stepLine_blank _ _ rfl)]
        simp [requiresKvs, reqTablesSeg, reqCur]

theorem stepLines_pipenvsec (settings : Option PipfileSettings)
    (tables0 : List (String × List (String × TomlValue)))
    (hpre : ∀ e ∈ tables0, e.1 ≠ "pipenv")
    (top : List (String × TomlValue))
    (arrays : List (String × List (List (String × TomlValue))))
    (harr : assocHas arrays "pipenv" = false) (cur : CurSection)
    (rest : List String) :
    stepLines ⟨⟨top, tables0, arrays⟩, cur⟩ (pipenvLines settings ++ rest) =
      stepLines ⟨⟨top, tables0 ++ pipenvTablesSeg settings, arrays⟩,
        pipenvCur cur settings⟩ rest := by
  cases settings with
  | none => simp [pipenvLines, pipenvTablesSeg, pipenvCur]
  | some s2 =>
    obtain ⟨ap⟩ := s2
    rw [show pipenvLines (some ⟨ap⟩) ++ rest =
      "[pipenv]" :: ((if ap then ["allow_prereleases = true"] else []) ++
        ("" :: rest)) from by simp [pipenvLines]]
    rw [stepLines_cons ⟨⟨top, tables0, arrays⟩, cur⟩ "[pipenv]" _
      ⟨⟨top, tables0 ++ [("pipenv", [])], arrays⟩, .table "pipenv"⟩ (by
        rw [stepLine_sectionHead _ _ "pipenv" (by decide)
          (assocHas_false_of_not_mem _ _ (by
            intro hmem
            simp only [List.mem_map] at hmem
            obtain ⟨e, he2, hne⟩ := hmem
            exact hpre e he2 hne)) harr])]
    cases ap with
    | true =>
      rw [show (if true then ["allow_prereleases = true"] else []) ++
        ("" :: rest) = "allow_prereleases = true" :: ("" :: rest) from rfl]
      rw [stepLines_cons _ "allow_prereleases = true" _
        ⟨⟨top, tables0 ++ [("pipenv",
          [("allow_prereleases", TomlValue.scalar (TomlScalar.bool true))])],
          arrays⟩, .table "pipenv"⟩ (by
          refine stepLine_kv_intable
            ⟨⟨top, tables0 ++ [("pipenv", [])], arrays⟩, .table "pipenv"⟩
            _ "allow_prereleases" (TomlValue.scalar (TomlScalar.bool true))
            "pipenv"
            (tables0 ++ [("pipenv",
              [("allow_prereleases", TomlValue.scalar (TomlScalar.bool true))])])
            ?_ rfl ?_
          · decide
          · exact updTable_last "pipenv" "allow_prereleases"
              (TomlValue.scalar (TomlScalar.bool true)) tables0 [] hpre rfl)]
      rw [stepLines_cons _ "" _ _ (stepLine_blank _ _ rfl)]
      simp [pipenvKvs, pipenvTablesSeg, pipenvCur]
    | false =>
      rw [show (if false then ["allow_prereleases = true"] else []) ++
        ("" :: rest) = "" :: rest from rfl]
      rw [stepLines_cons _ "" _ _ (stepLine_blank _ _ rfl)]
      simp [pipenvKvs, pipenvTablesSeg, pipenvCur]

/-- The named tables of the raw document the rendered manifest parses to. -/
def pipfileTables (p : Pipfile) : List (String × List (String × TomlValue)) :=
  (([("packages", p.packages.map pkgKv),
     ("dev-packages", p.dev_packages.map pkgKv)] ++
    reqTablesSeg p.requires) ++
   (if p.scripts.isEmpty then [] else [("scripts", p.scripts.map scriptKv)])) ++
  pipenvTablesSeg p.pipenv

/-- The arrays-of-tables of the raw document the rendered manifest parses to. -/
def pipfileArrays (p : Pipfile) :
    List (String × List (List (String × TomlValue))) :=
  if p.source.isEmpty then [] else [("source", p.source.map sourceKvs)]

theorem pipfileLines_eq (p : Pipfile) :
    pipfileLines p =
      (p.source.map sourceLinesOf).flatten ++
      (("[packages]" :: p.packages.map packageLineOf ++ [""]) ++
      (("[dev-packages]" :: p.dev_packages.map packageLineOf ++ [""]) ++
      (reqLines p.requires ++
      ((if p.scripts.isEmpty then []
        else "[scripts]" :: p.scripts.map scriptLineOf ++ [""]) ++
      (pipenvLines p.pipenv ++ ([] : List String)))))) := by
  cases hreq : p.requires <;> cases hpe : p.pipenv <;>
    simp [pipfileLines, reqLines, pipenvLines, hreq, hpe, List.append_assoc]

theorem stepLines_nil (st : PState) : stepLines st [] = .ok st := rfl

theorem stepLines_sections (p : Pipfile)
    (hpk_s : SMap.sortedKeys p.packages = true)
    (hpk_w : p.packages.all packageWF = true)
    (hdv_s : SMap.sortedKeys p.dev_packages = true)
    (hdv_w : p.dev_packages.all packageWF = true)
    (hrq : (match p.requires with
            | some r =>
              (match r.python_version with
               | some v => goodStr v | none => true) &&
              (match r.python_full_version with
               | some v => goodStr v | none => true)
            | none => true) = true)
    (hsc_s : SMap.sortedKeys p.scripts = true)
    (hsc_w : p.scripts.all (fun kv => bareKey kv.1 && scriptStr kv.2) = true)
    (arrays : List (String × List (List (String × TomlValue))))
    (cur : CurSection)
    (ha1 : assocHas arrays "packages" = false)
    (ha2 : assocHas arrays "dev-packages" = false)
    (ha3 : assocHas arrays "requires" = false)
    (ha4 : assocHas arrays "scripts" = false)
    (ha5 : assocHas arrays "pipenv" = false) :
    ∃ cur2, stepLines ⟨⟨[], [], arrays⟩, cur⟩
      (("[packages]" :: p.packages.map packageLineOf ++ [""]) ++
      (("[dev-packages]" :: p.dev_packages.map packageLineOf ++ [""]) ++
      (reqLines p.requires ++
      ((if p.scripts.isEmpty then []
        else "[scripts]" :: p.scripts.map scriptLineOf ++ [""]) ++
      (pipenvLines p.pipenv ++ ([] : List String)))))) =
      .ok ⟨⟨[], pipfileTables p, arrays⟩, cur2⟩ := by
  refine ⟨pipenvCur
    (if p.scripts.isEmpty then
      reqCur (.table "dev-packages") p.requires
     else .table "scripts") p.pipenv, ?_⟩
  rw [stepLines_pkgsec_full "[packages]" "packages" p.packages hpk_s hpk_w []
    (by intro e he; simp at he) [] arrays ha1 cur (by decide) _]
  simp only [List.nil_append]
  rw [stepLines_pkgsec_full "[dev-packages]" "dev-packages" p.dev_packages
    hdv_s hdv_w [("packages", List.map pkgKv p.packages)]
    (by
      intro e he
      have he2 : e = ("packages", List.map pkgKv p.packages) := by simpa using he
      rw [he2]
      exact (by decide : ("packages" : String) ≠ "dev-packages")) [] arrays ha2
    _ (by decide) _]
  simp only [List.singleton_append]
  rw [stepLines_reqsec p.requires hrq
    [("packages", List.map pkgKv p.packages),
     ("dev-packages", List.map pkgKv p.dev_packages)]
    (by
      intro e he
      rcases (by simpa using he :
        e = ("packages", List.map pkgKv p.packages) ∨
        e = ("dev-packages", List.map pkgKv p.dev_packages)) with he2 | he2
      · rw [he2]
        exact (by decide : ("packages" : String) ≠ "requires")
      · rw [he2]
        exact (by decide : ("dev-packages" : String) ≠ "requires")) [] arrays
    ha3 _ _]
  rw [stepLines_scriptsec_full p.scripts hsc_s hsc_w
    ([("packages", List.map pkgKv p.packages),
      ("dev-packages", List.map pkgKv p.dev_packages)] ++
     reqTablesSeg p.requires)
    (by
      intro e he
      rcases List.mem_append.mp he with he | he
      · rcases (by simpa using he :
          e = ("packages", List.map pkgKv p.packages) ∨
          e = ("dev-packages", List.map pkgKv p.dev_packages)) with he2 | he2
        · rw [he2]
          exact (by decide : ("packages" : String) ≠ "scripts")
        · rw [he2]
          exact (by decide : ("dev-packages" : String) ≠ "scripts")
      · cases hreq : p.requires with
        | none => rw [hreq] at he; simp [reqTablesSeg] at he
        | some r =>
          rw [hreq] at he
          have he2 : e = ("requires", requiresKvs r) := by
            simpa [reqTablesSeg] using he
          rw [he2]
          exact (by decide : ("requires" : String) ≠ "scripts")) [] arrays ha4
    _ _]
  rw [stepLines_pipenvsec p.pipenv
    (([("packages", List.map pkgKv p.packages),
       ("dev-packages", List.map pkgKv p.dev_packages)] ++
      reqTablesSeg p.requires) ++
     (if p.scripts.isEmpty then []
      else [("scripts", p.scripts.map scriptKv)]))
    (by
      intro e he
      rcases List.mem_append.mp he with he | he
      · rcases List.mem_append.mp he with he | he
        · rcases (by simpa using he :
            e = ("packages", List.map pkgKv p.packages) ∨
            e = ("dev-packages", List.map pkgKv p.dev_packages)) with he2 | he2
          · rw [he2]
            exact (by decide : ("packages" : String) ≠ "pipenv")
          · rw [he2]
            exact (by decide : ("dev-packages" : String) ≠ "pipenv")
        · cases hreq : p.requires with
          | none => rw [hreq] at he; simp [reqTablesSeg] at he
          | some r =>
            rw [hreq] at he
            have he2 : e = ("requires", requiresKvs r) := by
              simpa [reqTablesSeg] using he
            rw [he2]
            exact (by decide : ("requires" : String) ≠ "pipenv")
      · by_cases hsc : p.scripts.isEmpty
        · rw [if_pos hsc] at he
          simp at he
        · rw [if_neg hsc] at he
          have he2 : e = ("scripts", p.scripts.map scriptKv) := by simpa using he
          rw [he2]
          exact (by decide : ("scripts" : String) ≠ "pipenv")) [] arrays ha5
    _ _]
  rw [stepLines_nil]
  rfl

theorem noNL_sourceLines (s : PipfileSource) (hn : goodStr s.name = true)
    (hu : goodStr s.url = true) : (sourceLinesOf s).all noNL = true := by
  simp only [sourceLinesOf, List.all_cons, List.all_nil, Bool.and_eq_true,
    Bool.and_true]
  refine ⟨by decide, ?_, ?_, ?_, by decide⟩
  · simp only [noNL_append, Bool.and_eq_true]
    exact ⟨⟨by decide, noNL_goodStr _ hu⟩, by decide⟩
  · cases s.verify_ssl <;> decide
  · simp only [noNL_append, Bool.and_eq_true]
    exact ⟨⟨by decide, noNL_goodStr _ hn⟩, by decide⟩

theorem noNL_scriptLine (kv : String × String)
    (h : (bareKey kv.1 && scriptStr kv.2) = true) :
    noNL (scriptLineOf kv) = true := by
  simp only [Bool.and_eq_true] at h
  simp only [scriptLineOf, noNL_append, Bool.and_eq_true]
  exact ⟨⟨⟨noNL_bareKey _ h.1, by decide⟩, noNL_escape _ h.2⟩, by decide⟩

theorem all_append_of {α : Type} {p2 : α → Bool} {a b : List α}
    (ha : a.all p2 = true) (hb : b.all p2 = true) :
    (a ++ b).all p2 = true := by
  simp [List.all_append, ha, hb]

theorem all_cons_of {α : Type} {p2 : α → Bool} {x : α} {l : List α}
    (hx : p2 x = true) (hl : l.all p2 = true) : (x :: l).all p2 = true := by
  simp [hx, hl]

theorem noNL_reqLines (req : Option PipfileRequires)
    (h : (match req with
          | some r =>
            (match r.python_version with
             | some v => goodStr v | none => true) &&
            (match r.python_full_version with
             | some v => goodStr v | none => true)
          | none => true) = true) :
    (reqLines req).all noNL = true := by
  cases req with
  | none => rfl
  | some r =>
    obtain ⟨pv, pf⟩ := r
    have hline : ∀ k v : String, noNL k = true → goodStr v = true →
        noNL (k ++ " = \"" ++ v ++ "\"") = true := by
      intro k v hk hv
      simp only [noNL_append, Bool.and_eq_true]
      exact ⟨⟨⟨hk, by decide⟩, noNL_goodStr _ hv⟩, by decide⟩
    cases pv with
    | none =>
      cases pf with
      | none => decide
      | some f =>
        have hf : goodStr f = true := by simpa using h
        refine all_append_of (all_append_of (all_append_of (by decide) (by rfl))
          ?_) (by decide)
        show (["python_full_version = \"" ++ f ++ "\""]).all noNL = true
        refine all_cons_of ?_ (by rfl)
        exact hline "python_full_version" f (by decide) hf
    | some v =>
      cases pf with
      | none =>
        have hv : goodStr v = true := by simpa using h
        refine all_append_of (all_append_of (all_append_of (by decide) ?_)
          (by rfl)) (by decide)
        show (["python_version = \"" ++ v ++ "\""]).all noNL = true
        refine all_cons_of ?_ (by rfl)
        exact hline "python_version" v (by decide) hv
      | some f =>
        have h2 : goodStr v = true ∧ goodStr f = true := by simpa using h
        refine all_append_of (all_append_of (all_append_of (by decide) ?_) ?_)
          (by decide)
        · show (["python_version = \"" ++ v ++ "\""]).all noNL = true
          refine all_cons_of ?_ (by rfl)
          exact hline "python_version" v (by decide) h2.1
        · show (["python_full_version = \"" ++ f ++ "\""]).all noNL = true
          refine all_cons_of ?_ (by rfl)
          exact hline "python_full_version" f (by decide) h2.2

theorem noNL_pipenvLines (settings : Option PipfileSettings) :
    (pipenvLines settings).all noNL = true := by
  cases settings with
  | none => rfl
  | some s2 =>
    obtain ⟨ap⟩ := s2
    cases ap <;> decide

theorem noNL_pipfileLines (p : Pipfile) (h : pipfileWF p = true) :
    (pipfileLines p).all noNL = true := by
  simp only [pipfileWF, Bool.and_eq_true] at h
  obtain ⟨⟨⟨⟨⟨⟨⟨h1, h2⟩, h3⟩, h4⟩, h5⟩, h6⟩, h7⟩, h8⟩ := h
  rw [pipfileLines_eq]
  refine all_append_of ?_ (all_append_of ?_ (all_append_of ?_
    (all_append_of ?_ (all_append_of ?_ (all_append_of ?_ (by rfl))))))
  · rw [List.all_eq_true]
    intro l hl
    simp only [List.mem_flatten, List.mem_map] at hl
    obtain ⟨ls, ⟨src, hsrc, rfl⟩, hl⟩ := hl
    have hgood : (goodStr src.name && goodStr src.url) = true := by
      rw [List.all_eq_true] at h1
      exact h1 src hsrc
    simp only [Bool.and_eq_true] at hgood
    have := noNL_sourceLines src hgood.1 hgood.2
    rw [List.all_eq_true] at this
    exact this l hl
  · refine all_cons_of (by decide) (all_append_of ?_ (by decide))
    rw [List.all_eq_true]
    intro l hl
    simp only [List.mem_map] at hl
    obtain ⟨kv, hkv, rfl⟩ := hl
    have hw : packageWF kv = true := by
      rw [List.all_eq_true] at h3
      exact h3 kv hkv
    exact noNL_packageLine kv hw
  · refine all_cons_of (by decide) (all_append_of ?_ (by decide))
    rw [List.all_eq_true]
    intro l hl
    simp only [List.mem_map] at hl
    obtain ⟨kv, hkv, rfl⟩ := hl
    have hw : packageWF kv = true := by
      rw [List.all_eq_true] at h5
      exact h5 kv hkv
    exact noNL_packageLine kv hw
  · exact noNL_reqLines p.requires h6
  · by_cases hsc : p.scripts.isEmpty
    · rw [if_pos hsc]
      rfl
    · rw [if_neg hsc]
      refine all_cons_of (by decide) (all_append_of ?_ (by decide))
      rw [List.all_eq_true]
      intro l hl
      simp only [List.mem_map] at hl
      obtain ⟨kv, hkv, rfl⟩ := hl
      have hw : (bareKey kv.1 && scriptStr kv.2) = true := by
        rw [List.all_eq_true] at h8
        exact h8 kv hkv
      exact noNL_scriptLine kv hw
  · exact noNL_pipenvLines p.pipenv

theorem stepLines_pipfile (p : Pipfile) (h : pipfileWF p = true) :
    ∃ cur2, stepLines ⟨⟨[], [], []⟩, .top⟩ (pipfileLines p) =
      .ok ⟨⟨[], pipfileTables p, pipfileArrays p⟩, cur2⟩ := by
  have h2 := h
  simp only [pipfileWF, Bool.and_eq_true] at h2
  obtain ⟨⟨⟨⟨⟨⟨⟨hsrc, hpk_s⟩, hpk_w⟩, hdv_s⟩, hdv_w⟩, hrq⟩, hsc_s⟩, hsc_w⟩ := h2
  rw [pipfileLines_eq]
  rw [stepLines_sources_init p.source hsrc _]
  by_cases hse : p.source.isEmpty
  · rw [if_pos hse, if_pos hse]
    rw [show pipfileArrays p = [] from by simp [pipfileArrays, hse]]
    exact stepLines_sections p hpk_s hpk_w hdv_s hdv_w hrq hsc_s hsc_w
      [] .top rfl rfl rfl rfl rfl
  · rw [if_neg hse, if_neg hse]
    rw [show pipfileArrays p = [("source", p.source.map sourceKvs)] from by
      simp [pipfileArrays, hse]]
    exact stepLines_sections p hpk_s hpk_w hdv_s hdv_w hrq hsc_s hsc_w
      [("source", p.source.map sourceKvs)] (.arrayElem "source")
      rfl rfl rfl rfl rfl

/-! ## Deserializing the parsed document back to the manifest -/

theorem parseSource_sourceKvs (s : PipfileSource) :
    parseSource (sourceKvs s) = .ok s := by
  obtain ⟨n, u, v⟩ := s
  rfl

theorem mapM_parseSource (ss : List PipfileSource) :
    (ss.map sourceKvs).mapM parseSource = .ok ss := by
  induction ss with
  | nil => rfl
  | cons s t ih =>
    rw [List.map_cons, List.mapM_cons]
    rw [parseSource_sourceKvs]
    rw [show ((Except.ok s : Except String PipfileSource) >>= fun x =>
        (t.map sourceKvs).mapM parseSource >>= fun xs => pure (x :: xs)) =
      ((t.map sourceKvs).mapM parseSource >>= fun xs => pure (s :: xs)) from rfl]
    rw [ih]
    rfl

theorem parseRequires_requiresKvs (r : PipfileRequires) :
    parseRequires (requiresKvs r) = .ok r := by
  obtain ⟨pv, pf⟩ := r
  cases pv <;> cases pf <;> rfl

theorem parseSettings_pipenvKvs (s2 : PipfileSettings) :
    parseSettings (pipenvKvs s2) = .ok s2 := by
  obtain ⟨ap⟩ := s2
  cases ap <;> rfl

theorem assocHas_reqSeg (req : Option PipfileRequires) (k : String)
    (hk : (k == "requires") = false) :
    assocHas (reqTablesSeg req) k = false := by
  cases req with
  | none => rfl
  | some r => simp [reqTablesSeg, assocHas, List.lookup, hk]

theorem assocHas_scrSeg (m : SMap String) (k : String)
    (hk : (k == "scripts") = false) :
    assocHas (if m.isEmpty then [] else [("scripts", m.map scriptKv)]) k =
      false := by
  by_cases he : m.isEmpty
  · simp [he, assocHas]
  · simp [he, assocHas, List.lookup, hk]

theorem assocHas_pevSeg (settings : Option PipfileSettings) (k : String)
    (hk : (k == "pipenv") = false) :
    assocHas (pipenvTablesSeg settings) k = false := by
  cases settings with
  | none => rfl
  | some s2 => simp [pipenvTablesSeg, assocHas, List.lookup, hk]

theorem assocHas_pipfileArrays (p : Pipfile) (k : String)
    (hk : (k == "source") = false) :
    assocHas (pipfileArrays p) k = false := by
  by_cases hse : p.source.isEmpty
  · simp [pipfileArrays, hse, assocHas]
  · simp [pipfileArrays, hse, assocHas, List.lookup, hk]

theorem tables_lookup_source_none (p : Pipfile) :
    assocHas (pipfileTables p) "source" = false := by
  simp only [pipfileTables, assocHas_append, Bool.or_eq_false_iff]
  refine ⟨⟨⟨by rfl, assocHas_reqSeg _ _ (by decide)⟩,
    assocHas_scrSeg _ _ (by decide)⟩, assocHas_pevSeg _ _ (by decide)⟩

theorem tables_lookup_packages (p : Pipfile) :
    (pipfileTables p).lookup "packages" = some (p.packages.map pkgKv) := by
  simp only [pipfileTables, List.append_assoc, lookup_append_or]
  rfl

theorem tables_lookup_dev (p : Pipfile) :
    (pipfileTables p).lookup "dev-packages" =
      some (p.dev_packages.map pkgKv) := by
  simp only [pipfileTables, List.append_assoc, lookup_append_or]
  rfl

theorem lookup_reqSeg_same (req : Option PipfileRequires) :
    (reqTablesSeg req).lookup "requires" = Option.map requiresKvs req := by
  cases req with
  | none => rfl
  | some r => simp [reqTablesSeg, List.lookup]

theorem lookup_scrSeg_same (m : SMap String) :
    List.lookup "scripts"
      (if m.isEmpty then [] else [("scripts", m.map scriptKv)]) =
      (if m.isEmpty then none else some (m.map scriptKv)) := by
  by_cases he : m.isEmpty
  · simp [he]
  · simp [he, List.lookup]

theorem lookup_pevSeg_same (settings : Option PipfileSettings) :
    (pipenvTablesSeg settings).lookup "pipenv" =
      Option.map pipenvKvs settings := by
  cases settings with
  | none => rfl
  | some s2 => simp [pipenvTablesSeg, List.lookup]

theorem lookup_reqSeg_other (req : Option PipfileRequires) (k : String)
    (hk : (k == "requires") = false) : (reqTablesSeg req).lookup k = none := by
  cases req with
  | none => rfl
  | some r => simp [reqTablesSeg, List.lookup, hk]

theorem lookup_scrSeg_other (m : SMap String) (k : String)
    (hk : (k == "scripts") = false) :
    List.lookup k (if m.isEmpty then [] else [("scripts", m.map scriptKv)]) =
      none := by
  by_cases he : m.isEmpty
  · simp [he]
  · simp [he, List.lookup, hk]

theorem lookup_pevSeg_other (settings : Option PipfileSettings) (k : String)
    (hk : (k == "pipenv") = false) :
    (pipenvTablesSeg settings).lookup k = none := by
  cases settings with
  | none => rfl
  | some s2 => simp [pipenvTablesSeg, List.lookup, hk]

theorem tables_lookup_requires (p : Pipfile) :
    (pipfileTables p).lookup "requires" = Option.map requiresKvs p.requires := by
  simp only [pipfileTables, List.append_assoc, lookup_append_or]
  rw [show List.lookup "requires"
    [("packages", p.packages.map pkgKv),
     ("dev-packages", p.dev_packages.map pkgKv)] = none from rfl]
  rw [lookup_reqSeg_same]
  rw [lookup_scrSeg_other p.scripts "requires" (by decide)]
  rw [lookup_pevSeg_other p.pipenv "requires" (by decide)]
  cases p.requires <;> rfl

theorem tables_lookup_scripts (p : Pipfile) :
    (pipfileTables p).lookup "scripts" =
      (if p.scripts.isEmpty then none else some (p.scripts.map scriptKv)) := by
  simp only [pipfileTables, List.append_assoc, lookup_append_or]
  rw [show List.lookup "scripts"
    [("packages", p.packages.map pkgKv),
     ("dev-packages", p.dev_packages.map pkgKv)] = none from rfl]
  rw [lookup_reqSeg_other p.requires "scripts" (by decide)]
  rw [lookup_scrSeg_same]
  rw [lookup_pevSeg_other p.pipenv "scripts" (by decide)]
  by_cases he : p.scripts.isEmpty
  · rw [if_pos he]
  · rw [if_neg he]

theorem tables_lookup_pipenv (p : Pipfile) :
    (pipfileTables p).lookup "pipenv" = Option.map pipenvKvs p.pipenv := by
  simp only [pipfileTables, List.append_assoc, lookup_append_or]
  rw [show List.lookup "pipenv"
    [("packages", p.packages.map pkgKv),
     ("dev-packages", p.dev_packages.map pkgKv)] = none from rfl]
  rw [lookup_reqSeg_other p.requires "pipenv" (by decide)]
  rw [lookup_scrSeg_other p.scripts "pipenv" (by decide)]
  rw [lookup_pevSeg_same]

theorem sources_part (p : Pipfile) :
    (((pipfileArrays p).lookup "source").getD []).mapM parseSource =
      .ok p.source := by
  by_cases hse : p.source.isEmpty
  · have he : p.source = [] := by simpa [List.isEmpty_iff] using hse
    rw [show pipfileArrays p = [] from by simp [pipfileArrays, hse]]
    rw [he]
    rfl
  · rw [show pipfileArrays p = [("source", p.source.map sourceKvs)] from by
      simp [pipfileArrays, hse]]
    rw [show List.lookup "source" [("source", p.source.map sourceKvs)] =
      some (p.source.map sourceKvs) from by simp [List.lookup]]
    rw [show (some (p.source.map sourceKvs)).getD [] =
      p.source.map sourceKvs from rfl]
    exact mapM_parseSource p.source

theorem deserializePipfile_pipfile (p : Pipfile) (h : pipfileWF p = true) :
    deserializePipfile ⟨[], pipfileTables p, pipfileArrays p⟩ = .ok p := by
  have h2 := h
  simp only [pipfileWF, Bool.and_eq_true] at h2
  obtain ⟨⟨⟨⟨⟨⟨⟨hsrc, hpk_s⟩, hpk_w⟩, hdv_s⟩, hdv_w⟩, hrq⟩, hsc_s⟩, hsc_w⟩ := h2
  unfold deserializePipfile
  rw [if_neg (by
    rw [show (⟨[], pipfileTables p, pipfileArrays p⟩ : RawDoc).top = [] from rfl]
    simp)]
  rw [if_neg (by
    rw [show (⟨[], pipfileTables p, pipfileArrays p⟩ : RawDoc).tables =
      pipfileTables p from rfl]
    simp [tables_lookup_source_none p])]
  rw [if_neg (by
    rw [show (⟨[], pipfileTables p, pipfileArrays p⟩ : RawDoc).arrays =
      pipfileArrays p from rfl]
    simp [assocHas_pipfileArrays p "packages" (by decide),
      assocHas_pipfileArrays p "dev-packages" (by decide),
      assocHas_pipfileArrays p "requires" (by decide),
      assocHas_pipfileArrays p "scripts" (by decide),
      assocHas_pipfileArrays p "pipenv" (by decide)])]
  rw [show (⟨[], pipfileTables p, pipfileArrays p⟩ : RawDoc).arrays =
    pipfileArrays p from rfl]
  rw [show (⟨[], pipfileTables p, pipfileArrays p⟩ : RawDoc).tables =
    pipfileTables p from rfl]
  rw [sources_part p]
  rw [tables_lookup_packages p, tables_lookup_dev p, tables_lookup_requires p,
    tables_lookup_scripts p, tables_lookup_pipenv p]
  rw [show (some (p.packages.map pkgKv)).getD [] = p.packages.map pkgKv
    from rfl]
  rw [show (some (p.dev_packages.map pkgKv)).getD [] = p.dev_packages.map pkgKv
    from rfl]
  rw [parsePackages_map p.packages hpk_s, parsePackages_map p.dev_packages hdv_s]
  have hreqstep : (match Option.map requiresKvs p.requires with
      | none => Except.ok none
      | some kvs =>
        match parseRequires kvs with
        | .error e => .error e
        | .ok r => Except.ok (some r) :
      Except String (Option PipfileRequires)) = .ok p.requires := by
    cases p.requires with
    | none => rfl
    | some r =>
      rw [show Option.map requiresKvs (some r) = some (requiresKvs r) from rfl]
      simp only [parseRequires_requiresKvs r]
  rw [hreqstep]
  have hscstep : parseScripts ((if p.scripts.isEmpty then none
      else some (p.scripts.map scriptKv)).getD []) = .ok p.scripts := by
    by_cases he : p.scripts.isEmpty
    · rw [if_pos he]
      have he2 : p.scripts = [] := by simpa [List.isEmpty_iff] using he
      rw [he2]
      rfl
    · rw [if_neg he]
      exact parseScripts_map p.scripts hsc_s
  rw [hscstep]
  have hpevstep : (match Option.map pipenvKvs p.pipenv with
      | none => Except.ok none
      | some kvs =>
        match parseSettings kvs with
        | .error e => .error e
        | .ok s2 => Except.ok (some s2) :
      Except String (Option PipfileSettings)) = .ok p.pipenv := by
    cases p.pipenv with
    | none => rfl
    | some s2 =>
      rw [show Option.map pipenvKvs (some s2) = some (pipenvKvs s2) from rfl]
      simp only [parseSettings_pipenvKvs s2]
  rw [hpevstep]

theorem roundtrip_wf (p : Pipfile) (h : pipfileWF p = true) :
    pipfile_from_toml (Pipfile.to_toml_string p) = .ok p := by
  unfold pipfile_from_toml
  rw [to_toml_string_eq_wlines]
  rw [show (wlines (pipfileLines p)).data =
    (wlines (pipfileLines p)).data ++ ([] : List Char) from by simp]
  rw [parseDoc_wlines (pipfileLines p) (noNL_pipfileLines p h)
    ⟨⟨[], [], []⟩, .top⟩ []]
  obtain ⟨cur2, hc⟩ := stepLines_pipfile p h
  rw [hc]
  rw [show (match (match Except.ok
        (⟨⟨[], pipfileTables p, pipfileArrays p⟩, cur2⟩ : PState) with
      | Except.error e => Except.error e
      | Except.ok st2 => parseDocLines st2 (splitLinesAux [] []) :
        Except String PState) with
    | Except.error e => Except.error e
    | Except.ok st => deserializePipfile st.doc) =
    deserializePipfile (⟨[], pipfileTables p, pipfileArrays p⟩ : RawDoc)
    from rfl]
  exact deserializePipfile_pipfile p h

/-! ## Claims C3 and C8 -/

/-- C3 counterexample: a manifest obtained by parsing (package `foo` with
version `a"b`, reachable because the manifest parser processes backslash
escapes inside quoted values) renders — the writer emits the version
verbatim, without escaping — to text that is not valid TOML, so
`parse(render(m))` fails instead of yielding an equivalent manifest. -/
theorem c3_parse_render_counterexample :
    pipfile_from_toml "[packages]\nfoo = \"a\\\"b\"" =
      .ok ⟨[], [("foo", .Simple "a\"b")], [], none, [], none⟩ ∧
    (pipfile_from_toml (Pipfile.to_toml_string
      ⟨[], [("foo", .Simple "a\"b")], [], none, [], none⟩)).isOk = false := by
  constructor
  · decide
  · decide

/-- C3 (amended): for every well-formed manifest — package and script maps
sorted with bare-key names, plain string fields free of characters that
would need TOML escaping, script commands merely control-free — re-parsing
the rendered text succeeds and returns the manifest itself, hence equal
source count, equal package-map and dev-package-map sizes, equal key sets,
and equal values for every key. -/
theorem c3_parse_render_roundtrip (m : Pipfile) (h : pipfileWF m = true) :
    ∃ m2, pipfile_from_toml (Pipfile.to_toml_string m) = .ok m2 ∧
      m2.source.length = m.source.length ∧
      m2.packages.length = m.packages.length ∧
      m2.dev_packages.length = m.dev_packages.length ∧
      SMap.keys m2.packages = SMap.keys m.packages ∧
      SMap.keys m2.dev_packages = SMap.keys m.dev_packages ∧
      m2 = m :=
  ⟨m, roundtrip_wf m h, rfl, rfl, rfl, rfl, rfl, rfl⟩

theorem c3_parse_render_roundtrip_witness :
    (pipfileWF ⟨[⟨"pypi", "https://pypi.org/simple", true⟩],
      [("requests", .Simple ">=2.0")], [], some ⟨some "3.11", none⟩,
      [("test", "pytest -q \"x\"")], some ⟨true⟩⟩ = true) ∧
    (∃ m2, pipfile_from_toml (Pipfile.to_toml_string
        ⟨[⟨"pypi", "https://pypi.org/simple", true⟩],
         [("requests", .Simple ">=2.0")], [], some ⟨some "3.11", none⟩,
         [("test", "pytest -q \"x\"")], some ⟨true⟩⟩) = .ok m2 ∧
      m2.source.length = 1 ∧
      m2.packages.length = 1 ∧
      m2.dev_packages.length = 0 ∧
      SMap.keys m2.packages = ["requests"] ∧
      SMap.keys m2.dev_packages = [] ∧
      m2 = ⟨[⟨"pypi", "https://pypi.org/simple", true⟩],
        [("requests", .Simple ">=2.0")], [], some ⟨some "3.11", none⟩,
        [("test", "pytest -q \"x\"")], some ⟨true⟩⟩) :=
  ⟨by decide, c3_parse_render_roundtrip _ (by decide)⟩

/-- C8 counterexample: the writer escapes only script command values
(`escape_toml_value` is applied at the single `[scripts]` call site);
a package `markers` field containing a quote is emitted verbatim, and the
rendered manifest is not valid TOML, so it cannot re-parse to the same
string values. -/
theorem c8_escape_counterexample :
    ('"' ∈ "os_name == \"nt".data) ∧
    (pipfile_from_toml (Pipfile.to_toml_string
      ⟨[], [("foo", .Detailed ⟨some "1.0", [], some "os_name == \"nt",
        none, none, none, none, false, none⟩)], [], none, [],
        none⟩)).isOk = false := by
  constructor
  · decide
  · decide

/-- C8 (amended): only script command values pass through
`escape_toml_value`; for a well-formed manifest, a script command may
contain `"` or `\` and the rendered text still re-parses to the very same
manifest, script values included — while other string fields must not
contain such characters (the counterexample shows the writer emits them
unescaped, producing invalid TOML). -/
theorem c8_script_escaping_roundtrip (m : Pipfile) (h : pipfileWF m = true)
    (hq : ∃ kv ∈ m.scripts, '"' ∈ kv.2.data ∨ '\\' ∈ kv.2.data) :
    pipfile_from_toml (Pipfile.to_toml_string m) = .ok m :=
  roundtrip_wf m h

theorem c8_script_escaping_roundtrip_witness :
    (pipfileWF ⟨[], [], [], none,
      [("lint", "ruff check \\\"src\\\"")], none⟩ = true) ∧
    (∃ kv ∈ ([("lint", "ruff check \\\"src\\\"")] : SMap String),
      '"' ∈ kv.2.data ∨ '\\' ∈ kv.2.data) ∧
    pipfile_from_toml (Pipfile.to_toml_string
      ⟨[], [], [], none, [("lint", "ruff check \\\"src\\\"")], none⟩) =
      .ok ⟨[], [], [], none, [("lint", "ruff check \\\"src\\\"")], none⟩ :=
  ⟨by decide, by decide,
    c8_script_escaping_roundtrip _ (by decide) (by decide)⟩
